import Mathlib

/-!
neo-thinsdk-go: Base58Check codec, script builder and transaction codec.

A shallow embedding of `neo/base58.go`, `neo/scriptbuilder.go` and
`neo/transaction.go`.

* A Go `byte` is `Byte = Fin 256`; a Go `string` is the list of its bytes.
* `bytes.Buffer` is the list of bytes written so far (writers) or still unread
  (readers).
* A Go `panic` or returned `error` is the `error` branch of `Except`.
* Library code that is not part of the package sources (`crypto/sha256`, the
  `opcode` constants, signature verification, address derivation) is taken as a
  parameter.
-/

namespace Neo

/-- A Go `byte` (`uint8`). -/
abbrev Byte := Fin 256

/-- A Go `uint16`. -/
abbrev U16 := Fin 65536

/-- A Go `uint64`. -/
abbrev U64 := Fin 18446744073709551616

/-- Go conversion `byte(n)` / `uint8(n)`: truncation modulo 256. -/
def toByte (n : Nat) : Byte := ⟨n % 256, Nat.mod_lt n (by decide)⟩

deriving instance DecidableEq for Except

/-! ## math/big -/

/-- `new(big.Int).SetBytes(b)`: the big-endian unsigned value of `b`. -/
def bigSetBytes (b : List Byte) : Nat :=
  b.foldl (fun x d => x * 256 + d.val) 0

/-- Loop behind `(*big.Int).Bytes`: peel base-256 digits off `x`, least
significant first, pushing each in front of `acc`. -/
def bigBytesLoop : Nat → Nat → List Byte → List Byte
  | 0, _, acc => acc
  | fuel + 1, x, acc =>
    if x > 0 then bigBytesLoop fuel (x / 256) (toByte (x % 256) :: acc) else acc

/-- `x.Bytes()`: the minimal big-endian byte slice of the absolute value `x`
(empty for zero). The fuel `x` is never exhausted (`bigBytesLoop_fuel`). -/
def bigBytes (x : Nat) : List Byte := bigBytesLoop x x []

/-! ## neo/base58.go -/

/-- The constant `BitcoinBase58Table`. -/
def BitcoinBase58Table : List Byte :=
  "123456789ABCDEFGHJKLMNPQRSTUVWXYZabcdefghijkmnopqrstuvwxyz".toList.map
    (fun c => toByte c.toNat)

/-- `strings.IndexByte(s, c)`: index of the first occurrence of `c`, `none` for -1. -/
def IndexByte : List Byte → Byte → Option Nat
  | [], _ => none
  | x :: xs, c => if x = c then some 0 else (IndexByte xs c).map (· + 1)

/-- Errors of the Base-58 codec, one per `fmt.Errorf` of `base58.go`. -/
inductive B58Error where
  /-- "Invalid base-58 character encountered: c, index i." -/
  | invalidChar (c : Byte) (i : Nat)
  /-- "Invalid base-58 check string: missing checksum." -/
  | missingChecksum
  /-- "Invalid base-58 check string: invalid checksum." -/
  | invalidChecksum
  deriving DecidableEq, Repr

/-- The `for x.Cmp(zero) > 0` loop of `b58encode`: `x, r = x / 58, x % 58`,
then the character `BitcoinBase58Table[r]` is prepended to `s`. -/
def b58encodeLoop : Nat → Nat → List Byte → List Byte
  | 0, _, s => s
  | fuel + 1, x, s =>
    if x > 0 then
      b58encodeLoop fuel (x / 58) (BitcoinBase58Table.getD (x % 58) 0 :: s)
    else s

/-- `b58encode(b)`. The fuel `x` is never exhausted (`b58encodeLoop_fuel`). -/
def b58encode (b : List Byte) : List Byte :=
  let x := bigSetBytes b
  b58encodeLoop x x []

/-- The `for i := 0; i < len(s); i++` loop of `b58decode`, at index `i` with the
characters from `i` on still to read and accumulator `x`. -/
def b58decodeLoop : List Byte → Nat → Nat → Except B58Error Nat
  | [], _, x => .ok x
  | c :: cs, i, x =>
    match IndexByte BitcoinBase58Table c with
    | none => .error (.invalidChar c i)
    | some b58index => b58decodeLoop cs (i + 1) (x * 58 + b58index)

/-- `b58decode(s)`. -/
def b58decode (s : List Byte) : Except B58Error (List Byte) :=
  match b58decodeLoop s 0 0 with
  | .error e => .error e
  | .ok x => .ok (bigBytes x)

/-- The loop `for _, v := range bcpy { if v != 0 { break }; s = "1" + s }`. -/
def prependOnes : List Byte → List Byte → List Byte
  | [], s => s
  | v :: vs, s => if v ≠ 0 then s else prependOnes vs (0x31 :: s)

/-- `Base58CheckEncode(ver, b)`, over the hash function `sha256`
(`h.Reset(); h.Write(m); h.Sum(nil)`). `hash2[0:4]` is `take 4`. -/
def Base58CheckEncode (sha256 : List Byte → List Byte) (ver : Byte) (b : List Byte) :
    List Byte :=
  let bcpy := ver :: b
  let hash1 := sha256 bcpy
  let hash2 := sha256 hash1
  let bcpy := bcpy ++ hash2.take 4
  let s := b58encode bcpy
  prependOnes bcpy s

/-- The loop `for i < len(s) { if s[i] != '1' { break }; b = append([]byte{0}, b...) }`. -/
def prependZeros : List Byte → List Byte → List Byte
  | [], b => b
  | c :: cs, b => if c ≠ 0x31 then b else prependZeros cs (0 :: b)

/-- `Base58CheckDecode(s)`, over the hash function `sha256`. -/
def Base58CheckDecode (sha256 : List Byte → List Byte) (s : List Byte) :
    Except B58Error (Byte × List Byte) :=
  match b58decode s with
  | .error e => .error e
  | .ok b =>
    let b := prependZeros s b
    if b.length < 5 then .error .missingChecksum
    else
      let hash1 := sha256 (b.take (b.length - 4))
      let hash2 := sha256 hash1
      if hash2.take 4 ≠ b.drop (b.length - 4) then .error .invalidChecksum
      else
        let b := b.take (b.length - 4)
        .ok (b.headD 0, b.tail)

/-- The character `BitcoinBase58Table[r]`. -/
def b58char (r : Nat) : Byte := BitcoinBase58Table.getD r 0

/-- Number of leading zero bytes. -/
def leadingZeros (l : List Byte) : Nat := (l.takeWhile (· = 0)).length

/-! ## neo/scriptbuilder.go -/

/-- The constants of package `opcode` that `scriptbuilder.go` uses; the package
is not among the sources, so its values are a parameter of the embedding. -/
structure Opcodes where
  PUSH0 : Byte
  PUSHF : Byte
  PUSHBYTES75 : Byte
  PUSHDATA1 : Byte
  PUSHDATA2 : Byte
  PUSHDATA4 : Byte
  PUSHM1 : Byte
  PUSH1 : Byte
  PUSHT : Byte
  JMP : Byte
  JMPIF : Byte
  JMPIFNOT : Byte
  CALL : Byte
  APPCALL : Byte
  SYSCALL : Byte
  TAILCALL : Byte
  PACK : Byte

/-- The opcode values of the NEO virtual machine, for evaluating examples. -/
def neoOpcodes : Opcodes where
  PUSH0 := 0x00
  PUSHF := 0x00
  PUSHBYTES75 := 0x4B
  PUSHDATA1 := 0x4C
  PUSHDATA2 := 0x4D
  PUSHDATA4 := 0x4E
  PUSHM1 := 0x4F
  PUSH1 := 0x51
  PUSHT := 0x51
  JMP := 0x62
  JMPIF := 0x63
  JMPIFNOT := 0x64
  CALL := 0x65
  APPCALL := 0x67
  SYSCALL := 0x68
  TAILCALL := 0x69
  PACK := 0xC1

/-- Modelled from the spec: `utils.WriteUint16` (package `utils` has only
`uint256.go` among the sources); "little-endian numeric fields". The argument
is the value before the conversion `uint16(_)`. -/
def WriteUint16 (buf : List Byte) (v : Nat) : List Byte :=
  buf ++ [toByte v, toByte (v / 256)]

/-- Modelled from the spec: `utils.WriteUint32`; "little-endian numeric
fields". The argument is the value before the conversion `uint32(_)`. -/
def WriteUint32 (buf : List Byte) (v : Nat) : List Byte :=
  buf ++ [toByte v, toByte (v / 256), toByte (v / 65536), toByte (v / 16777216)]

/-- `ScriptBuilder.Emit(opcode, arg)` on the buffer `buf`. -/
def Emit (opcode : Byte) (arg : List Byte) (buf : List Byte) : List Byte :=
  let buf := buf ++ [opcode]
  if arg.length ≠ 0 then buf ++ arg else buf

/-- `ScriptBuilder.EmitPushBytes(bytes)` on the buffer `buf`. -/
def EmitPushBytes (oc : Opcodes) (bytes : List Byte) (buf : List Byte) : List Byte :=
  let length := bytes.length
  if length ≤ oc.PUSHBYTES75.val then
    (buf ++ [toByte length]) ++ bytes
  else if length < 0x100 then
    ((Emit oc.PUSHDATA1 [] buf) ++ [toByte length]) ++ bytes
  else if length < 0x10000 then
    (WriteUint16 (Emit oc.PUSHDATA2 [] buf) length) ++ bytes
  else
    (WriteUint32 (Emit oc.PUSHDATA4 [] buf) length) ++ bytes

/-- `ScriptBuilder.EmitPushNumber(number)` on the buffer `buf`; `number.Bytes()`
is the big-endian absolute value and `number.Uint64()` the low 64 bits of the
absolute value. -/
def EmitPushNumber (oc : Opcodes) (number : Int) (buf : List Byte) : List Byte :=
  if number = -1 then Emit oc.PUSHM1 [] buf
  else if number = 0 then Emit oc.PUSH0 [] buf
  else if number > 0 ∧ number < 16 then
    let opc := oc.PUSH1 - 1 + toByte (number.natAbs % 18446744073709551616)
    Emit opc [] buf
  else EmitPushBytes oc (bigBytes number.natAbs) buf

/-- `ScriptBuilder.EmitPushBool(b)` on the buffer `buf`. -/
def EmitPushBool (oc : Opcodes) (b : Bool) (buf : List Byte) : List Byte :=
  if b then Emit oc.PUSHT [] buf else Emit oc.PUSHF [] buf

/-- The panics of `scriptbuilder.go`: its `panic` messages and the run-time
panics of indexing an empty string and of calling `Bytes` on the nil `*big.Int`
that a failed `SetString` returns. -/
inductive ScriptError where
  /-- "runtime error: script hash length error" -/
  | scriptHashLength
  /-- "runtime error: opcode error" -/
  | opcodeError
  /-- "runtime error: api length error" -/
  | apiLength
  /-- "runtime error: data type error" -/
  | dataType
  /-- index out of range: `bytes[0]` on the empty string -/
  | indexOutOfRange
  /-- nil pointer dereference: `value.Bytes()` after a failed `SetString` -/
  | nilBigInt
  deriving DecidableEq, Repr

/-- A Go string literal as its bytes (ASCII literals only). -/
def goString (s : String) : List Byte := s.toList.map (fun c => toByte c.toNat)

/-- The functions of packages `utils` and `neo` that the script compiler and the
transaction builders call and that are not among the sources. `ToBytes` and
`getPublicKeyHashFromAddress` give the slice returned, every call site dropping
the error. -/
structure Helpers where
  Substr : List Byte → Nat → Nat → List Byte
  ToBytes : List Byte → List Byte
  ToHexString : List Byte → List Byte
  getPublicKeyHashFromAddress : List Byte → List Byte

/-- Modelled from the spec: `utils.BytesReverse` (not among the sources);
"byte-order reversal". -/
def BytesReverse (b : List Byte) : List Byte := b.reverse

/-- The digit loop of `(*big.Int).SetString(s, 10)`: every character has to be
a decimal digit. -/
def parseDigits : List Byte → Nat → Option Nat
  | [], acc => some acc
  | c :: cs, acc =>
    if 0x30 ≤ c ∧ c ≤ 0x39 then parseDigits cs (acc * 10 + (c.val - 0x30)) else none

/-- `new(big.Int).SetString(s, 10)`: an optional sign, then at least one decimal
digit and nothing else; `none` for the failure result `(nil, false)`. -/
def bigSetString10 (s : List Byte) : Option Int :=
  match s with
  | [] => none
  | c :: cs =>
    if c = 0x2D then
      if cs = [] then none else (parseDigits cs 0).map (fun n => -(n : Int))
    else if c = 0x2B then
      if cs = [] then none else (parseDigits cs 0).map (fun n => (n : Int))
    else (parseDigits (c :: cs) 0).map (fun n => (n : Int))

/-- `ScriptBuilder.EmitAppCall(scriptHash, useTailCall)` on the buffer `buf`:
the panic, if any, and the buffer after the call. -/
def EmitAppCall (oc : Opcodes) (scriptHash : List Byte) (useTailCall : Bool) (buf : List Byte) :
    Except ScriptError Unit × List Byte :=
  if scriptHash.length ≠ 20 then (.error .scriptHashLength, buf)
  else
    let c := if ¬ useTailCall then oc.APPCALL else oc.TAILCALL
    (.ok (), Emit c scriptHash buf)

/-- `ScriptBuilder.EmitJump(opc, offset)` on the buffer `buf`; `offset` is an
`int16` and `uint16(offset)` its value modulo 65536. -/
def EmitJump (oc : Opcodes) (opc : Byte) (offset : Int) (buf : List Byte) :
    Except ScriptError Unit × List Byte :=
  if opc ≠ oc.JMP ∧ opc ≠ oc.JMPIF ∧ opc ≠ oc.JMPIFNOT ∧ opc ≠ oc.CALL then
    (.error .opcodeError, buf)
  else (.ok (), Emit opc (WriteUint16 [] (offset % 65536).toNat) buf)

/-- `ScriptBuilder.EmitPushString(data)` on the buffer `buf`. -/
def EmitPushString (oc : Opcodes) (data : List Byte) (buf : List Byte) : List Byte :=
  EmitPushBytes oc data buf

/-- `ScriptBuilder.EmitSysCall(api)` on the buffer `buf`. -/
def EmitSysCall (oc : Opcodes) (api : List Byte) (buf : List Byte) :
    Except ScriptError Unit × List Byte :=
  let hexdata := api
  let length := hexdata.length
  if length ≤ 0 ∨ length > 252 then (.error .apiLength, buf)
  else (.ok (), Emit oc.SYSCALL (toByte length :: hexdata) buf)

/-- `getParamBytes(buf, str)`: the panic or the returned flag, and the buffer
after the call. -/
def getParamBytes (U : Helpers) (str : List Byte) (buf : List Byte) :
    Except ScriptError Bool × List Byte :=
  match str with
  | [] => (.error .indexOutOfRange, buf)
  | b0 :: _ =>
    if b0 ≠ 0x28 then (.ok false, buf)
    else
      let length := str.length
      if (goString "(str)").isPrefixOf str then
        (.ok true, buf ++ U.Substr str 5 (length - 5))
      else if (goString "(string)").isPrefixOf str then
        (.ok true, buf ++ U.Substr str 8 (length - 8))
      else if (goString "(bytes)").isPrefixOf str then
        (.ok true, buf ++ U.ToBytes (U.Substr str 7 (length - 7)))
      else if (goString "([])").isPrefixOf str then
        (.ok true, buf ++ U.ToBytes (U.Substr str 4 (length - 4)))
      else if (goString "(address)").isPrefixOf str then
        (.ok true, buf ++ U.getPublicKeyHashFromAddress (U.Substr str 9 (length - 9)))
      else if (goString "(addr)").isPrefixOf str then
        (.ok true, buf ++ U.getPublicKeyHashFromAddress (U.Substr str 6 (length - 6)))
      else if (goString "(integer)").isPrefixOf str then
        match bigSetString10 (U.Substr str 9 (length - 9)) with
        | none => (.error .nilBigInt, buf)
        | some value => (.ok true, buf ++ BytesReverse (bigBytes value.natAbs))
      else if (goString "(int)").isPrefixOf str then
        match bigSetString10 (U.Substr str 5 (length - 5)) with
        | none => (.error .nilBigInt, buf)
        | some value => (.ok true, buf ++ BytesReverse (bigBytes value.natAbs))
      else if (goString "(hexinteger)").isPrefixOf str then
        (.ok true, buf ++ U.ToBytes (U.Substr str 12 (length - 12)))
      else if (goString "(hexint)").isPrefixOf str then
        (.ok true, buf ++ U.ToBytes (U.Substr str 8 (length - 8)))
      else if (goString "(hex)").isPrefixOf str then
        (.ok true, buf ++ U.ToBytes (U.Substr str 5 (length - 5)))
      else if (goString "(hex256)").isPrefixOf str ∨ (goString "(int256)").isPrefixOf str then
        let data := U.ToBytes (U.Substr str 8 (length - 8))
        if data.length ≠ 32 then (.ok false, buf) else (.ok true, buf ++ data)
      else if (goString "(uint256)").isPrefixOf str then
        let data := U.ToBytes (U.Substr str 9 (length - 9))
        if data.length ≠ 32 then (.ok false, buf) else (.ok true, buf ++ data)
      else if (goString "(hex160)").isPrefixOf str ∨ (goString "(int160)").isPrefixOf str then
        let data := U.ToBytes (U.Substr str 8 (length - 8))
        if data.length ≠ 20 then (.ok false, buf) else (.ok true, buf ++ data)
      else if (goString "(uint160)").isPrefixOf str then
        let data := U.ToBytes (U.Substr str 9 (length - 9))
        if data.length ≠ 20 then (.ok false, buf) else (.ok true, buf ++ data)
      else (.ok false, buf)

/-- The dynamic values that `pushParam` switches on: `bool`, `int`, `int64`,
`[]interface{}`, `map[string]interface{}` (its values in the order in which
`range` delivers them), `string`, and any other type. -/
inductive Param where
  | bool (v : Bool)
  | int (v : Int)
  | int64 (v : Int)
  | list (v : List Param)
  | map (values : List Param)
  | string (v : List Byte)
  | other

mutual
/-- `ScriptBuilder.pushParam(param)` on the buffer `buf`: the panic, if any,
and the buffer after the call. -/
def pushParam (oc : Opcodes) (U : Helpers) : Param → List Byte → Except ScriptError Unit × List Byte
  | .bool v, buf => (.ok (), EmitPushBool oc v buf)
  | .int v, buf => (.ok (), EmitPushNumber oc v buf)
  | .int64 v, buf => (.ok (), EmitPushNumber oc v buf)
  | .list v, buf =>
    let length := v.length
    match pushParamsDown oc U v buf with
    | (.error e, buf) => (.error e, buf)
    | (.ok (), buf) =>
      let buf := EmitPushNumber oc length buf
      if length > 0 then (.ok (), Emit oc.PACK [] buf) else (.ok (), buf)
  | .map values, buf => pushParamsRange oc U values buf
  | .string v, buf =>
    match getParamBytes U v [] with
    | (.error e, _) => (.error e, buf)
    | (.ok _, data) => (.ok (), EmitPushBytes oc data buf)
  | .other, buf => (.error .dataType, buf)
/-- The loop `for i := length - 1; i >= 0; i-- { sb.pushParam(v[i]) }`. -/
def pushParamsDown (oc : Opcodes) (U : Helpers) :
    List Param → List Byte → Except ScriptError Unit × List Byte
  | [], buf => (.ok (), buf)
  | a :: rest, buf =>
    match pushParamsDown oc U rest buf with
    | (.error e, buf) => (.error e, buf)
    | (.ok (), buf) => pushParam oc U a buf
/-- The loop `for _, value := range v { sb.pushParam(value) }`. -/
def pushParamsRange (oc : Opcodes) (U : Helpers) :
    List Param → List Byte → Except ScriptError Unit × List Byte
  | [], buf => (.ok (), buf)
  | a :: rest, buf =>
    match pushParam oc U a buf with
    | (.error e, buf) => (.error e, buf)
    | (.ok (), buf) => pushParamsRange oc U rest buf
end

/-- `ScriptBuilder.EmitParamJson(param)`: `pushParam(param.Data)`. -/
def EmitParamJson (oc : Opcodes) (U : Helpers) (param : Param) (buf : List Byte) :
    Except ScriptError Unit × List Byte :=
  pushParam oc U param buf

/-! ## encoding/binary, bytes.Buffer and package utils -/

/-- The `k` low bytes of `x`, least significant first
(`binary.LittleEndian.PutUint16/32/64` for `k = 2, 4, 8`). -/
def leBytes : Nat → Nat → List Byte
  | 0, _ => []
  | k + 1, x => toByte x :: leBytes k (x / 256)

/-- The little-endian value of a byte slice (`binary.LittleEndian.Uint16/32/64`
on slices of 2, 4, 8 bytes). -/
def leValue : List Byte → Nat
  | [] => 0
  | b :: bs => b.val + 256 * leValue bs

/-- `binary.LittleEndian.PutUint16(data, v)` on `data := make([]byte, 2)`. -/
def PutUint16 (v : U16) : List Byte := leBytes 2 v.val

/-- `binary.LittleEndian.PutUint64(data, v)` on `data := make([]byte, 8)`. -/
def PutUint64 (v : U64) : List Byte := leBytes 8 v.val

/-- `binary.LittleEndian.Uint16(b)` on a 2-byte slice. -/
def Uint16 (b : List Byte) : U16 := Fin.ofNat (leValue (b.take 2))

/-- `binary.LittleEndian.Uint64(b)` on an 8-byte slice. -/
def Uint64 (b : List Byte) : U64 := Fin.ofNat (leValue (b.take 8))

/-- `data := make([]byte, n); buf.Read(data)` with the error dropped: as many of
the `n` bytes as are left are copied, the others stay zero; returns `data` and
the unread rest of the buffer. -/
def bufRead (buf : List Byte) (n : Nat) : List Byte × List Byte :=
  (buf.take n ++ List.replicate (n - buf.length) 0, buf.drop n)

/-- `b, _ := buf.ReadByte()`: zero on an empty buffer. -/
def bufReadByte (buf : List Byte) : Byte × List Byte :=
  match buf with
  | [] => (0, [])
  | b :: rest => (b, rest)

/-- The aborts of `transaction.go`: its `panic` messages, the run-time panics of
a nil extension and of an out-of-range slice expression, and the failure of the
varint reader. -/
inductive TxError where
  /-- "runtime error: tx type error" -/
  | txType
  /-- "runtime error: attribute type error" -/
  | attributeType
  /-- "len error" -/
  | lenError
  /-- nil pointer dereference of `self.extdata` -/
  | nilExtData
  /-- slice bounds out of range -/
  | sliceBounds
  /-- failure of `utils.ReadVarInt` -/
  | varInt
  /-- "runtime error: verify error" -/
  | verify
  /-- "runtime error: address error" -/
  | address
  deriving DecidableEq, Repr

/-- Modelled from the spec: `utils.WriteVarInt` (not among the sources);
"varint prefixes for counts/lengths — 1 byte if <0xFD, marker 0xFD+u16LE if
<0x10000, 0xFE+u32LE if <0x100000000, 0xFF+u64LE otherwise". -/
def WriteVarInt (buf : List Byte) (v : Nat) : List Byte :=
  if v < 0xFD then buf ++ [toByte v]
  else if v < 0x10000 then buf ++ 0xFD :: leBytes 2 v
  else if v < 0x100000000 then buf ++ 0xFE :: leBytes 4 v
  else buf ++ 0xFF :: leBytes 8 v

/-- Reads a `k`-byte little-endian field; fails when fewer than `k` bytes are left. -/
def readLE (k : Nat) (buf : List Byte) : Except TxError (Nat × List Byte) :=
  if buf.length < k then .error .varInt else .ok (leValue (buf.take k), buf.drop k)

/-- Modelled from the spec: `utils.ReadVarInt(buf, max)` (not among the sources);
"varint encode/decode at the widths above; ... fails with FormatError on ...
truncated varint". The marker byte selects the width of the field that follows.
The spec does not say what the bound `max` does; a value above `max` is taken to
fail. Returns the value and the unread rest of the buffer. -/
def ReadVarInt (buf : List Byte) (max : Nat) : Except TxError (Nat × List Byte) :=
  match buf with
  | [] => .error .varInt
  | fb :: rest =>
    let r :=
      if fb = 0xFD then readLE 2 rest
      else if fb = 0xFE then readLE 4 rest
      else if fb = 0xFF then readLE 8 rest
      else .ok (fb.val, rest)
    match r with
    | .error e => .error e
    | .ok (value, rest) => if value > max then .error .varInt else .ok (value, rest)

/-- The slice expression `data[lo:hi]`; panics when `hi` exceeds the capacity,
taken here to be the length. -/
def goSlice (data : List Byte) (lo hi : Nat) : Except TxError (List Byte) :=
  if hi ≤ data.length then .ok ((data.take hi).drop lo) else .error .sliceBounds

/-! ## neo/transaction.go -/

def ContractTransaction : Byte := 0x80
def InvocationTransaction : Byte := 0xd1

def ContractHash : Byte := 0x00
def ECDH02 : Byte := 0x02
def ECDH03 : Byte := 0x03
def Script : Byte := 0x20
def Vote : Byte := 0x30
def DescriptionUrl : Byte := 0x81
def Description : Byte := 0x90
def Hash1 : Byte := 0xa1
def Hash15 : Byte := 0xaf
def Remark : Byte := 0xf0

structure Attribute where
  Usage : Byte
  Data : List Byte
  deriving DecidableEq, Repr

structure Fixed8 where
  value : U64
  deriving DecidableEq, Repr

structure TransactionOutput where
  assetId : List Byte
  value : Fixed8
  toAddress : List Byte
  deriving DecidableEq, Repr

structure TransactionInput where
  hash : List Byte
  index : U16
  deriving DecidableEq, Repr

structure Witness where
  InvocationScript : List Byte
  VerificationScript : List Byte
  deriving DecidableEq, Repr

/-- The only implementation of `IExtData`. -/
structure InvokeTransData where
  script : List Byte
  gas : Fixed8
  deriving DecidableEq, Repr

/-- `Transaction`; `extdata` is `none` for a nil interface value. -/
structure Transaction where
  txtype : Byte
  version : Byte
  attributes : List Attribute
  inputs : List TransactionInput
  outputs : List TransactionOutput
  witnesses : List Witness
  extdata : Option InvokeTransData
  deriving DecidableEq, Repr

/-- The zero value `Transaction{}`. -/
def Transaction.zero : Transaction :=
  { txtype := 0, version := 0, attributes := [], inputs := [], outputs := [], witnesses := [],
    extdata := none }

/-- `InvokeTransData.Serialize(tx, buf)`. -/
def InvokeTransData.Serialize (self : InvokeTransData) (tx : Transaction) (buf : List Byte) :
    List Byte :=
  let length := self.script.length
  let buf := WriteVarInt buf length
  let buf := buf ++ self.script
  if tx.version ≥ 1 then buf ++ PutUint64 self.gas.value else buf

/-- `InvokeTransData.Deserialize(tx, buf)`; returns the new `self` and the
unread rest of the buffer. -/
def InvokeTransData.Deserialize (self : InvokeTransData) (tx : Transaction) (buf : List Byte) :
    Except TxError (InvokeTransData × List Byte) :=
  match ReadVarInt buf 65535 with
  | .error e => .error e
  | .ok (length, buf) =>
    let (data, buf) := bufRead buf length
    let self := { self with script := data }
    if tx.version ≥ 1 then
      let (value, buf) := bufRead buf 8
      .ok ({ self with gas := ⟨Uint64 value⟩ }, buf)
    else .ok (self, buf)

/-- One round of the attribute loop of `SerializeUnsigned`. -/
def serializeAttribute (a : Attribute) (buf : List Byte) : Except TxError (List Byte) :=
  let attriData := a.Data
  let usage := a.Usage
  let buf := buf ++ [usage]
  if usage = ContractHash ∨ usage = Vote ∨ (usage ≥ Hash1 ∧ usage ≤ Hash15) then
    match goSlice attriData 0 32 with
    | .error e => .error e
    | .ok d => .ok (buf ++ d)
  else if usage = ECDH02 ∨ usage = ECDH03 then
    match goSlice attriData 1 33 with
    | .error e => .error e
    | .ok d => .ok (buf ++ d)
  else if usage = Script then
    match goSlice attriData 0 20 with
    | .error e => .error e
    | .ok d => .ok (buf ++ d)
  else if usage = DescriptionUrl then
    let size := attriData.length
    .ok ((buf ++ [toByte size]) ++ attriData)
  else if usage = Description ∨ usage ≥ Remark then
    let size := attriData.length
    .ok (WriteVarInt buf size ++ attriData)
  else .error .attributeType

/-- The attribute loop of `SerializeUnsigned`. -/
def serializeAttributes : List Attribute → List Byte → Except TxError (List Byte)
  | [], buf => .ok buf
  | a :: rest, buf =>
    match serializeAttribute a buf with
    | .error e => .error e
    | .ok buf => serializeAttributes rest buf

/-- The input loop of `SerializeUnsigned`. -/
def serializeInputs : List TransactionInput → List Byte → List Byte
  | [], buf => buf
  | input :: rest, buf => serializeInputs rest ((buf ++ input.hash) ++ PutUint16 input.index)

/-- The output loop of `SerializeUnsigned`. -/
def serializeOutputs : List TransactionOutput → List Byte → List Byte
  | [], buf => buf
  | output :: rest, buf =>
    serializeOutputs rest (((buf ++ output.assetId) ++ PutUint64 output.value.value)
      ++ output.toAddress)

/-- `Transaction.SerializeUnsigned(buf)`. -/
def Transaction.SerializeUnsigned (self : Transaction) (buf : List Byte) :
    Except TxError (List Byte) :=
  let buf := buf ++ [self.txtype]
  let buf := buf ++ [self.version]
  let ext : Except TxError (List Byte) :=
    if self.txtype = ContractTransaction then .ok buf
    else if self.txtype = InvocationTransaction then
      match self.extdata with
      | none => .error .nilExtData
      | some extdata => .ok (extdata.Serialize self buf)
    else .error .txType
  match ext with
  | .error e => .error e
  | .ok buf =>
    let buf := WriteVarInt buf self.attributes.length
    match serializeAttributes self.attributes buf with
    | .error e => .error e
    | .ok buf =>
      let buf := WriteVarInt buf self.inputs.length
      let buf := serializeInputs self.inputs buf
      let buf := WriteVarInt buf self.outputs.length
      .ok (serializeOutputs self.outputs buf)

/-- The witness loop of `Serialize`. -/
def serializeWitnesses : List Witness → List Byte → List Byte
  | [], buf => buf
  | w :: rest, buf =>
    let buf := WriteVarInt buf w.InvocationScript.length
    let buf := buf ++ w.InvocationScript
    let buf := WriteVarInt buf w.VerificationScript.length
    let buf := buf ++ w.VerificationScript
    serializeWitnesses rest buf

/-- `Transaction.Serialize(buf)`. -/
def Transaction.Serialize (self : Transaction) (buf : List Byte) : Except TxError (List Byte) :=
  match self.SerializeUnsigned buf with
  | .error e => .error e
  | .ok buf =>
    let buf := WriteVarInt buf self.witnesses.length
    .ok (serializeWitnesses self.witnesses buf)

/-- One round of the attribute loop of `Deserialize`: the attribute read and
the unread rest of the buffer. -/
def deserializeAttribute (buf : List Byte) : Except TxError (Attribute × List Byte) :=
  let (usage, buf) := bufReadByte buf
  if usage = ContractHash ∨ usage = Vote ∨ (usage ≥ Hash1 ∧ usage ≤ Hash15) then
    let (attriData, buf) := bufRead buf 32
    .ok (⟨usage, attriData⟩, buf)
  else if usage = ECDH02 ∨ usage = ECDH03 then
    let (tail, buf) := bufRead buf 32
    .ok (⟨usage, usage :: tail⟩, buf)
  else if usage = Script then
    let (attriData, buf) := bufRead buf 20
    .ok (⟨usage, attriData⟩, buf)
  else if usage = DescriptionUrl then
    let (length, buf) := bufReadByte buf
    let (attriData, buf) := bufRead buf length.val
    .ok (⟨usage, attriData⟩, buf)
  else if usage = Description ∨ usage ≥ Remark then
    match ReadVarInt buf 65535 with
    | .error e => .error e
    | .ok (length, buf) =>
      let (attriData, buf) := bufRead buf length
      .ok (⟨usage, attriData⟩, buf)
  else .error .attributeType

/-- The attribute loop of `Deserialize`, `n` rounds. -/
def deserializeAttributes : Nat → List Byte → Except TxError (List Attribute × List Byte)
  | 0, buf => .ok ([], buf)
  | n + 1, buf =>
    match deserializeAttribute buf with
    | .error e => .error e
    | .ok (a, buf) =>
      match deserializeAttributes n buf with
      | .error e => .error e
      | .ok (rest, buf) => .ok (a :: rest, buf)

/-- The input loop of `Deserialize`, `n` rounds. -/
def deserializeInputs : Nat → List Byte → List TransactionInput × List Byte
  | 0, buf => ([], buf)
  | n + 1, buf =>
    let (hash, buf) := bufRead buf 32
    let (indexBytes, buf) := bufRead buf 2
    let (rest, buf) := deserializeInputs n buf
    (⟨hash, Uint16 indexBytes⟩ :: rest, buf)

/-- The output loop of `Deserialize`, `n` rounds. -/
def deserializeOutputs : Nat → List Byte → List TransactionOutput × List Byte
  | 0, buf => ([], buf)
  | n + 1, buf =>
    let (assetId, buf) := bufRead buf 32
    let (valueBytes, buf) := bufRead buf 8
    let (toAddress, buf) := bufRead buf 20
    let (rest, buf) := deserializeOutputs n buf
    (⟨assetId, ⟨Uint64 valueBytes⟩, toAddress⟩ :: rest, buf)

/-- The witness loop of `Deserialize`, `n` rounds: the witnesses read, in
order, and the unread rest of the buffer. -/
def deserializeWitnesses : Nat → List Byte → Except TxError (List Witness × List Byte)
  | 0, buf => .ok ([], buf)
  | n + 1, buf =>
    match ReadVarInt buf 65535 with
    | .error e => .error e
    | .ok (icnt, buf) =>
      let (iscript, buf) := if icnt > 0 then bufRead buf icnt else ([], buf)
      match ReadVarInt buf 65535 with
      | .error e => .error e
      | .ok (vcnt, buf) =>
        let (vscript, buf) := if vcnt > 0 then bufRead buf vcnt else ([], buf)
        match deserializeWitnesses n buf with
        | .error e => .error e
        | .ok (rest, buf) => .ok (⟨iscript, vscript⟩ :: rest, buf)

/-- `Transaction.Deserialize(buf)` on the receiver `self`. -/
def Transaction.Deserialize (self : Transaction) (buf : List Byte) : Except TxError Transaction :=
  let (txtype, buf) := bufReadByte buf
  let self := { self with txtype := txtype }
  let (version, buf) := bufReadByte buf
  let self := { self with version := version }
  let kind : Except TxError (Option InvokeTransData) :=
    if txtype = ContractTransaction then .ok none
    else if txtype = InvocationTransaction then .ok (some ⟨[], ⟨0⟩⟩)
    else .error .txType
  match kind with
  | .error e => .error e
  | .ok extdata =>
    let self := { self with extdata := extdata }
    let ext : Except TxError (Transaction × List Byte) :=
      match self.extdata with
      | none => .ok (self, buf)
      | some extdata =>
        match extdata.Deserialize self buf with
        | .error e => .error e
        | .ok (extdata, buf) => .ok ({ self with extdata := some extdata }, buf)
    match ext with
    | .error e => .error e
    | .ok (self, buf) =>
      match ReadVarInt buf 65535 with
      | .error e => .error e
      | .ok (countAttri, buf) =>
        match deserializeAttributes countAttri buf with
        | .error e => .error e
        | .ok (attributes, buf) =>
          let self := { self with
            attributes := if countAttri > 0 then attributes else self.attributes }
          match ReadVarInt buf 65535 with
          | .error e => .error e
          | .ok (countInputs, buf) =>
            let (inputs, buf) := deserializeInputs countInputs buf
            let self := { self with inputs := if countInputs > 0 then inputs else self.inputs }
            match ReadVarInt buf 65535 with
            | .error e => .error e
            | .ok (countOutputs, buf) =>
              let (outputs, buf) := deserializeOutputs countOutputs buf
              let self := { self with
                outputs := if countOutputs > 0 then outputs else self.outputs }
              match ReadVarInt buf 65535 with
              | .error e => .error e
              | .ok (witnessCount, buf) =>
                match deserializeWitnesses witnessCount buf with
                | .error e => .error e
                | .ok (witnesses, buf) =>
                  let self := { self with witnesses := self.witnesses ++ witnesses }
                  if buf.length > 0 then .error .lenError else .ok self

/-- `InvocationToScript(scriptAddress, operation, args)`: the panic or the
returned script. -/
def InvocationToScript (oc : Opcodes) (U : Helpers) (scriptAddress operation : List Byte)
    (args : List Param) : Except ScriptError (List Byte) :=
  let sb : List Byte := []
  let assetId := U.ToBytes scriptAddress
  let assetId := BytesReverse assetId
  match EmitParamJson oc U (.list args) sb with
  | (.error e, _) => .error e
  | (.ok (), sb) =>
    let sb := EmitPushString oc operation sb
    match EmitAppCall oc assetId false sb with
    | (.error e, _) => .error e
    | (.ok (), sb) => .ok sb

/-- The functions of the package that the witness code calls and that are not
among the sources (signature verification and the derivations from a public key
or a script), over the type `PK` of `*ecdsa.PublicKey`. -/
structure KeyLib (PK : Type) where
  Verify : List Byte → List Byte → PK → Bool
  getAddressFromPublicKey : PK → List Byte
  getScriptFromPublicKey : PK → List Byte
  getScriptHashFromScript : List Byte → List Byte
  GetAddressFromScriptHash : List Byte → List Byte

/-- `Witness.GetAddress()`. -/
def Witness.GetAddress {PK : Type} (lib : KeyLib PK) (self : Witness) : List Byte :=
  let hash := lib.getScriptHashFromScript self.VerificationScript
  lib.GetAddressFromScriptHash hash

/-- The loop of `AddWitnessScript` over the existing witnesses: `true` when it
reaches `return false`, that is when some witness has the address of `newwit`. -/
def addressTaken {PK : Type} (lib : KeyLib PK) (newwit : Witness) : List Witness → Bool
  | [] => false
  | tmpwit :: rest =>
    if tmpwit.GetAddress lib = newwit.GetAddress lib then true else addressTaken lib newwit rest

/-- `Transaction.AddWitnessScript(script, iscript)`: the returned flag and the
receiver after the call. -/
def Transaction.AddWitnessScript {PK : Type} (lib : KeyLib PK) (self : Transaction)
    (script iscript : List Byte) : Bool × Transaction :=
  let newwit : Witness := { VerificationScript := script, InvocationScript := iscript }
  if addressTaken lib newwit self.witnesses then (false, self)
  else (true, { self with witnesses := self.witnesses ++ [newwit] })

/-- `Transaction.AddWitness(signData, pubkey, addrs)`: the panic, if any, and
the receiver after the call. -/
def Transaction.AddWitness {PK : Type} (lib : KeyLib PK) (oc : Opcodes) (self : Transaction)
    (signData : List Byte) (pubkey : PK) (addrs : List Byte) :
    Except TxError Unit × Transaction :=
  match self.SerializeUnsigned [] with
  | .error e => (.error e, self)
  | .ok data =>
    let bSign := lib.Verify data signData pubkey
    if ¬ bSign then (.error .verify, self)
    else
      let addr := lib.getAddressFromPublicKey pubkey
      if addr ≠ addrs then (.error .address, self)
      else
        let vscript := lib.getScriptFromPublicKey pubkey
        let iscript := EmitPushBytes oc signData []
        (.ok (), (self.AddWitnessScript lib vscript iscript).2)

/-- The bytes of a varint: `utils.WriteVarInt` on an empty buffer. -/
def varIntBytes (v : Nat) : List Byte := WriteVarInt [] v

/-! ### The parts of `Deserialize` -/

/-- The part of `Deserialize` from `witnessCount := utils.ReadVarInt(buf, 65535)`
to the end. -/
def Transaction.desWitnessPart (self : Transaction) (buf : List Byte) :
    Except TxError Transaction :=
  match ReadVarInt buf 65535 with
  | .error e => .error e
  | .ok (witnessCount, buf) =>
    match deserializeWitnesses witnessCount buf with
    | .error e => .error e
    | .ok (witnesses, buf) =>
      let self := { self with witnesses := self.witnesses ++ witnesses }
      if buf.length > 0 then .error .lenError else .ok self

/-- The part of `Deserialize` from `countOutputs := utils.ReadVarInt(buf, 65535)`
to the end. -/
def Transaction.desOutputPart (self : Transaction) (buf : List Byte) :
    Except TxError Transaction :=
  match ReadVarInt buf 65535 with
  | .error e => .error e
  | .ok (countOutputs, buf) =>
    let (outputs, buf) := deserializeOutputs countOutputs buf
    let self := { self with
      outputs := if countOutputs > 0 then outputs else self.outputs }
    self.desWitnessPart buf

/-- The part of `Deserialize` from `countInputs := utils.ReadVarInt(buf, 65535)`
to the end. -/
def Transaction.desInputPart (self : Transaction) (buf : List Byte) :
    Except TxError Transaction :=
  match ReadVarInt buf 65535 with
  | .error e => .error e
  | .ok (countInputs, buf) =>
    let (inputs, buf) := deserializeInputs countInputs buf
    let self := { self with inputs := if countInputs > 0 then inputs else self.inputs }
    self.desOutputPart buf

/-- The part of `Deserialize` from `countAttri := utils.ReadVarInt(buf, 65535)`
to the end. -/
def Transaction.desAttributePart (self : Transaction) (buf : List Byte) :
    Except TxError Transaction :=
  match ReadVarInt buf 65535 with
  | .error e => .error e
  | .ok (countAttri, buf) =>
    match deserializeAttributes countAttri buf with
    | .error e => .error e
    | .ok (attributes, buf) =>
      let self := { self with
        attributes := if countAttri > 0 then attributes else self.attributes }
      self.desInputPart buf

/-- The part of `Deserialize` from `if self.extdata != nil` to the end. -/
def Transaction.desExtPart (self : Transaction) (buf : List Byte) :
    Except TxError Transaction :=
  let ext : Except TxError (Transaction × List Byte) :=
    match self.extdata with
    | none => .ok (self, buf)
    | some extdata =>
      match extdata.Deserialize self buf with
      | .error e => .error e
      | .ok (extdata, buf) => .ok ({ self with extdata := some extdata }, buf)
  match ext with
  | .error e => .error e
  | .ok (self, buf) => self.desAttributePart buf

/-- A result that is an abort. -/
def Fails {ε α : Type} (r : Except ε α) : Prop := ∃ e, r = .error e

/-- A parsing result that, when it is not an abort, leaves nothing unread. -/
def NoRest {ε α : Type} (r : Except ε (α × List Byte)) : Prop :=
  ∀ x rest, r = .ok (x, rest) → rest = []

/-- The length of the verification script of the last witness, 0 without witnesses. -/
def lastScriptLength : List Witness → Nat
  | [] => 0
  | [w] => w.VerificationScript.length
  | _ :: w :: rest => lastScriptLength (w :: rest)

/-- A Contract transaction with one witness, invocation script `01` and
verification script `02 03`. -/
def exampleWitnessTx : Transaction :=
  { txtype := ContractTransaction, version := 0, attributes := [], inputs := [], outputs := [],
    witnesses := [⟨[1], [2, 3]⟩], extdata := none }

/-- The witness list in which the last `missing` bytes of the verification
script of the last witness are zero bytes. -/
def zeroLastScript (missing : Nat) : List Witness → List Witness
  | [] => []
  | [w] =>
    [{ w with VerificationScript :=
        w.VerificationScript.take (w.VerificationScript.length - missing)
          ++ List.replicate (min missing w.VerificationScript.length) 0 }]
  | w :: w2 :: rest => w :: zeroLastScript missing (w2 :: rest)

/-! ### Sequences of `AddWitnessScript` calls -/

/-- A finite sequence of `AddWitnessScript` calls on `self`, one call
`AddWitnessScript(c.VerificationScript, c.InvocationScript)` per element `c` of
the list, in list order: the receiver after the last call. -/
def Transaction.AddWitnessScripts {PK : Type} (lib : KeyLib PK) (self : Transaction) :
    List Witness → Transaction
  | [] => self
  | c :: rest =>
    Transaction.AddWitnessScripts lib
      (self.AddWitnessScript lib c.VerificationScript c.InvocationScript).2 rest

/-- The specification's witness list after a sequence of insertions, "a set
keyed by signer address, ordered by first insertion": the first insertion, then
the first insertions of the rest that have another address. -/
def specFirstInserted {PK : Type} (lib : KeyLib PK) : List Witness → List Witness
  | [] => []
  | w :: rest =>
    w :: (specFirstInserted lib rest).filter
      (fun x => decide (x.GetAddress lib ≠ w.GetAddress lib))

/-! ### Valid transactions -/

/-- An attribute with a defined usage and data of that usage's width: 32 bytes
for ContractHash, Vote and Hash1..Hash15, 33 for ECDH02/ECDH03, 20 for Script,
at most 255 for DescriptionUrl, at most 65535 for Description and Remark.. -/
def Attribute.valid (a : Attribute) : Prop :=
  if a.Usage = ContractHash ∨ a.Usage = Vote ∨ (a.Usage ≥ Hash1 ∧ a.Usage ≤ Hash15) then
    a.Data.length = 32
  else if a.Usage = ECDH02 ∨ a.Usage = ECDH03 then a.Data.length = 33
  else if a.Usage = Script then a.Data.length = 20
  else if a.Usage = DescriptionUrl then a.Data.length ≤ 255
  else if a.Usage = Description ∨ a.Usage ≥ Remark then a.Data.length ≤ 65535
  else False

instance (a : Attribute) : Decidable a.valid := by
  unfold Attribute.valid
  infer_instance

/-- A valid transaction: kind Contract with no extension or kind Invocation
with an Invocation extension; valid attributes; 32-byte input hashes and asset
ids, 20-byte output script hashes; all counts and script lengths at most 65535. -/
def Transaction.valid (t : Transaction) : Prop :=
  ((t.txtype = ContractTransaction ∧ t.extdata = none) ∨
    (t.txtype = InvocationTransaction ∧ t.extdata.isSome ∧
      ∀ e ∈ t.extdata, e.script.length ≤ 65535)) ∧
  t.attributes.length ≤ 65535 ∧ (∀ a ∈ t.attributes, a.valid) ∧
  t.inputs.length ≤ 65535 ∧ (∀ i ∈ t.inputs, i.hash.length = 32) ∧
  t.outputs.length ≤ 65535 ∧
  (∀ o ∈ t.outputs, o.assetId.length = 32 ∧ o.toAddress.length = 20) ∧
  t.witnesses.length ≤ 65535 ∧
  (∀ w ∈ t.witnesses, w.InvocationScript.length ≤ 65535 ∧ w.VerificationScript.length ≤ 65535)

instance (t : Transaction) : Decidable t.valid := by
  unfold Transaction.valid
  infer_instance

/-- What the wire format keeps of an attribute: the first data byte of an
ECDH02/ECDH03 attribute is not written and is read back as the usage byte. -/
def Attribute.normalize (a : Attribute) : Attribute :=
  if a.Usage = ECDH02 ∨ a.Usage = ECDH03 then { a with Data := a.Usage :: a.Data.drop 1 } else a

/-- What the wire format keeps of the extension: `gas` is written only when the
version is at least 1 and reads back as zero otherwise. -/
def InvokeTransData.normalize (e : InvokeTransData) (version : Byte) : InvokeTransData :=
  if version ≥ 1 then e else { e with gas := ⟨0⟩ }

/-- What the wire format keeps of a transaction. -/
def Transaction.normalize (t : Transaction) : Transaction :=
  { t with attributes := t.attributes.map Attribute.normalize,
           extdata := t.extdata.map (fun e => e.normalize t.version) }

/-- The transactions whose every field is on the wire: the data of each
ECDH02/ECDH03 attribute begins with the usage byte, and the attached gas of an
extension is zero when the version is 0. -/
def Transaction.onWire (t : Transaction) : Prop :=
  (∀ a ∈ t.attributes, a.Usage = ECDH02 ∨ a.Usage = ECDH03 → a.Data.head? = some a.Usage) ∧
  (∀ e ∈ t.extdata, ¬ t.version ≥ 1 → e.gas = ⟨0⟩)

instance (t : Transaction) : Decidable t.onWire := by
  unfold Transaction.onWire
  infer_instance

/-- A Contract transaction with one attribute of each width class (the ECDH02
one beginning with `02`), one input, one output and one witness. -/
def exampleContractTx : Transaction :=
  { txtype := ContractTransaction, version := 0,
    attributes := [⟨Script, List.replicate 20 7⟩, ⟨ECDH02, 2 :: List.replicate 32 9⟩,
      ⟨Remark, [1, 2, 3]⟩, ⟨DescriptionUrl, [4, 5]⟩, ⟨Vote, List.replicate 32 1⟩],
    inputs := [⟨List.replicate 32 0xAB, 513⟩],
    outputs := [⟨List.replicate 32 0xCD, ⟨10000000000⟩, List.replicate 20 0xEF⟩],
    witnesses := [⟨[0x40, 1, 2], [0x21, 3, 0xAC]⟩],
    extdata := none }

/-- An Invocation transaction of version 1 with a script and attached gas. -/
def exampleInvocationTx : Transaction :=
  { txtype := InvocationTransaction, version := 1, attributes := [],
    inputs := [⟨List.replicate 32 0xAB, 0⟩], outputs := [], witnesses := [],
    extdata := some ⟨[0x51, 0x52], ⟨100000000⟩⟩ }

/-- An Invocation transaction of version 0 whose extension has attached gas 5. -/
def exampleGasV0Tx : Transaction :=
  { txtype := InvocationTransaction, version := 0, attributes := [], inputs := [],
    outputs := [], witnesses := [], extdata := some ⟨[0x51], ⟨5⟩⟩ }

/-- A Contract transaction whose ECDH02 attribute data begins with `05`. -/
def exampleEcdhTx : Transaction :=
  { txtype := ContractTransaction, version := 0,
    attributes := [⟨ECDH02, 5 :: List.replicate 32 9⟩], inputs := [], outputs := [],
    witnesses := [], extdata := none }

/-- The bytes that `Serialize` writes for one witness: both scripts, each
prefixed by the varint of its length. -/
def witnessBytes (w : Witness) : List Byte :=
  varIntBytes w.InvocationScript.length ++ w.InvocationScript
    ++ varIntBytes w.VerificationScript.length ++ w.VerificationScript

/-- A stand-in for the key functions, over public keys given as byte slices,
for evaluating examples: a signature is valid when it is the key followed by
the message, the verification script is `21 ‖ key ‖ AC`, the script hash is the
first 20 bytes of the script and the address is `41 ‖ hash`. -/
def exampleKeyLib : KeyLib (List Byte) where
  Verify := fun data sig pk => decide (sig = pk ++ data)
  getAddressFromPublicKey := fun pk => 0x41 :: (0x21 :: pk ++ [0xAC]).take 20
  getScriptFromPublicKey := fun pk => 0x21 :: pk ++ [0xAC]
  getScriptHashFromScript := fun script => script.take 20
  GetAddressFromScriptHash := fun hash => 0x41 :: hash

/-- The number of bytes that `EmitPushBytes` writes in front of a payload of
length `L`. -/
def pushHeaderLength (oc : Opcodes) (L : Nat) : Nat :=
  if L ≤ oc.PUSHBYTES75.val then 1 else if L < 0x100 then 2 else if L < 0x10000 then 3 else 5

mutual
/-- The parameters that the compiler takes without a panic: booleans,
integers, lists of such parameters, and strings on which `getParamBytes`
returns; maps are left out, their iteration order being unspecified. -/
def Param.supported (U : Helpers) : Param → Bool
  | .bool _ => true
  | .int _ => true
  | .int64 _ => true
  | .list v => Param.supportedAll U v
  | .map _ => false
  | .string v =>
    match (getParamBytes U v []).1 with
    | .error _ => false
    | .ok _ => true
  | .other => false
/-- Every parameter of the list is supported. -/
def Param.supportedAll (U : Helpers) : List Param → Bool
  | [] => true
  | a :: rest => a.supported U && Param.supportedAll U rest
end

/-- The compiler's own output for a parameter: what `pushParam` writes on an
empty builder. -/
def paramCode (oc : Opcodes) (U : Helpers) (a : Param) : List Byte := (pushParam oc U a []).2

/-- A stand-in for the helper functions, for evaluating examples: `Substr` cuts
`length` bytes from `pos`, `ToBytes` reads pairs of hexadecimal digits (an
invalid digit as 0), `ToHexString` writes lower-case digits, and the public key
hash of an address is its bytes after the first. -/
def exampleHelpers : Helpers where
  Substr := fun str pos length => (str.drop pos).take length
  ToBytes :=
    let digit : Byte → Nat := fun c =>
      if 0x30 ≤ c ∧ c ≤ 0x39 then c.val - 0x30
      else if 0x61 ≤ c ∧ c ≤ 0x66 then c.val - 0x61 + 10
      else if 0x41 ≤ c ∧ c ≤ 0x46 then c.val - 0x41 + 10
      else 0
    let rec go : List Byte → List Byte
      | hi :: lo :: rest => toByte (digit hi * 16 + digit lo) :: go rest
      | _ => []
    go
  ToHexString := fun b =>
    let digit : Nat → Byte := fun n => if n < 10 then toByte (0x30 + n) else toByte (0x61 + n - 10)
    (b.map (fun x => [digit (x.val / 16), digit (x.val % 16)])).flatten
  getPublicKeyHashFromAddress := fun address => address.drop 1

/-! ## The transaction builders of neo/transaction.go -/

/-- `Utxo`. -/
structure Utxo where
  Hash : List Byte
  Value : U64
  N : U16
  deriving DecidableEq, Repr

/-- `CreateSignParams`. -/
structure CreateSignParams where
  TxType : Byte
  Version : Byte
  PriKey : List Byte
  From : List Byte
  To : List Byte
  ToPriKey : List Byte
  AssetId : List Byte
  Value : U64
  Attrs : List Attribute
  Data : List Byte
  Utxos : List Utxo
  DoubleSign : Bool

/-- The key functions together with those that the transaction builders also
call: `PrivateFromWIF`, the field `PublicKey` of a private key, and `Sign`
(`none` for a returned error), over the types `PK` and `SK` of public and
private keys. -/
structure Wallet (PK SK : Type) extends KeyLib PK where
  PrivateFromWIF : List Byte → SK
  PublicKey : SK → PK
  Sign : List Byte → SK → Option (List Byte)

/-- The loop over `params.Utxos` of the builders: each UTXO becomes the input
with the byte-reversed decoded hash and index `N`, and its value is added to the
`uint64` `sum`. -/
def utxoLoop (U : Helpers) : List Utxo → List TransactionInput → U64 →
    List TransactionInput × U64
  | [], inputs, sum => (inputs, sum)
  | utxo :: rest, inputs, sum =>
    let txid := U.ToBytes utxo.Hash
    utxoLoop U rest (inputs ++ [⟨BytesReverse txid, utxo.N⟩]) (sum + utxo.Value)

/-- The first part of `CreateContractTransaction`, up to `tx.GetMessage()`: the
transaction assembled from the parameters, `none` when the function has
returned `"", "", false` on `sum < value`. -/
def contractTransactionBody (U : Helpers) (params : CreateSignParams) : Option Transaction :=
  let tx : Transaction :=
    { Transaction.zero with txtype := ContractTransaction, version := params.Version }
  let (inputs, sum) := utxoLoop U params.Utxos [] 0
  let tx := { tx with inputs := if params.Utxos.length > 0 then inputs else tx.inputs }
  let value := params.Value
  let toAddress := params.To
  if sum < value then none
  else
    let assetId := params.AssetId
    let vAssetId := U.ToBytes assetId
    let vAssetId := BytesReverse vAssetId
    let pubkeyhash := U.getPublicKeyHashFromAddress toAddress
    let output : TransactionOutput := ⟨vAssetId, ⟨value⟩, pubkeyhash⟩
    let tx := { tx with outputs := tx.outputs ++ [output] }
    let fromAddress := params.From
    let left := sum - value
    if left > 0 then
      let pkh := U.getPublicKeyHashFromAddress fromAddress
      let output2 : TransactionOutput := ⟨vAssetId, ⟨left⟩, pkh⟩
      some { tx with outputs := tx.outputs ++ [output2] }
    else some tx

/-- `CreateContractTransaction(params)`: the panic or the returned triple. -/
def CreateContractTransaction {PK SK : Type} (oc : Opcodes) (U : Helpers) (W : Wallet PK SK)
    (params : CreateSignParams) : Except TxError (List Byte × List Byte × Bool) :=
  match contractTransactionBody U params with
  | none => .ok ([], [], false)
  | some tx =>
    match tx.SerializeUnsigned [] with
    | .error e => .error e
    | .ok unsignedData =>
      let privKey := W.PrivateFromWIF params.PriKey
      match W.Sign unsignedData privKey with
      | none => .ok ([], [], false)
      | some signature =>
        let pubKey := W.PublicKey privKey
        match tx.AddWitness W.toKeyLib oc signature pubKey params.From with
        | (.error e, _) => .error e
        | (.ok (), tx) =>
          match tx.Serialize [] with
          | .error e => .error e
          | .ok rawData =>
            let raw := U.ToHexString rawData
            match tx.SerializeUnsigned [] with
            | .error e => .error e
            | .ok buf => .ok (U.ToHexString buf, raw, true)

/-- The first part of `CreateTx`, up to `tx.GetMessage()`: the transaction
assembled from the parameters. -/
def createTxBody (U : Helpers) (txType : Byte) (params : CreateSignParams) : Transaction :=
  let tx : Transaction :=
    { Transaction.zero with txtype := txType, version := params.Version,
                            attributes := params.Attrs }
  let (inputs, sum) := utxoLoop U params.Utxos tx.inputs 0
  let tx := { tx with inputs := inputs }
  let (tx, sum) :=
    if params.Value > 0 ∧ sum ≥ params.Value then
      let assetId := U.ToBytes params.AssetId
      let pubkeyhash := U.getPublicKeyHashFromAddress params.To
      let output : TransactionOutput := ⟨BytesReverse assetId, ⟨params.Value⟩, pubkeyhash⟩
      ({ tx with outputs := tx.outputs ++ [output] }, sum - params.Value)
    else (tx, sum)
  let tx :=
    if sum > 0 then
      let assetId := U.ToBytes params.AssetId
      let pubkeyhash := U.getPublicKeyHashFromAddress params.From
      let output : TransactionOutput := ⟨BytesReverse assetId, ⟨sum⟩, pubkeyhash⟩
      { tx with outputs := tx.outputs ++ [output] }
    else tx
  if params.Data.length > 0 then { tx with extdata := some ⟨params.Data, ⟨0⟩⟩ } else tx

/-- `CreateTx(txType, params)`: the panic, or `none` for a returned error (with
empty strings), or the returned pair `txBody, raw`. -/
def CreateTx {PK SK : Type} (oc : Opcodes) (U : Helpers) (W : Wallet PK SK) (txType : Byte)
    (params : CreateSignParams) : Except TxError (Option (List Byte × List Byte)) :=
  let tx := createTxBody U txType params
  match tx.SerializeUnsigned [] with
  | .error e => .error e
  | .ok unsignedData =>
    let privKey := W.PrivateFromWIF params.PriKey
    match W.Sign unsignedData privKey with
    | none => .ok none
    | some signature =>
      let second : Except TxError (Option Transaction) :=
        if params.DoubleSign then
          if params.ToPriKey = [] then
            let ispt := U.ToBytes (goString "0000")
            .ok (some (tx.AddWitnessScript W.toKeyLib [] ispt).2)
          else
            let toPrivKey := W.PrivateFromWIF params.ToPriKey
            match W.Sign unsignedData toPrivKey with
            | none => .ok none
            | some s =>
              let pubKey := W.PublicKey toPrivKey
              match tx.AddWitness W.toKeyLib oc s pubKey params.To with
              | (.error e, _) => .error e
              | (.ok (), tx) => .ok (some tx)
        else .ok (some tx)
      match second with
      | .error e => .error e
      | .ok none => .ok none
      | .ok (some tx) =>
        let pubKey := W.PublicKey privKey
        match tx.AddWitness W.toKeyLib oc signature pubKey params.From with
        | (.error e, _) => .error e
        | (.ok (), tx) =>
          match tx.Serialize [] with
          | .error e => .error e
          | .ok rawData =>
            let raw := U.ToHexString rawData
            match tx.SerializeUnsigned [] with
            | .error e => .error e
            | .ok buf => .ok (some (U.ToHexString buf, raw))

/-- A stand-in wallet over the stand-in key functions: a private key is its WIF
string, the public key is the private key, and the signature of a message is
the key followed by the message. -/
def exampleWallet : Wallet (List Byte) (List Byte) where
  toKeyLib := exampleKeyLib
  PrivateFromWIF := fun wif => wif
  PublicKey := fun sk => sk
  Sign := fun data sk => some (sk ++ data)

/-- The scenario of the specification: one UTXO of value 10,000,000,000 and a
requested value of 100,000,000, with the stand-in helpers and wallet (key `03`,
whose address is `41 21 03 AC`). -/
def exampleSpendParams : CreateSignParams :=
  { TxType := ContractTransaction, Version := 0, PriKey := [3],
    From := [0x41, 0x21, 3, 0xAC], To := [0x41, 0x21, 4, 0xAC], ToPriKey := [],
    AssetId := goString "c56f", Value := 100000000, Attrs := [], Data := [],
    Utxos := [⟨goString "b80f65fc", 10000000000, 0⟩], DoubleSign := false }

/-- The same parameters with a requested value of 20,000,000,000, above the
sum of the UTXO values. -/
def exampleShortParams : CreateSignParams :=
  { exampleSpendParams with Value := 20000000000 }

/-- The sum of the UTXO values, as a natural number. -/
def utxoTotal (l : List Utxo) : Nat := (l.map (fun u => u.Value.val)).sum

/-- The defined attribute usage tags: 0x00, 0x02, 0x03, 0x20, 0x30, 0x81, 0x90,
0xA1..0xAF and 0xF0..0xFF. -/
def definedUsage (u : Byte) : Prop :=
  u = 0x00 ∨ u = 0x02 ∨ u = 0x03 ∨ u = 0x20 ∨ u = 0x30 ∨ u = 0x81 ∨ u = 0x90 ∨
  (0xA1 ≤ u ∧ u ≤ 0xAF) ∨ (0xF0 ≤ u ∧ u ≤ 0xFF)

instance (u : Byte) : Decidable (definedUsage u) := by
  unfold definedUsage
  infer_instance

/-- A Contract transaction whose ECDH03 attribute data begins with `07`,
between two other attributes. -/
def exampleEcdh03Tx : Transaction :=
  { txtype := ContractTransaction, version := 0,
    attributes := [⟨Remark, [1]⟩, ⟨ECDH03, 7 :: List.replicate 32 1⟩, ⟨Script, List.replicate 20 2⟩],
    inputs := [], outputs := [], witnesses := [], extdata := none }

/-! ### Value conservation -/

/-- The sum of the values of the outputs of a transaction, as a natural number. -/
def outputTotal (tx : Transaction) : Nat := (tx.outputs.map (fun o => o.value.value.val)).sum

/-- The scenario parameters with two UTXOs, of values 2^64 - 1 and 2, and a
requested value of 1. -/
def exampleOverflowParams : CreateSignParams :=
  { exampleSpendParams with
    Value := 1,
    Utxos := [⟨goString "b80f65fc", 18446744073709551615, 0⟩, ⟨goString "c56f", 2, 1⟩] }

/-! ### The number encoding, as the specification words it -/

/-- The least number of bytes `k ≥ 1` whose two's-complement range
`-2^(8k-1) ≤ n < 2^(8k-1)` holds `n`, searched upwards from `k` with `fuel`. -/
def specTwosWidth : Nat → Nat → Int → Nat
  | 0, k, _ => k
  | fuel + 1, k, n =>
    if -(2 : Int) ^ (8 * k - 1) ≤ n ∧ n < (2 : Int) ^ (8 * k - 1) then k
    else specTwosWidth fuel (k + 1) n

/-- The `k` low bytes of `x`, least significant first. -/
def specLowBytesLE : Nat → Nat → List Byte
  | 0, _ => []
  | k + 1, x => toByte x :: specLowBytesLE k (x / 256)

/-- The minimal two's-complement encoding of `n` in little-endian
(byte-reversed big-endian) order. -/
def specMinimalTwosLE (n : Int) : List Byte :=
  let k := specTwosWidth (n.natAbs + 1) 1 n
  specLowBytesLE k (n % (2 : Int) ^ (8 * k)).toNat

/-! ### The decoded buffer, as the specification words it -/

/-- The base-58 value of a string over the alphabet: its characters, most
significant first, read as base-58 digits. -/
def specB58Value (s : List Byte) : Nat :=
  Nat.ofDigits 58 (s.reverse.map (fun c => (IndexByte BitcoinBase58Table c).getD 0))

/-- The number of leading `'1'` characters of a string. -/
def specLeadingOnes (s : List Byte) : Nat := (s.takeWhile (· = 0x31)).length

/-- The decoded buffer of a Base58Check string: the base-58 value as minimal
big-endian bytes, with one `0x00` byte prepended per leading `'1'`. -/
def specDecodedBuffer (s : List Byte) : List Byte :=
  List.replicate (specLeadingOnes s) 0 ++ (Nat.digits 256 (specB58Value s)).reverse.map toByte

/-! # Theorems -/

/-! ## Facts about the big-integer helpers -/

theorem toByte_val (d : Byte) : toByte d.val = d := by
  apply Fin.ext
  simp [toByte, Nat.mod_eq_of_lt d.isLt]

theorem bigSetBytes_foldl (b : List Byte) (x : Nat) :
    b.foldl (fun x d => x * 256 + d.val) x
      = x * 256 ^ b.length + Nat.ofDigits 256 (b.reverse.map Fin.val) := by
  induction b generalizing x with
  | nil => simp
  | cons d ds ih =>
    simp only [List.foldl_cons, List.reverse_cons, List.map_append, List.map_cons, List.map_nil,
      List.length_cons]
    rw [ih, Nat.ofDigits_append, Nat.ofDigits_singleton]
    simp only [List.length_map, List.length_reverse]
    ring

theorem bigSetBytes_eq_ofDigits (b : List Byte) :
    bigSetBytes b = Nat.ofDigits 256 (b.reverse.map Fin.val) := by
  simp [bigSetBytes, bigSetBytes_foldl]

theorem bigBytesLoop_eq (fuel x : Nat) (acc : List Byte) (h : x ≤ fuel) :
    bigBytesLoop fuel x acc = ((Nat.digits 256 x).reverse.map toByte) ++ acc := by
  induction fuel generalizing x acc with
  | zero =>
    have : x = 0 := by omega
    subst this
    simp [bigBytesLoop]
  | succ n ih =>
    unfold bigBytesLoop
    split
    · rename_i hx
      have hlt : x / 256 < x := Nat.div_lt_self hx (by decide)
      rw [ih (x / 256) _ (by omega), Nat.digits_def' (by decide : 1 < 256) hx]
      simp
    · have : x = 0 := by omega
      subst this
      simp

/-- More fuel than `x` changes nothing: the loop of `Bytes` stops on `x = 0`. -/
theorem bigBytesLoop_fuel (fuel x : Nat) (acc : List Byte) (h : x ≤ fuel) :
    bigBytesLoop fuel x acc = bigBytesLoop x x acc := by
  rw [bigBytesLoop_eq fuel x acc h, bigBytesLoop_eq x x acc le_rfl]

theorem bigBytes_eq (x : Nat) : bigBytes x = (Nat.digits 256 x).reverse.map toByte :=
  by simp [bigBytes, bigBytesLoop_eq]

/-- `Bytes` undoes `SetBytes` on a slice without a leading zero byte. -/
theorem bigBytes_bigSetBytes (l : List Byte) (h : ∀ d ∈ l.head?, d ≠ 0) :
    bigBytes (bigSetBytes l) = l := by
  rw [bigBytes_eq, bigSetBytes_eq_ofDigits, Nat.digits_ofDigits 256 (by decide)]
  · simp [List.map_reverse, Function.comp_def, toByte_val]
  · intro d hd
    simp only [List.mem_map, List.mem_reverse] at hd
    obtain ⟨a, _, rfl⟩ := hd
    exact a.isLt
  · intro hne
    cases l with
    | nil => simp at hne
    | cons a as =>
      have ha : a ≠ 0 := h a (by simp)
      simp only [List.reverse_cons, List.map_append, List.map_cons, List.map_nil]
      rw [List.getLast_append_singleton]
      intro h0
      exact ha (Fin.ext h0)

theorem bigSetBytes_replicate_zero (k : Nat) (l : List Byte) :
    bigSetBytes (List.replicate k 0 ++ l) = bigSetBytes l := by
  induction k with
  | zero => simp
  | succ n ih =>
    simp only [bigSetBytes, List.replicate_succ, List.cons_append, List.foldl_cons] at ih ⊢
    simpa using ih

/-! ## Facts about the Base-58 alphabet and the raw codec -/

theorem IndexByte_b58char : ∀ d : Fin 58,
    IndexByte BitcoinBase58Table (b58char d.val) = some d.val := by decide

theorem b58char_ne_one : ∀ d : Fin 58, d.val ≠ 0 → b58char d.val ≠ 0x31 := by decide

theorem IndexByte_one : IndexByte BitcoinBase58Table 0x31 = some 0 := by decide

theorem IndexByte_lt (l : List Byte) (c : Byte) (i : Nat) (h : IndexByte l c = some i) :
    i < l.length ∧ l.getD i 0 = c := by
  induction l generalizing i with
  | nil => simp [IndexByte] at h
  | cons x xs ih =>
    unfold IndexByte at h
    split at h
    · rename_i hx
      cases h
      simp [hx]
    · cases hi : IndexByte xs c with
      | none => simp [hi] at h
      | some j =>
        simp only [hi, Option.map_some', Option.some.injEq] at h
        subst h
        have := ih j hi
        simpa using this

theorem IndexByte_none (l : List Byte) (c : Byte) : IndexByte l c = none ↔ c ∉ l := by
  induction l with
  | nil => simp [IndexByte]
  | cons x xs ih =>
    unfold IndexByte
    by_cases hx : x = c
    · simp [hx]
    · have hx2 : ¬ c = x := fun h => hx h.symm
      simp [hx, hx2, ih]

theorem b58encodeLoop_eq (fuel x : Nat) (s : List Byte) (h : x ≤ fuel) :
    b58encodeLoop fuel x s = ((Nat.digits 58 x).reverse.map b58char) ++ s := by
  induction fuel generalizing x s with
  | zero =>
    have : x = 0 := by omega
    subst this
    simp [b58encodeLoop]
  | succ n ih =>
    unfold b58encodeLoop
    split
    · rename_i hx
      have hlt : x / 58 < x := Nat.div_lt_self hx (by decide)
      rw [ih (x / 58) _ (by omega), Nat.digits_def' (by decide : 1 < 58) hx]
      simp [b58char]
    · have : x = 0 := by omega
      subst this
      simp

/-- More fuel than `x` changes nothing: the loop of `b58encode` stops on `x = 0`. -/
theorem b58encodeLoop_fuel (fuel x : Nat) (s : List Byte) (h : x ≤ fuel) :
    b58encodeLoop fuel x s = b58encodeLoop x x s := by
  rw [b58encodeLoop_eq fuel x s h, b58encodeLoop_eq x x s le_rfl]

theorem b58encode_eq (b : List Byte) :
    b58encode b = (Nat.digits 58 (bigSetBytes b)).reverse.map b58char := by
  simp [b58encode, b58encodeLoop_eq]

theorem b58decodeLoop_map (L : List Nat) (hL : ∀ d ∈ L, d < 58) (i x : Nat) :
    b58decodeLoop (L.map b58char) i x = .ok (L.foldl (fun a d => a * 58 + d) x) := by
  induction L generalizing i x with
  | nil => simp [b58decodeLoop]
  | cons d ds ih =>
    have hd : d < 58 := hL d (by simp)
    have := IndexByte_b58char ⟨d, hd⟩
    simp only [List.map_cons, b58decodeLoop, List.foldl_cons]
    simp only at this
    rw [this]
    exact ih (fun e he => hL e (by simp [he])) _ _

theorem foldl_digits (b : Nat) (L : List Nat) :
    L.reverse.foldl (fun a d => a * b + d) 0 = Nat.ofDigits b L := by
  induction L with
  | nil => simp
  | cons d ds ih =>
    simp only [List.reverse_cons, List.foldl_append, List.foldl_cons, List.foldl_nil, ih,
      Nat.ofDigits_cons]
    ring

theorem b58decodeLoop_ones (k : Nat) (s : List Byte) (i : Nat) :
    b58decodeLoop (List.replicate k 0x31 ++ s) i 0 = b58decodeLoop s (i + k) 0 := by
  induction k generalizing i with
  | zero => simp
  | succ n ih =>
    have h := ih (i + 1)
    rw [show i + 1 + n = i + (n + 1) by omega] at h
    rw [List.replicate_succ, List.cons_append]
    simpa only [b58decodeLoop, IndexByte_one, Nat.zero_mul, Nat.add_zero] using h

/-- Raw decoding of `k` ones followed by the raw encoding of `b` gives the
minimal bytes of the value of `b`. -/
theorem b58decode_ones_b58encode (k : Nat) (b : List Byte) :
    b58decode (List.replicate k 0x31 ++ b58encode b) = .ok (bigBytes (bigSetBytes b)) := by
  unfold b58decode
  rw [b58decodeLoop_ones, b58encode_eq, b58decodeLoop_map, foldl_digits, Nat.ofDigits_digits]
  intro d hd
  exact Nat.digits_lt_base (by decide) (List.mem_reverse.mp hd)

/-- The raw encoding never starts with the character `1`. -/
theorem b58encode_head (b : List Byte) : ∀ c ∈ (b58encode b).head?, c ≠ 0x31 := by
  intro c hc
  rw [b58encode_eq] at hc
  generalize hx : bigSetBytes b = x at hc
  by_cases h0 : Nat.digits 58 x = []
  · simp [h0] at hc
  · have hlast := Nat.getLast_digit_ne_zero 58 (m := x) (by
      intro hx0; subst hx0; simp at h0)
    have hlt : (Nat.digits 58 x).getLast h0 < 58 :=
      Nat.digits_lt_base (by decide) (List.getLast_mem h0)
    have hhead : ((Nat.digits 58 x).reverse.map b58char).head?
        = some (b58char ((Nat.digits 58 x).getLast h0)) := by
      rw [List.head?_map, List.head?_reverse, List.getLast?_eq_getLast _ h0]
      rfl
    rw [hhead] at hc
    cases hc
    exact b58char_ne_one ⟨_, hlt⟩ hlast

theorem leadingZeros_split (l : List Byte) :
    l = List.replicate (leadingZeros l) 0 ++ l.dropWhile (· = 0) := by
  induction l with
  | nil => simp [leadingZeros]
  | cons a as ih =>
    by_cases ha : a = 0
    · subst ha
      simp only [leadingZeros, decide_True, List.takeWhile_cons_of_pos, List.length_cons,
        List.replicate_succ, List.dropWhile_cons_of_pos, List.cons_append, List.cons.injEq,
        true_and]
      exact ih
    · simp [leadingZeros, ha]

theorem dropWhile_zero_head (l : List Byte) : ∀ d ∈ (l.dropWhile (· = 0)).head?, d ≠ 0 := by
  intro d hd
  have := List.head?_dropWhile_not (fun x : Byte => decide (x = 0)) l
  rw [Option.mem_def] at hd
  rw [hd] at this
  simpa using this

theorem prependOnes_eq (l s : List Byte) :
    prependOnes l s = List.replicate (leadingZeros l) 0x31 ++ s := by
  induction l generalizing s with
  | nil => simp [prependOnes, leadingZeros]
  | cons a as ih =>
    by_cases ha : a = 0
    · subst ha
      simp only [prependOnes, ne_eq, not_true_eq_false, ↓reduceIte, leadingZeros, decide_True,
        List.takeWhile_cons_of_pos, List.length_cons]
      rw [ih]
      simp only [leadingZeros, List.replicate_succ', List.append_assoc, List.singleton_append]
    · simp [prependOnes, leadingZeros, ha]

theorem prependZeros_eq (k : Nat) (s b : List Byte) (hs : ∀ c ∈ s.head?, c ≠ 0x31) :
    prependZeros (List.replicate k 0x31 ++ s) b = List.replicate k 0 ++ b := by
  induction k generalizing b with
  | zero =>
    cases s with
    | nil => simp [prependZeros]
    | cons c cs =>
      have : c ≠ 0x31 := hs c (by simp)
      simp [prependZeros, this]
  | succ n ih =>
    have h := ih (0 :: b)
    rw [List.replicate_succ, List.cons_append]
    simp only [prependZeros, ne_eq, not_true_eq_false, ↓reduceIte]
    rw [h]
    simp only [List.replicate_succ', List.append_assoc, List.singleton_append]

/-- The buffer rebuilt by `Base58CheckDecode` from `prependOnes l (b58encode l)`
is `l` itself. -/
theorem decode_buffer_of_encode (l : List Byte) :
    ∃ raw, b58decode (prependOnes l (b58encode l)) = .ok raw ∧
      prependZeros (prependOnes l (b58encode l)) raw = l := by
  refine ⟨bigBytes (bigSetBytes l), ?_, ?_⟩
  · rw [prependOnes_eq, b58decode_ones_b58encode]
  · rw [prependOnes_eq, prependZeros_eq _ _ _ (b58encode_head l)]
    have hsplit := leadingZeros_split l
    have hval : bigSetBytes l = bigSetBytes (l.dropWhile (· = 0)) := by
      conv_lhs => rw [hsplit]
      exact bigSetBytes_replicate_zero _ _
    rw [hval, bigBytes_bigSetBytes _ (dropWhile_zero_head l)]
    exact hsplit.symm

/-! ## Base58Check -/

/-- C1: for every version byte `v` and payload `b` (empty, with leading zero
bytes, `v = 0` included), decoding the Base58Check encoding of `(v, b)` succeeds
and returns exactly `(v, b)`; the digest function only has to return at least
the four bytes that `hash2[0:4]` slices (SHA-256 returns 32). -/
theorem Base58CheckDecode_Base58CheckEncode (sha256 : List Byte → List Byte)
    (hsha : ∀ m, 4 ≤ (sha256 m).length) (v : Byte) (b : List Byte) :
    Base58CheckDecode sha256 (Base58CheckEncode sha256 v b) = .ok (v, b) := by
  unfold Base58CheckEncode
  simp only
  generalize hck : (sha256 (sha256 (v :: b))).take 4 = ck
  have hcklen : ck.length = 4 := by
    rw [← hck, List.length_take]
    have := hsha (sha256 (v :: b))
    omega
  obtain ⟨raw, hraw, hbuf⟩ := decode_buffer_of_encode (v :: b ++ ck)
  unfold Base58CheckDecode
  rw [hraw]
  simp only [hbuf]
  have hlen : (v :: b ++ ck).length - 4 = (v :: b).length := by
    simp [hcklen]
  rw [hlen, List.take_left, List.drop_left, hck]
  have h5 : ¬ (v :: b ++ ck).length < 5 := by
    simp [hcklen]
  rw [if_neg h5, if_neg (by simp)]
  rfl

/-- Witness for C1 with the digest function that returns 32 bytes `0x07`: the
payload `00 00 31` under version 0 survives the round trip. -/
theorem Base58CheckDecode_Base58CheckEncode_witness :
    (∀ m : List Byte, 4 ≤ ((fun _ => List.replicate 32 (7 : Byte)) m).length) ∧
    Base58CheckDecode (fun _ => List.replicate 32 7)
      (Base58CheckEncode (fun _ => List.replicate 32 7) 0 [0, 0, 0x31]) = .ok (0, [0, 0, 0x31]) :=
  ⟨fun _ => by simp,
   Base58CheckDecode_Base58CheckEncode (fun _ => List.replicate 32 7) (fun _ => by simp) 0
     [0, 0, 0x31]⟩

theorem b58decodeLoop_ok (s : List Byte) (hs : ∀ c ∈ s, c ∈ BitcoinBase58Table) (i x : Nat) :
    b58decodeLoop s i x
      = .ok (s.foldl (fun a c => a * 58 + (IndexByte BitcoinBase58Table c).getD 0) x) := by
  induction s generalizing i x with
  | nil => simp [b58decodeLoop]
  | cons c cs ih =>
    have hc : c ∈ BitcoinBase58Table := hs c (by simp)
    cases hi : IndexByte BitcoinBase58Table c with
    | none => exact absurd hc ((IndexByte_none _ _).mp hi)
    | some j =>
      simp only [b58decodeLoop, hi, List.foldl_cons, Option.getD_some]
      exact ih (fun e he => hs e (by simp [he])) _ _

theorem b58decodeLoop_error (s : List Byte) (hs : ∃ c ∈ s, c ∉ BitcoinBase58Table) (i x : Nat) :
    ∃ e, b58decodeLoop s i x = .error e := by
  induction s generalizing i x with
  | nil => simp at hs
  | cons c cs ih =>
    cases hi : IndexByte BitcoinBase58Table c with
    | none => exact ⟨.invalidChar c i, by simp only [b58decodeLoop, hi]⟩
    | some j =>
      simp only [b58decodeLoop, hi]
      apply ih
      obtain ⟨d, hd, hd2⟩ := hs
      rcases List.mem_cons.mp hd with rfl | hd
      · have := (IndexByte_none BitcoinBase58Table d).mpr hd2
        rw [hi] at this
        cases this
      · exact ⟨d, hd, hd2⟩

theorem foldl_b58value (s : List Byte) :
    s.foldl (fun a c => a * 58 + (IndexByte BitcoinBase58Table c).getD 0) 0 = specB58Value s := by
  unfold specB58Value
  rw [← foldl_digits, ← List.map_reverse, List.reverse_reverse, List.foldl_map]

theorem prependZeros_takeWhile (s b : List Byte) :
    prependZeros s b = List.replicate (specLeadingOnes s) 0 ++ b := by
  induction s generalizing b with
  | nil => simp [prependZeros, specLeadingOnes]
  | cons c cs ih =>
    by_cases hc : c = 0x31
    · subst hc
      simp only [prependZeros, ne_eq, not_true_eq_false, ↓reduceIte, specLeadingOnes, decide_True,
        List.takeWhile_cons_of_pos, List.length_cons]
      rw [ih]
      simp only [specLeadingOnes, List.replicate_succ', List.append_assoc, List.singleton_append]
    · simp [prependZeros, specLeadingOnes, hc]

/-- On a string over the alphabet, the buffer that `Base58CheckDecode` checks is
the decoded buffer of the specification. -/
theorem decode_buffer_eq_spec (s : List Byte) (hs : ∀ c ∈ s, c ∈ BitcoinBase58Table) :
    ∃ raw, b58decode s = .ok raw ∧ prependZeros s raw = specDecodedBuffer s := by
  refine ⟨bigBytes (specB58Value s), ?_, ?_⟩
  · unfold b58decode
    rw [b58decodeLoop_ok s hs, foldl_b58value]
  · rw [prependZeros_takeWhile, bigBytes_eq]
    rfl

/-- C8: `Base58CheckDecode(s)` fails exactly when `s` has a character outside the
Base-58 alphabet, or the decoded buffer is shorter than 5 bytes, or the last 4
bytes of the buffer differ from the first 4 bytes of the double digest of the
bytes before them; otherwise it returns the buffer's first byte as version and
the bytes between the version and the checksum as payload. -/
theorem Base58CheckDecode_fails_iff (sha256 : List Byte → List Byte) (s : List Byte) :
    ((∃ e, Base58CheckDecode sha256 s = .error e) ↔
      ((∃ c ∈ s, c ∉ BitcoinBase58Table) ∨
       (specDecodedBuffer s).length < 5 ∨
       (specDecodedBuffer s).drop ((specDecodedBuffer s).length - 4)
         ≠ (sha256 (sha256 ((specDecodedBuffer s).take ((specDecodedBuffer s).length - 4)))).take 4))
    ∧ (¬ ((∃ c ∈ s, c ∉ BitcoinBase58Table) ∨
       (specDecodedBuffer s).length < 5 ∨
       (specDecodedBuffer s).drop ((specDecodedBuffer s).length - 4)
         ≠ (sha256 (sha256 ((specDecodedBuffer s).take ((specDecodedBuffer s).length - 4)))).take 4)
       → Base58CheckDecode sha256 s
          = .ok ((specDecodedBuffer s).headD 0,
                 ((specDecodedBuffer s).drop 1).take ((specDecodedBuffer s).length - 5))) := by
  by_cases hs : ∃ c ∈ s, c ∉ BitcoinBase58Table
  · obtain ⟨e, he⟩ := b58decodeLoop_error s hs 0 0
    have herr : Base58CheckDecode sha256 s = .error e := by
      simp only [Base58CheckDecode, b58decode, he]
    exact ⟨⟨fun _ => Or.inl hs, fun _ => ⟨e, herr⟩⟩, fun h => absurd (Or.inl hs) h⟩
  · have hs2 : ∀ c ∈ s, c ∈ BitcoinBase58Table := by
      intro c hc
      by_contra hcn
      exact hs ⟨c, hc, hcn⟩
    obtain ⟨raw, hraw, hbuf⟩ := decode_buffer_eq_spec s hs2
    generalize specDecodedBuffer s = buf at hbuf ⊢
    have hdec : Base58CheckDecode sha256 s =
        if buf.length < 5 then .error .missingChecksum
        else if (sha256 (sha256 (buf.take (buf.length - 4)))).take 4 ≠ buf.drop (buf.length - 4)
          then .error .invalidChecksum
          else .ok ((buf.take (buf.length - 4)).headD 0, (buf.take (buf.length - 4)).tail) := by
      simp only [Base58CheckDecode, hraw, hbuf]
    rw [hdec]
    by_cases h5 : buf.length < 5
    · simp [h5]
    · by_cases hck : (sha256 (sha256 (buf.take (buf.length - 4)))).take 4
          = buf.drop (buf.length - 4)
      · have hne : ¬ buf.drop (buf.length - 4)
            ≠ (sha256 (sha256 (buf.take (buf.length - 4)))).take 4 := by
          simp [hck]
        have hhead : (buf.take (buf.length - 4)).headD 0 = buf.headD 0 := by
          cases buf with
          | nil => simp at h5
          | cons a as =>
            have : (a :: as).length - 4 = (as.length - 4) + 1 := by
              simp only [List.length_cons] at h5 ⊢
              omega
            rw [this]
            rfl
        have htail : (buf.take (buf.length - 4)).tail = (buf.drop 1).take (buf.length - 5) := by
          cases buf with
          | nil => simp
          | cons a as =>
            have h1 : (a :: as).length - 4 = (as.length - 4) + 1 := by
              simp only [List.length_cons] at h5 ⊢
              omega
            have h2 : (a :: as).length - 5 = as.length - 4 := by
              simp only [List.length_cons]
              omega
            rw [h1, h2]
            rfl
        rw [if_neg h5, if_neg (by simpa using hck), hhead, htail]
        refine ⟨⟨fun he => ?_, fun h => ?_⟩, fun _ => rfl⟩
        · obtain ⟨e, he⟩ := he
          cases he
        rcases h with h | h | h
        · exact absurd h hs
        · exact absurd h h5
        · exact absurd h hne
      · rw [if_neg h5, if_pos hck]
        have hne : buf.drop (buf.length - 4)
            ≠ (sha256 (sha256 (buf.take (buf.length - 4)))).take 4 := fun h => hck h.symm
        exact ⟨⟨fun _ => Or.inr (Or.inr hne), fun _ => ⟨_, rfl⟩⟩,
          fun h => absurd (Or.inr (Or.inr hne)) h⟩

theorem specDecodedBuffer_example :
    specDecodedBuffer [49, 54, 88, 112, 84, 119, 115, 85] = [0, 49, 7, 7, 7, 7] := by
  have h1 : specLeadingOnes [49, 54, 88, 112, 84, 119, 115, 85] = 1 := by decide
  have h2 : ([49, 54, 88, 112, 84, 119, 115, 85] : List Byte).reverse.map
      (fun c => (IndexByte BitcoinBase58Table c).getD 0) = [27, 50, 54, 26, 47, 30, 5, 0] := by
    decide
  unfold specDecodedBuffer specB58Value
  rw [h1, h2]
  norm_num [Nat.ofDigits]
  decide

/-- Witness for C8: with the digest function that returns 32 bytes `0x07`, the
string `16XpTwsU` meets none of the three failure conditions and decodes to
version 0 and payload `31`. -/
theorem Base58CheckDecode_fails_iff_witness :
    Base58CheckDecode (fun _ => List.replicate 32 7) [49, 54, 88, 112, 84, 119, 115, 85]
      = .ok (0, [0x31]) := by
  have h := (Base58CheckDecode_fails_iff (fun _ => List.replicate 32 7)
    [49, 54, 88, 112, 84, 119, 115, 85]).2
  rw [specDecodedBuffer_example] at h
  exact h (by decide)

/-! ## Script builder -/

/-- The specification's number encoding on the examples of the claim and at
the byte boundaries. -/
theorem specMinimalTwosLE_examples :
    specMinimalTwosLE 256 = [0x00, 0x01] ∧ specMinimalTwosLE 128 = [0x80, 0x00] ∧
    specMinimalTwosLE (-2) = [0xFE] ∧ specMinimalTwosLE 127 = [0x7F] ∧
    specMinimalTwosLE (-128) = [0x80] ∧ specMinimalTwosLE (-129) = [0x7F, 0xFF] ∧
    specMinimalTwosLE 65535 = [0xFF, 0xFF, 0x00] := by decide

theorem Emit_nil (opcode : Byte) (buf : List Byte) : Emit opcode [] buf = buf ++ [opcode] := by
  simp [Emit]

/-- Outside `-1 .. 15` the number is pushed as the bytes of `number.Bytes()`. -/
theorem EmitPushNumber_large (oc : Opcodes) (n : Int) (buf : List Byte)
    (h : n < -1 ∨ 15 < n) :
    EmitPushNumber oc n buf = EmitPushBytes oc (bigBytes n.natAbs) buf := by
  unfold EmitPushNumber
  rw [if_neg (by omega), if_neg (by omega), if_neg (by omega)]

/-- C9: `EmitPushNumber(-1)` appends exactly the one byte `PUSHM1`,
`EmitPushNumber(0)` exactly the one byte `PUSH0`, and `EmitPushNumber(n)` for
`1 ≤ n ≤ 15` exactly the one byte `PUSH1 + (n - 1)`, with no payload byte; on
the empty builder (`buf = []`) the script is that single byte. -/
theorem EmitPushNumber_small (oc : Opcodes) (buf : List Byte) :
    EmitPushNumber oc (-1) buf = buf ++ [oc.PUSHM1] ∧
    EmitPushNumber oc 0 buf = buf ++ [oc.PUSH0] ∧
    ∀ n : Nat, 1 ≤ n → n ≤ 15 →
      EmitPushNumber oc (n : Int) buf = buf ++ [toByte (oc.PUSH1.val + (n - 1))] := by
  refine ⟨?_, ?_, ?_⟩
  · simp [EmitPushNumber, Emit_nil]
  · simp [EmitPushNumber, Emit_nil]
  · intro n h1 h15
    unfold EmitPushNumber
    rw [if_neg (by omega), if_neg (by omega), if_pos (by omega), Emit_nil]
    congr 2
    apply Fin.ext
    generalize oc.PUSH1 = p
    simp only [Int.natAbs_ofNat, toByte, Fin.val_add, Fin.sub_def, Fin.val_one]
    have hp := p.isLt
    simp only [Nat.reduceMod, Nat.add_mod_mod, Nat.mod_add_mod]
    omega

/-- Witness for C9: on the empty builder with the NEO opcode values, the numbers
-1, 0, 1, 7 and 15 give the single bytes `4F`, `00`, `51`, `57` and `5F`. -/
theorem EmitPushNumber_small_witness :
    EmitPushNumber neoOpcodes (-1) [] = [0x4F] ∧ EmitPushNumber neoOpcodes 0 [] = [0x00] ∧
    EmitPushNumber neoOpcodes 1 [] = [0x51] ∧ EmitPushNumber neoOpcodes 7 [] = [0x57] ∧
    EmitPushNumber neoOpcodes 15 [] = [0x5F] :=
  ⟨(EmitPushNumber_small neoOpcodes []).1, (EmitPushNumber_small neoOpcodes []).2.1,
   (EmitPushNumber_small neoOpcodes []).2.2 1 (by decide) (by decide),
   (EmitPushNumber_small neoOpcodes []).2.2 7 (by decide) (by decide),
   (EmitPushNumber_small neoOpcodes []).2.2 15 (by decide) (by decide)⟩

/-- C10 (code at the failing inputs): `EmitPushNumber` pushes `number.Bytes()`,
the big-endian bytes of the absolute value: 256 is pushed as `01 00`, 128 as
`80` and -2 as `02`, where the minimal little-endian two's-complement encoding
is `00 01`, `80 00` and `FE`. -/
theorem EmitPushNumber_not_twos_complement :
    EmitPushNumber neoOpcodes 256 [] = [0x02, 0x01, 0x00] ∧
    EmitPushBytes neoOpcodes (specMinimalTwosLE 256) [] = [0x02, 0x00, 0x01] ∧
    EmitPushNumber neoOpcodes 128 [] = [0x01, 0x80] ∧
    EmitPushBytes neoOpcodes (specMinimalTwosLE 128) [] = [0x02, 0x80, 0x00] ∧
    EmitPushNumber neoOpcodes (-2) [] = [0x01, 0x02] ∧
    EmitPushBytes neoOpcodes (specMinimalTwosLE (-2)) [] = [0x01, 0xFE] := by decide

/-! ## Transaction codec -/

theorem leBytes_length (k x : Nat) : (leBytes k x).length = k := by
  induction k generalizing x with
  | zero => rfl
  | succ n ih => simp [leBytes, ih]

theorem leValue_leBytes (k x : Nat) : leValue (leBytes k x) = x % 256 ^ k := by
  induction k generalizing x with
  | zero => simp [leBytes, leValue, Nat.mod_one]
  | succ n ih =>
    simp only [leBytes, leValue, ih, toByte]
    rw [pow_succ', Nat.mod_mul]

theorem readLE_leBytes (k v : Nat) (rest : List Byte) (h : v < 256 ^ k) :
    readLE k (leBytes k v ++ rest) = .ok (v, rest) := by
  unfold readLE
  have hl := leBytes_length k v
  rw [if_neg (by simp [hl])]
  have h1 : (leBytes k v ++ rest).take k = leBytes k v := List.take_left' hl
  have h2 : (leBytes k v ++ rest).drop k = rest := List.drop_left' hl
  rw [h1, h2, leValue_leBytes, Nat.mod_eq_of_lt h]

theorem bufRead_append (d rest : List Byte) (n : Nat) (h : d.length = n) :
    bufRead (d ++ rest) n = (d, rest) := by
  unfold bufRead
  rw [List.take_left' h, List.drop_left' h]
  simp [h]

theorem WriteVarInt_eq (buf : List Byte) (v : Nat) :
    WriteVarInt buf v = buf ++ WriteVarInt [] v := by
  unfold WriteVarInt
  split_ifs <;> simp

/-- The varint reader undoes the varint writer on every 64-bit value within the bound. -/
theorem ReadVarInt_WriteVarInt (v max : Nat) (rest : List Byte) (h : v ≤ max)
    (h64 : v < 18446744073709551616) :
    ReadVarInt (WriteVarInt [] v ++ rest) max = .ok (v, rest) := by
  have hmax : ¬ v > max := by omega
  unfold WriteVarInt
  split_ifs with h1 h2 h3
  · have hv : (toByte v).val = v := by simp [toByte]; omega
    have a1 : toByte v ≠ 0xFD := fun e => by
      have := congrArg Fin.val e; rw [hv] at this; change v = 253 at this; omega
    have a2 : toByte v ≠ 0xFE := fun e => by
      have := congrArg Fin.val e; rw [hv] at this; change v = 254 at this; omega
    have a3 : toByte v ≠ 0xFF := fun e => by
      have := congrArg Fin.val e; rw [hv] at this; change v = 255 at this; omega
    simp only [List.nil_append, List.singleton_append, ReadVarInt, if_neg a1, if_neg a2,
      if_neg a3, hv, if_neg hmax]
  · have := readLE_leBytes 2 v rest (by norm_num; omega)
    simp only [List.nil_append, List.cons_append, ReadVarInt, ↓reduceIte, this, if_neg hmax]
  · have := readLE_leBytes 4 v rest (by norm_num; omega)
    have a1 : (0xFE : Byte) ≠ 0xFD := by decide
    simp only [List.nil_append, List.cons_append, ReadVarInt, if_neg a1, ↓reduceIte, this,
      if_neg hmax]
  · have := readLE_leBytes 8 v rest (by norm_num; omega)
    have a1 : (0xFF : Byte) ≠ 0xFD := by decide
    have a2 : (0xFF : Byte) ≠ 0xFE := by decide
    simp only [List.nil_append, List.cons_append, ReadVarInt, if_neg a1, if_neg a2, ↓reduceIte,
      this, if_neg hmax]

theorem usage_fixed32_not_ecdh : ∀ u : Byte,
    (u = ContractHash ∨ u = Vote ∨ (u ≥ Hash1 ∧ u ≤ Hash15)) → ¬ (u = ECDH02 ∨ u = ECDH03) := by
  rintro u c (rfl | rfl) <;> revert c <;> decide

theorem normalize_of_not_ecdh (a : Attribute)
    (h : ¬ (a.Usage = ECDH02 ∨ a.Usage = ECDH03)) : a.normalize = a := by
  simp only [Attribute.normalize, if_neg h]

/-- One attribute: the bytes written for a valid attribute are read back as its
normal form, leaving what follows in the buffer. -/
theorem attribute_codec (a : Attribute) (h : a.valid) :
    ∃ bytes, (∀ buf, serializeAttribute a buf = .ok (buf ++ bytes)) ∧
      (∀ rest, deserializeAttribute (bytes ++ rest) = .ok (a.normalize, rest)) := by
  obtain ⟨u, d⟩ := a
  unfold Attribute.valid at h
  simp only at h
  by_cases c1 : u = ContractHash ∨ u = Vote ∨ (u ≥ Hash1 ∧ u ≤ Hash15)
  · rw [if_pos c1] at h
    have hn := normalize_of_not_ecdh ⟨u, d⟩ (usage_fixed32_not_ecdh u c1)
    refine ⟨u :: d, fun buf => ?_, fun rest => ?_⟩
    · simp only [serializeAttribute, if_pos c1, goSlice, h, le_refl, ↓reduceIte, List.drop_zero]
      rw [List.take_of_length_le (by omega)]
      simp
    · rw [hn]
      simp only [deserializeAttribute, List.cons_append, bufReadByte, if_pos c1,
        bufRead_append d rest 32 h]
  · rw [if_neg c1] at h
    by_cases c2 : u = ECDH02 ∨ u = ECDH03
    · rw [if_pos c2] at h
      refine ⟨u :: d.drop 1, fun buf => ?_, fun rest => ?_⟩
      · simp only [serializeAttribute, if_neg c1, if_pos c2, goSlice, h, le_refl, ↓reduceIte]
        rw [List.take_of_length_le (by omega)]
        simp
      · have hl : (d.drop 1).length = 32 := by simp [h]
        simp only [deserializeAttribute, List.cons_append, bufReadByte, if_neg c1, if_pos c2,
          bufRead_append (d.drop 1) rest 32 hl, Attribute.normalize]
    · rw [if_neg c2] at h
      have hn := normalize_of_not_ecdh ⟨u, d⟩ c2
      rw [hn]
      by_cases c3 : u = Script
      · rw [if_pos c3] at h
        refine ⟨u :: d, fun buf => ?_, fun rest => ?_⟩
        · simp only [serializeAttribute, if_neg c1, if_neg c2, if_pos c3, goSlice, h, le_refl,
            ↓reduceIte, List.drop_zero]
          rw [List.take_of_length_le (by omega)]
          simp
        · simp only [deserializeAttribute, List.cons_append, bufReadByte, if_neg c1, if_neg c2,
            if_pos c3, bufRead_append d rest 20 h]
      · rw [if_neg c3] at h
        by_cases c4 : u = DescriptionUrl
        · rw [if_pos c4] at h
          have hv : (toByte d.length).val = d.length := by
            simp only [toByte]
            omega
          refine ⟨u :: toByte d.length :: d, fun buf => ?_, fun rest => ?_⟩
          · simp only [serializeAttribute, if_neg c1, if_neg c2, if_neg c3, if_pos c4]
            simp
          · simp only [deserializeAttribute, List.cons_append, bufReadByte, if_neg c1, if_neg c2,
              if_neg c3, if_pos c4, bufRead_append d rest _ hv.symm]
        · rw [if_neg c4] at h
          by_cases c5 : u = Description ∨ u ≥ Remark
          · rw [if_pos c5] at h
            refine ⟨u :: (WriteVarInt [] d.length ++ d), fun buf => ?_, fun rest => ?_⟩
            · simp only [serializeAttribute, if_neg c1, if_neg c2, if_neg c3, if_neg c4, if_pos c5]
              rw [WriteVarInt_eq]
              simp
            · simp only [deserializeAttribute, List.cons_append, bufReadByte, if_neg c1,
                if_neg c2, if_neg c3, if_neg c4, if_pos c5, List.append_assoc,
                ReadVarInt_WriteVarInt d.length 65535 (d ++ rest) h (by omega),
                bufRead_append d rest _ rfl]
          · rw [if_neg c5] at h
            exact absurd h id

theorem serializeAttribute_normalize (a : Attribute) (h : a.valid) (buf : List Byte) :
    serializeAttribute a.normalize buf = serializeAttribute a buf := by
  by_cases c2 : a.Usage = ECDH02 ∨ a.Usage = ECDH03
  · obtain ⟨u, d⟩ := a
    have c1 : ¬ (u = ContractHash ∨ u = Vote ∨ (u ≥ Hash1 ∧ u ≤ Hash15)) :=
      fun c => usage_fixed32_not_ecdh u c c2
    unfold Attribute.valid at h
    simp only at c2 h
    rw [if_neg c1, if_pos c2] at h
    have hl : (u :: d.drop 1).length = 33 := by simp [h]
    simp only [Attribute.normalize, if_pos c2, serializeAttribute, if_neg c1, goSlice, h, hl,
      le_refl, ↓reduceIte]
    rw [List.take_of_length_le (by omega), List.take_of_length_le (by omega)]
    simp
  · rw [normalize_of_not_ecdh a c2]

theorem attributes_codec (as : List Attribute) (h : ∀ a ∈ as, a.valid) :
    ∃ bytes, (∀ buf, serializeAttributes as buf = .ok (buf ++ bytes)) ∧
      (∀ rest, deserializeAttributes as.length (bytes ++ rest)
        = .ok (as.map Attribute.normalize, rest)) := by
  induction as with
  | nil => exact ⟨[], fun buf => by simp [serializeAttributes], fun rest => rfl⟩
  | cons a rest ih =>
    obtain ⟨b1, hs1, hd1⟩ := attribute_codec a (h a (by simp))
    obtain ⟨b2, hs2, hd2⟩ := ih (fun x hx => h x (by simp [hx]))
    refine ⟨b1 ++ b2, fun buf => ?_, fun tl => ?_⟩
    · simp only [serializeAttributes, hs1, hs2, List.append_assoc]
    · simp only [List.length_cons, deserializeAttributes, List.append_assoc, hd1, hd2,
        List.map_cons]

theorem serializeAttributes_normalize (as : List Attribute) (h : ∀ a ∈ as, a.valid)
    (buf : List Byte) :
    serializeAttributes (as.map Attribute.normalize) buf = serializeAttributes as buf := by
  induction as generalizing buf with
  | nil => rfl
  | cons a rest ih =>
    simp only [List.map_cons, serializeAttributes,
      serializeAttribute_normalize a (h a (by simp))]
    cases serializeAttribute a buf with
    | error e => rfl
    | ok b => exact ih (fun x hx => h x (by simp [hx])) b

theorem Uint16_PutUint16 (v : U16) (rest : List Byte) :
    bufRead (PutUint16 v ++ rest) 2 = (PutUint16 v, rest) ∧ Uint16 (PutUint16 v) = v := by
  have hl : (PutUint16 v).length = 2 := leBytes_length 2 v.val
  refine ⟨bufRead_append _ _ _ hl, ?_⟩
  apply Fin.ext
  have hv := v.isLt
  simp only [Uint16, PutUint16, List.take_of_length_le (le_of_eq (leBytes_length 2 v.val)),
    leValue_leBytes, Fin.ofNat, Nat.reducePow, Nat.mod_mod]
  omega

theorem Uint64_PutUint64 (v : U64) (rest : List Byte) :
    bufRead (PutUint64 v ++ rest) 8 = (PutUint64 v, rest) ∧ Uint64 (PutUint64 v) = v := by
  have hl : (PutUint64 v).length = 8 := leBytes_length 8 v.val
  refine ⟨bufRead_append _ _ _ hl, ?_⟩
  apply Fin.ext
  have hv := v.isLt
  simp only [Uint64, PutUint64, List.take_of_length_le (le_of_eq (leBytes_length 8 v.val)),
    leValue_leBytes, Fin.ofNat, Nat.reducePow, Nat.mod_mod]
  omega

theorem inputs_codec (ins : List TransactionInput) (h : ∀ i ∈ ins, i.hash.length = 32) :
    ∃ bytes, (∀ buf, serializeInputs ins buf = buf ++ bytes) ∧
      (∀ rest, deserializeInputs ins.length (bytes ++ rest) = (ins, rest)) := by
  induction ins with
  | nil => exact ⟨[], fun buf => by simp [serializeInputs], fun rest => rfl⟩
  | cons i tl ih =>
    obtain ⟨b2, hs2, hd2⟩ := ih (fun x hx => h x (by simp [hx]))
    have hh : i.hash.length = 32 := h i (by simp)
    refine ⟨i.hash ++ PutUint16 i.index ++ b2, fun buf => ?_, fun rest => ?_⟩
    · simp only [serializeInputs, hs2, List.append_assoc]
    · simp only [List.length_cons, deserializeInputs, List.append_assoc,
        bufRead_append i.hash _ 32 hh, (Uint16_PutUint16 i.index _).1,
        (Uint16_PutUint16 i.index []).2, hd2]

theorem outputs_codec (outs : List TransactionOutput)
    (h : ∀ o ∈ outs, o.assetId.length = 32 ∧ o.toAddress.length = 20) :
    ∃ bytes, (∀ buf, serializeOutputs outs buf = buf ++ bytes) ∧
      (∀ rest, deserializeOutputs outs.length (bytes ++ rest) = (outs, rest)) := by
  induction outs with
  | nil => exact ⟨[], fun buf => by simp [serializeOutputs], fun rest => rfl⟩
  | cons o tl ih =>
    obtain ⟨b2, hs2, hd2⟩ := ih (fun x hx => h x (by simp [hx]))
    obtain ⟨ha, ht⟩ := h o (by simp)
    refine ⟨o.assetId ++ PutUint64 o.value.value ++ o.toAddress ++ b2, fun buf => ?_,
      fun rest => ?_⟩
    · simp only [serializeOutputs, hs2, List.append_assoc]
    · simp only [List.length_cons, deserializeOutputs, List.append_assoc,
        bufRead_append o.assetId _ 32 ha, (Uint64_PutUint64 o.value.value _).1,
        (Uint64_PutUint64 o.value.value []).2, bufRead_append o.toAddress _ 20 ht, hd2]

theorem readScript (d rest : List Byte) :
    (if d.length > 0 then bufRead (d ++ rest) d.length else ([], d ++ rest)) = (d, rest) := by
  split
  · exact bufRead_append d rest _ rfl
  · have : d = [] := List.length_eq_zero.mp (by omega)
    subst this
    rfl

theorem witnesses_codec (ws : List Witness)
    (h : ∀ w ∈ ws, w.InvocationScript.length ≤ 65535 ∧ w.VerificationScript.length ≤ 65535) :
    ∃ bytes, (∀ buf, serializeWitnesses ws buf = buf ++ bytes) ∧
      (∀ rest, deserializeWitnesses ws.length (bytes ++ rest) = .ok (ws, rest)) := by
  induction ws with
  | nil => exact ⟨[], fun buf => by simp [serializeWitnesses], fun rest => rfl⟩
  | cons w tl ih =>
    obtain ⟨b2, hs2, hd2⟩ := ih (fun x hx => h x (by simp [hx]))
    obtain ⟨hi, hv⟩ := h w (by simp)
    refine ⟨WriteVarInt [] w.InvocationScript.length ++ w.InvocationScript
      ++ WriteVarInt [] w.VerificationScript.length ++ w.VerificationScript ++ b2,
      fun buf => ?_, fun rest => ?_⟩
    · simp only [serializeWitnesses, hs2]
      rw [WriteVarInt_eq (WriteVarInt buf _ ++ _), WriteVarInt_eq buf]
      simp only [List.append_assoc]
    · simp only [List.length_cons, deserializeWitnesses, List.append_assoc,
        ReadVarInt_WriteVarInt _ 65535 _ hi (by omega),
        ReadVarInt_WriteVarInt _ 65535 _ hv (by omega), readScript, hd2]

theorem WriteVarInt_append (buf : List Byte) (v : Nat) :
    WriteVarInt buf v = buf ++ varIntBytes v := WriteVarInt_eq buf v

theorem ReadVarInt_varIntBytes (v : Nat) (rest : List Byte) (h : v ≤ 65535) :
    ReadVarInt (varIntBytes v ++ rest) 65535 = .ok (v, rest) :=
  ReadVarInt_WriteVarInt v 65535 rest h (by omega)

theorem varIntBytes_ne_nil (v : Nat) : varIntBytes v ≠ [] := by
  unfold varIntBytes WriteVarInt
  split_ifs <;> simp

/-- The extension: the bytes written under version `tx.version` are read back,
under the same version, as the normal form of the extension. -/
theorem extdata_codec (e : InvokeTransData) (tx : Transaction) (h : e.script.length ≤ 65535) :
    ∃ bytes, (∀ buf, e.Serialize tx buf = buf ++ bytes) ∧
      (∀ tx2 : Transaction, tx2.version = tx.version →
        ∀ buf, (e.normalize tx.version).Serialize tx2 buf = buf ++ bytes) ∧
      (∀ tx2 : Transaction, tx2.version = tx.version → ∀ rest,
        InvokeTransData.Deserialize ⟨[], ⟨0⟩⟩ tx2 (bytes ++ rest)
          = .ok (e.normalize tx.version, rest)) := by
  by_cases hv : tx.version ≥ 1
  · refine ⟨varIntBytes e.script.length ++ e.script ++ PutUint64 e.gas.value,
      fun buf => ?_, fun tx2 h2 buf => ?_, fun tx2 h2 rest => ?_⟩
    · simp only [InvokeTransData.Serialize, if_pos hv, WriteVarInt_append, List.append_assoc]
    · simp only [InvokeTransData.Serialize, InvokeTransData.normalize, h2, if_pos hv,
        WriteVarInt_append, List.append_assoc]
    · simp only [InvokeTransData.Deserialize, InvokeTransData.normalize, h2, if_pos hv,
        List.append_assoc, ReadVarInt_varIntBytes _ _ h, bufRead_append e.script _ _ rfl,
        (Uint64_PutUint64 e.gas.value _).1, (Uint64_PutUint64 e.gas.value []).2]
  · refine ⟨varIntBytes e.script.length ++ e.script,
      fun buf => ?_, fun tx2 h2 buf => ?_, fun tx2 h2 rest => ?_⟩
    · simp only [InvokeTransData.Serialize, if_neg hv, WriteVarInt_append, List.append_assoc]
    · simp only [InvokeTransData.Serialize, InvokeTransData.normalize, h2, if_neg hv,
        WriteVarInt_append, List.append_assoc]
    · simp only [InvokeTransData.Deserialize, InvokeTransData.normalize, h2, if_neg hv,
        List.append_assoc, ReadVarInt_varIntBytes _ _ h, bufRead_append e.script _ _ rfl]

theorem ite_length_pos {α β : Type} (l : List α) (X : List β) (h : X.length = l.length) :
    (if l.length > 0 then X else []) = X := by
  split
  · rfl
  · exact (List.length_eq_zero.mp (by omega)).symm

/-- The whole transaction: a valid transaction serializes, its normal form
serializes to the same bytes, and these bytes deserialize, on a fresh
`Transaction{}`, to the normal form. -/
theorem transaction_codec (t : Transaction) (h : t.valid) :
    ∃ bytes, t.Serialize [] = .ok bytes ∧ t.normalize.Serialize [] = .ok bytes ∧
      Transaction.zero.Deserialize bytes = .ok t.normalize := by
  obtain ⟨hk, hal, hav, hil, hiv, hol, hov, hwl, hwv⟩ := h
  obtain ⟨ab, hsA, hdA⟩ := attributes_codec t.attributes hav
  obtain ⟨ib, hsI, hdI⟩ := inputs_codec t.inputs hiv
  obtain ⟨ob, hsO, hdO⟩ := outputs_codec t.outputs hov
  obtain ⟨wb, hsW, hdW⟩ := witnesses_codec t.witnesses hwv
  have hsA2 := serializeAttributes_normalize t.attributes hav
  have hdW2 : deserializeWitnesses t.witnesses.length wb = .ok (t.witnesses, []) := by
    simpa using hdW []
  have hne : InvocationTransaction ≠ ContractTransaction := by decide
  obtain ⟨k, v, as, ins, outs, ws, ext⟩ := t
  simp only at hk hal hav hil hiv hol hov hwl hwv hsA hdA hsI hdI hsO hdO hsW hdW hsA2 hdW2
  rcases hk with ⟨hty, hext⟩ | ⟨hty, hsome, hscript⟩
  · subst hty hext
    refine ⟨ContractTransaction :: v :: (varIntBytes as.length ++ (ab ++ (varIntBytes ins.length
      ++ (ib ++ (varIntBytes outs.length ++ (ob ++ (varIntBytes ws.length ++ wb))))))),
      ?_, ?_, ?_⟩
    · simp only [Transaction.Serialize, Transaction.SerializeUnsigned, ↓reduceIte,
        WriteVarInt_append, hsA, hsI, hsO, hsW, List.nil_append, List.append_assoc,
        List.cons_append, List.singleton_append]
    · simp only [Transaction.normalize, Transaction.Serialize, Transaction.SerializeUnsigned,
        ↓reduceIte, WriteVarInt_append, hsA2, hsA, hsI, hsO, hsW, List.nil_append,
        List.append_assoc, List.cons_append, List.singleton_append, List.length_map,
        Option.map_none']
    · simp only [Transaction.Deserialize, Transaction.zero, bufReadByte, ↓reduceIte,
        ReadVarInt_varIntBytes _ _ hal, hdA, ReadVarInt_varIntBytes _ _ hil, hdI,
        ReadVarInt_varIntBytes _ _ hol, hdO, ReadVarInt_varIntBytes _ _ hwl, hdW2]
      rw [ite_length_pos as _ (by simp), ite_length_pos ins ins rfl,
        ite_length_pos outs outs rfl]
      simp [Transaction.normalize]
  · subst hty
    obtain ⟨e, rfl⟩ := Option.isSome_iff_exists.mp hsome
    have hs : e.script.length ≤ 65535 := hscript e rfl
    obtain ⟨eb, hsE, hsE2, hdE⟩ := extdata_codec e
      ⟨InvocationTransaction, v, as, ins, outs, ws, some e⟩ hs
    simp only at hsE hsE2 hdE
    refine ⟨InvocationTransaction :: v :: (eb ++ (varIntBytes as.length ++ (ab
      ++ (varIntBytes ins.length ++ (ib ++ (varIntBytes outs.length ++ (ob
      ++ (varIntBytes ws.length ++ wb)))))))), ?_, ?_, ?_⟩
    · simp only [Transaction.Serialize, Transaction.SerializeUnsigned, if_neg hne, ↓reduceIte,
        WriteVarInt_append, hsE, hsA, hsI, hsO, hsW, List.nil_append, List.append_assoc,
        List.cons_append, List.singleton_append]
    · simp only [Transaction.normalize, Transaction.Serialize, Transaction.SerializeUnsigned,
        if_neg hne, ↓reduceIte, WriteVarInt_append, Option.map_some', hsE2, hsA2, hsA, hsI,
        hsO, hsW, List.nil_append, List.append_assoc, List.cons_append, List.singleton_append,
        List.length_map]
    · simp only [Transaction.Deserialize, Transaction.zero, bufReadByte, if_neg hne, ↓reduceIte,
        hdE,
        ReadVarInt_varIntBytes _ _ hal, hdA, ReadVarInt_varIntBytes _ _ hil, hdI,
        ReadVarInt_varIntBytes _ _ hol, hdO, ReadVarInt_varIntBytes _ _ hwl, hdW2]
      rw [ite_length_pos as _ (by simp), ite_length_pos ins ins rfl,
        ite_length_pos outs outs rfl]
      simp [Transaction.normalize]

theorem attribute_normalize_eq (a : Attribute) (hv : a.valid)
    (h : a.Usage = ECDH02 ∨ a.Usage = ECDH03 → a.Data.head? = some a.Usage) :
    a.normalize = a := by
  by_cases c2 : a.Usage = ECDH02 ∨ a.Usage = ECDH03
  · obtain ⟨u, d⟩ := a
    have hh := h c2
    cases d with
    | nil => simp at hh
    | cons x xs =>
      simp only [List.head?_cons, Option.some.injEq] at hh
      subst hh
      simp only at c2
      simp [Attribute.normalize, c2]
  · exact normalize_of_not_ecdh a c2

theorem transaction_normalize_eq (t : Transaction) (hv : t.valid) (hw : t.onWire) :
    t.normalize = t := by
  obtain ⟨_, _, hav, _⟩ := hv
  obtain ⟨h1, h2⟩ := hw
  obtain ⟨k, v, as, ins, outs, ws, ext⟩ := t
  simp only at hav h1 h2
  have ha : as.map Attribute.normalize = as := by
    conv_rhs => rw [← List.map_id as]
    apply List.map_congr_left
    intro a ha
    exact attribute_normalize_eq a (hav a ha) (h1 a ha)
  have he : ext.map (fun e => e.normalize v) = ext := by
    cases ext with
    | none => rfl
    | some e =>
      by_cases hver : v ≥ 1
      · simp [InvokeTransData.normalize, hver]
      · have := h2 e rfl hver
        obtain ⟨sc, g⟩ := e
        simp only at this
        subst this
        simp [InvokeTransData.normalize, hver]
  simp only [Transaction.normalize, ha, he]

/-- C2 (the claim as stated fails): a valid Invocation transaction of version 0
with attached gas 5 comes back with attached gas 0, and a valid Contract
transaction whose ECDH02 attribute data begins with `05` comes back with data
beginning with `02`. -/
theorem Deserialize_Serialize_counterexample :
    (exampleGasV0Tx.valid ∧
      ∃ bytes t, exampleGasV0Tx.Serialize [] = .ok bytes ∧
        Transaction.zero.Deserialize bytes = .ok t ∧ t.extdata ≠ exampleGasV0Tx.extdata) ∧
    (exampleEcdhTx.valid ∧
      ∃ bytes t, exampleEcdhTx.Serialize [] = .ok bytes ∧
        Transaction.zero.Deserialize bytes = .ok t ∧ t.attributes ≠ exampleEcdhTx.attributes) := by
  refine ⟨⟨by decide, ?_⟩, ⟨by decide, ?_⟩⟩
  · obtain ⟨bytes, hs, _, hd⟩ := transaction_codec exampleGasV0Tx (by decide)
    exact ⟨bytes, _, hs, hd, by decide⟩
  · obtain ⟨bytes, hs, _, hd⟩ := transaction_codec exampleEcdhTx (by decide)
    exact ⟨bytes, _, hs, hd, by decide⟩

/-- C2 (amended): for every valid transaction whose fields are all on the wire
(each ECDH02/ECDH03 attribute's data begins with its usage byte, and the
attached gas is zero when the version is 0), `Serialize` succeeds and
`Deserialize` of its bytes, on a fresh `Transaction{}`, yields the transaction
itself: kind, version, extension, attributes, inputs, outputs and witnesses. -/
theorem Deserialize_Serialize (t : Transaction) (hv : t.valid) (hw : t.onWire) :
    ∃ bytes, t.Serialize [] = .ok bytes ∧ Transaction.zero.Deserialize bytes = .ok t := by
  obtain ⟨bytes, hs, _, hd⟩ := transaction_codec t hv
  rw [transaction_normalize_eq t hv hw] at hd
  exact ⟨bytes, hs, hd⟩

/-- Witness for C2 (amended): the example Contract and Invocation transactions
are valid and on the wire, and come back unchanged. -/
theorem Deserialize_Serialize_witness :
    (exampleContractTx.valid ∧ exampleContractTx.onWire ∧
      ∃ bytes, exampleContractTx.Serialize [] = .ok bytes ∧
        Transaction.zero.Deserialize bytes = .ok exampleContractTx) ∧
    (exampleInvocationTx.valid ∧ exampleInvocationTx.onWire ∧
      ∃ bytes, exampleInvocationTx.Serialize [] = .ok bytes ∧
        Transaction.zero.Deserialize bytes = .ok exampleInvocationTx) :=
  ⟨⟨by decide, by decide, Deserialize_Serialize exampleContractTx (by decide) (by decide)⟩,
   ⟨by decide, by decide, Deserialize_Serialize exampleInvocationTx (by decide) (by decide)⟩⟩

/-- C3: for every valid transaction `t`, `Serialize(t)` succeeds, `Deserialize`
of its bytes succeeds, and serializing the result gives the same bytes. -/
theorem Serialize_Deserialize_Serialize (t : Transaction) (hv : t.valid) :
    ∃ bytes t2, t.Serialize [] = .ok bytes ∧ Transaction.zero.Deserialize bytes = .ok t2 ∧
      t2.Serialize [] = .ok bytes := by
  obtain ⟨bytes, hs, hs2, hd⟩ := transaction_codec t hv
  exact ⟨bytes, t.normalize, hs, hd, hs2⟩

/-- Witness for C3: the version-0 Invocation transaction with attached gas 5,
which does not come back field for field, re-serializes to the same bytes. -/
theorem Serialize_Deserialize_Serialize_witness :
    exampleGasV0Tx.valid ∧
    ∃ bytes t2, exampleGasV0Tx.Serialize [] = .ok bytes ∧
      Transaction.zero.Deserialize bytes = .ok t2 ∧ t2.Serialize [] = .ok bytes :=
  ⟨by decide, Serialize_Deserialize_Serialize exampleGasV0Tx (by decide)⟩

theorem serializeWitnesses_eq (ws : List Witness) (buf : List Byte) :
    serializeWitnesses ws buf = buf ++ (ws.map witnessBytes).flatten := by
  induction ws generalizing buf with
  | nil => simp [serializeWitnesses]
  | cons w tl ih =>
    simp only [serializeWitnesses, ih, WriteVarInt_append, witnessBytes, List.map_cons,
      List.flatten_cons, List.append_assoc]

/-- C4: for every serialisable transaction (`SerializeUnsigned` returns the bytes
`u`), the bytes of `Serialize` are `u`, then the varint of the witness count,
then for each witness in list order varint(len invocationScript) ‖
invocationScript ‖ varint(len verificationScript) ‖ verificationScript; `u` is a
strict prefix of them. -/
theorem Serialize_eq_SerializeUnsigned_append (t : Transaction) (u : List Byte)
    (hu : t.SerializeUnsigned [] = .ok u) :
    t.Serialize [] = .ok (u ++ varIntBytes t.witnesses.length ++ (t.witnesses.map witnessBytes).flatten)
    ∧ ∃ suffix, suffix ≠ [] ∧
        t.Serialize [] = .ok (u ++ suffix) := by
  have h : t.Serialize []
      = .ok (u ++ varIntBytes t.witnesses.length ++ (t.witnesses.map witnessBytes).flatten) := by
    simp only [Transaction.Serialize, hu, serializeWitnesses_eq, WriteVarInt_append]
  refine ⟨h, varIntBytes t.witnesses.length ++ (t.witnesses.map witnessBytes).flatten, ?_, ?_⟩
  · intro hnil
    exact varIntBytes_ne_nil _ (List.append_eq_nil.mp hnil).1
  · rw [h, List.append_assoc]

/-- Witness for C4: the example Contract transaction is serialisable. -/
theorem Serialize_eq_SerializeUnsigned_append_witness :
    ∃ u, exampleContractTx.SerializeUnsigned [] = .ok u ∧
      exampleContractTx.Serialize [] = .ok (u ++ varIntBytes exampleContractTx.witnesses.length
        ++ (exampleContractTx.witnesses.map witnessBytes).flatten) := by
  obtain ⟨bytes, hs, _⟩ := transaction_codec exampleContractTx (by decide)
  cases hu : exampleContractTx.SerializeUnsigned [] with
  | error e => simp [Transaction.Serialize, hu] at hs
  | ok u => exact ⟨u, rfl, (Serialize_eq_SerializeUnsigned_append exampleContractTx u hu).1⟩

/-! ## Witness attachment -/

theorem addressTaken_iff {PK : Type} (lib : KeyLib PK) (newwit : Witness) (ws : List Witness) :
    addressTaken lib newwit ws = true ↔ ∃ w ∈ ws, w.GetAddress lib = newwit.GetAddress lib := by
  induction ws with
  | nil => simp [addressTaken]
  | cons w tl ih =>
    unfold addressTaken
    by_cases hw : w.GetAddress lib = newwit.GetAddress lib
    · simp [hw]
    · simp [hw, ih]

/-- C5: if some witness already in `t` has the address derived from the
verification script `vs`, `AddWitnessScript(vs, is)` returns false and leaves the
transaction unchanged; otherwise it returns true and the new witness list is the
old one with the witness `(is, vs)` appended, every other field unchanged. -/
theorem AddWitnessScript_spec {PK : Type} (lib : KeyLib PK) (t : Transaction)
    (vs is : List Byte) :
    ((∃ w ∈ t.witnesses, w.GetAddress lib = (Witness.mk is vs).GetAddress lib) →
      t.AddWitnessScript lib vs is = (false, t)) ∧
    ((¬ ∃ w ∈ t.witnesses, w.GetAddress lib = (Witness.mk is vs).GetAddress lib) →
      t.AddWitnessScript lib vs is
        = (true, { t with witnesses := t.witnesses ++ [Witness.mk is vs] })) := by
  constructor
  · intro h
    have := (addressTaken_iff lib (Witness.mk is vs) t.witnesses).mpr h
    simp only [Transaction.AddWitnessScript, this, ↓reduceIte]
  · intro h
    have : addressTaken lib (Witness.mk is vs) t.witnesses = false := by
      cases hb : addressTaken lib (Witness.mk is vs) t.witnesses with
      | false => rfl
      | true => exact absurd ((addressTaken_iff lib _ _).mp hb) h
    simp only [Transaction.AddWitnessScript, this, Bool.false_eq_true, ↓reduceIte]

/-- Witness for C5: on the example Contract transaction, whose one witness has
verification script `21 03 AC`, a second script with the same address is
refused and a script with another address is appended. -/
theorem AddWitnessScript_spec_witness :
    exampleContractTx.AddWitnessScript exampleKeyLib [0x21, 3, 0xAC] [0x40, 9]
      = (false, exampleContractTx) ∧
    exampleContractTx.AddWitnessScript exampleKeyLib [0x21, 4, 0xAC] [0x40, 9]
      = (true, { exampleContractTx with
          witnesses := exampleContractTx.witnesses ++ [Witness.mk [0x40, 9] [0x21, 4, 0xAC]] }) :=
  ⟨(AddWitnessScript_spec exampleKeyLib exampleContractTx [0x21, 3, 0xAC] [0x40, 9]).1
      (by decide),
   (AddWitnessScript_spec exampleKeyLib exampleContractTx [0x21, 4, 0xAC] [0x40, 9]).2
      (by decide)⟩

theorem SerializeUnsigned_witnesses (t : Transaction) (ws : List Witness) (buf : List Byte) :
    ({ t with witnesses := ws } : Transaction).SerializeUnsigned buf = t.SerializeUnsigned buf :=
  rfl

theorem AddWitnessScript_frame {PK : Type} (lib : KeyLib PK) (t : Transaction)
    (vs is : List Byte) :
    ∃ ws, (t.AddWitnessScript lib vs is).2 = { t with witnesses := ws } := by
  simp only [Transaction.AddWitnessScript]
  split
  · exact ⟨t.witnesses, rfl⟩
  · exact ⟨_, rfl⟩

theorem AddWitness_frame {PK : Type} (lib : KeyLib PK) (oc : Opcodes) (t : Transaction)
    (signData : List Byte) (pubkey : PK) (addrs : List Byte) :
    ∃ ws, (t.AddWitness lib oc signData pubkey addrs).2 = { t with witnesses := ws } := by
  unfold Transaction.AddWitness
  split
  · exact ⟨t.witnesses, rfl⟩
  · simp only
    split
    · exact ⟨t.witnesses, rfl⟩
    · split
      · exact ⟨t.witnesses, rfl⟩
      · exact AddWitnessScript_frame lib t _ _

/-- C6: after any call of `AddWitnessScript` (returning true or false) and after
any call of `AddWitness` (successful or not), `SerializeUnsigned` gives, on
every buffer, exactly what it gave before the call: the same bytes when the
transaction is serialisable. -/
theorem SerializeUnsigned_after_witness {PK : Type} (lib : KeyLib PK) (oc : Opcodes)
    (t : Transaction) (vs is signData : List Byte) (pubkey : PK) (addrs buf : List Byte) :
    (t.AddWitnessScript lib vs is).2.SerializeUnsigned buf = t.SerializeUnsigned buf ∧
    (t.AddWitness lib oc signData pubkey addrs).2.SerializeUnsigned buf
      = t.SerializeUnsigned buf := by
  constructor
  · obtain ⟨ws, h⟩ := AddWitnessScript_frame lib t vs is
    rw [h, SerializeUnsigned_witnesses]
  · obtain ⟨ws, h⟩ := AddWitness_frame lib oc t signData pubkey addrs
    rw [h, SerializeUnsigned_witnesses]

/-- C7: on a serialisable transaction with signing payload `data`,
`AddWitness(signature, publicKey, claimedAddress)` aborts with the verify error
when `Verify(data, signature, publicKey)` is false; aborts whenever the address
derived from the key differs from the claimed one, with the address error once
the signature has passed; leaves the transaction unchanged in both cases; and
when both checks pass does exactly
`AddWitnessScript(verificationScript(publicKey), pushBytes(signature))`. -/
theorem AddWitness_spec {PK : Type} (lib : KeyLib PK) (oc : Opcodes) (t : Transaction)
    (signData : List Byte) (pubkey : PK) (addrs data : List Byte)
    (hdata : t.SerializeUnsigned [] = .ok data) :
    (lib.Verify data signData pubkey = false →
      t.AddWitness lib oc signData pubkey addrs = (.error .verify, t)) ∧
    (lib.getAddressFromPublicKey pubkey ≠ addrs →
      (∃ e, (t.AddWitness lib oc signData pubkey addrs).1 = .error e) ∧
      (t.AddWitness lib oc signData pubkey addrs).2 = t) ∧
    (lib.Verify data signData pubkey = true → lib.getAddressFromPublicKey pubkey ≠ addrs →
      t.AddWitness lib oc signData pubkey addrs = (.error .address, t)) ∧
    (lib.Verify data signData pubkey = true → lib.getAddressFromPublicKey pubkey = addrs →
      t.AddWitness lib oc signData pubkey addrs
        = (.ok (), (t.AddWitnessScript lib (lib.getScriptFromPublicKey pubkey)
            (EmitPushBytes oc signData [])).2)) := by
  refine ⟨fun hv => ?_, fun ha => ?_, fun hv ha => ?_, fun hv ha => ?_⟩
  · simp [Transaction.AddWitness, hdata, hv]
  · cases hv : lib.Verify data signData pubkey with
    | false => simp [Transaction.AddWitness, hdata, hv]
    | true => simp [Transaction.AddWitness, hdata, hv, ha]
  · simp [Transaction.AddWitness, hdata, hv, ha]
  · simp [Transaction.AddWitness, hdata, hv, ha]

/-- Witness for C7: on the version-0 Invocation example, whose signing payload is
`D1 00 01 51 00 00 00`, with the stand-in key functions and key `03`: a wrong
signature aborts with the verify error, the right signature with a wrong address
aborts with the address error, and the right signature with the right address
attaches the witness (push of the signature, `21 03 AC`). -/
theorem AddWitness_spec_witness :
    exampleGasV0Tx.SerializeUnsigned [] = .ok [0xd1, 0, 1, 0x51, 0, 0, 0] ∧
    exampleGasV0Tx.AddWitness exampleKeyLib neoOpcodes [9] [3] [0x41, 0x21, 3, 0xAC]
      = (.error .verify, exampleGasV0Tx) ∧
    exampleGasV0Tx.AddWitness exampleKeyLib neoOpcodes [3, 0xd1, 0, 1, 0x51, 0, 0, 0] [3] [0x41]
      = (.error .address, exampleGasV0Tx) ∧
    exampleGasV0Tx.AddWitness exampleKeyLib neoOpcodes [3, 0xd1, 0, 1, 0x51, 0, 0, 0] [3]
        [0x41, 0x21, 3, 0xAC]
      = (.ok (), (exampleGasV0Tx.AddWitnessScript exampleKeyLib
          (exampleKeyLib.getScriptFromPublicKey [3])
          (EmitPushBytes neoOpcodes [3, 0xd1, 0, 1, 0x51, 0, 0, 0] [])).2) :=
  ⟨by decide,
   (AddWitness_spec exampleKeyLib neoOpcodes exampleGasV0Tx [9] [3] [0x41, 0x21, 3, 0xAC]
      [0xd1, 0, 1, 0x51, 0, 0, 0] (by decide)).1 (by decide),
   (AddWitness_spec exampleKeyLib neoOpcodes exampleGasV0Tx [3, 0xd1, 0, 1, 0x51, 0, 0, 0] [3]
      [0x41] [0xd1, 0, 1, 0x51, 0, 0, 0] (by decide)).2.2.1 (by decide) (by decide),
   (AddWitness_spec exampleKeyLib neoOpcodes exampleGasV0Tx [3, 0xd1, 0, 1, 0x51, 0, 0, 0] [3]
      [0x41, 0x21, 3, 0xAC] [0xd1, 0, 1, 0x51, 0, 0, 0] (by decide)).2.2.2 (by decide)
      (by decide)⟩

/-! ## Script builder: pushes and the parameter compiler -/

theorem EmitPushBytes_header (oc : Opcodes) (d buf : List Byte) :
    ∃ header, header.length = pushHeaderLength oc d.length ∧
      EmitPushBytes oc d buf = buf ++ header ++ d := by
  unfold EmitPushBytes pushHeaderLength
  simp only [Emit_nil, WriteUint16, WriteUint32]
  split_ifs
  · exact ⟨[toByte d.length], rfl, rfl⟩
  · exact ⟨[oc.PUSHDATA1, toByte d.length], rfl, by simp⟩
  · exact ⟨[oc.PUSHDATA2, toByte d.length, toByte (d.length / 256)], rfl, by simp⟩
  · exact ⟨[oc.PUSHDATA4, toByte d.length, toByte (d.length / 256), toByte (d.length / 65536),
      toByte (d.length / 16777216)], rfl, by simp⟩

theorem pushHeaderLength_mono (oc : Opcodes) (L L2 : Nat) (h : L < L2) :
    L + pushHeaderLength oc L < L2 + pushHeaderLength oc L2 := by
  unfold pushHeaderLength
  split_ifs <;> omega

/-- The payload is determined by the emitted bytes. -/
theorem EmitPushBytes_injective (oc : Opcodes) (d d2 buf : List Byte)
    (h : EmitPushBytes oc d buf = EmitPushBytes oc d2 buf) : d = d2 := by
  obtain ⟨h1, hl1, e1⟩ := EmitPushBytes_header oc d buf
  obtain ⟨h2, hl2, e2⟩ := EmitPushBytes_header oc d2 buf
  rw [e1, e2] at h
  have hlen := congrArg List.length h
  simp only [List.length_append, hl1, hl2] at hlen
  have hL : d.length = d2.length := by
    rcases Nat.lt_trichotomy d.length d2.length with hlt | heq | hgt
    · have := pushHeaderLength_mono oc _ _ hlt
      omega
    · exact heq
    · have := pushHeaderLength_mono oc _ _ hgt
      omega
  exact List.append_inj_right' h hL

/-- C11: with `PUSHBYTES75 = 75`, for every byte sequence `d` of length
`L < 2^32`, `EmitPushBytes(d)` appends the single byte `L` then `d` when
`L ≤ 75`; `PUSHDATA1`, the byte `L`, then `d` when `76 ≤ L ≤ 255`; `PUSHDATA2`,
`L` as 2 bytes little-endian, then `d` when `256 ≤ L ≤ 65535`; `PUSHDATA4`, `L`
as 4 bytes little-endian, then `d` otherwise. The appended length is `L+1`,
`L+2`, `L+3` or `L+5`, and two payloads with the same emitted bytes are equal. -/
theorem EmitPushBytes_spec (oc : Opcodes) (h75 : oc.PUSHBYTES75.val = 75) (d buf : List Byte)
    (hL : d.length < 4294967296) :
    (d.length ≤ 75 →
      EmitPushBytes oc d buf = buf ++ toByte d.length :: d ∧ (toByte d.length).val = d.length ∧
      (EmitPushBytes oc d buf).length = buf.length + (d.length + 1)) ∧
    (76 ≤ d.length → d.length ≤ 255 →
      EmitPushBytes oc d buf = buf ++ oc.PUSHDATA1 :: toByte d.length :: d ∧
      (toByte d.length).val = d.length ∧
      (EmitPushBytes oc d buf).length = buf.length + (d.length + 2)) ∧
    (256 ≤ d.length → d.length ≤ 65535 →
      EmitPushBytes oc d buf = buf ++ oc.PUSHDATA2 :: (leBytes 2 d.length ++ d) ∧
      leValue (leBytes 2 d.length) = d.length ∧
      (EmitPushBytes oc d buf).length = buf.length + (d.length + 3)) ∧
    (65536 ≤ d.length →
      EmitPushBytes oc d buf = buf ++ oc.PUSHDATA4 :: (leBytes 4 d.length ++ d) ∧
      leValue (leBytes 4 d.length) = d.length ∧
      (EmitPushBytes oc d buf).length = buf.length + (d.length + 5)) ∧
    (∀ d2 : List Byte, EmitPushBytes oc d buf = EmitPushBytes oc d2 buf → d = d2) := by
  refine ⟨fun h => ?_, fun h1 h2 => ?_, fun h1 h2 => ?_, fun h1 => ?_,
    fun d2 h => EmitPushBytes_injective oc d d2 buf h⟩
  · have e : EmitPushBytes oc d buf = buf ++ toByte d.length :: d := by
      simp only [EmitPushBytes, h75, if_pos h, List.append_assoc, List.singleton_append]
    refine ⟨e, ?_, ?_⟩
    · simp only [toByte]; omega
    · rw [e]; simp
  · have e : EmitPushBytes oc d buf = buf ++ oc.PUSHDATA1 :: toByte d.length :: d := by
      simp only [EmitPushBytes, h75, if_neg (show ¬ d.length ≤ 75 by omega),
        if_pos (show d.length < 0x100 by omega), Emit_nil, List.append_assoc,
        List.singleton_append, List.cons_append, List.nil_append]
    refine ⟨e, ?_, ?_⟩
    · simp only [toByte]; omega
    · rw [e]; simp
  · have e : EmitPushBytes oc d buf = buf ++ oc.PUSHDATA2 :: (leBytes 2 d.length ++ d) := by
      simp only [EmitPushBytes, h75, if_neg (show ¬ d.length ≤ 75 by omega),
        if_neg (show ¬ d.length < 0x100 by omega), if_pos (show d.length < 0x10000 by omega),
        Emit_nil, WriteUint16, leBytes, List.append_assoc, List.singleton_append,
        List.cons_append, List.nil_append]
    refine ⟨e, ?_, ?_⟩
    · rw [leValue_leBytes]; norm_num; omega
    · rw [e]; simp [leBytes_length]; omega
  · have e : EmitPushBytes oc d buf = buf ++ oc.PUSHDATA4 :: (leBytes 4 d.length ++ d) := by
      simp only [EmitPushBytes, h75, if_neg (show ¬ d.length ≤ 75 by omega),
        if_neg (show ¬ d.length < 0x100 by omega), if_neg (show ¬ d.length < 0x10000 by omega),
        Emit_nil, WriteUint32, leBytes, List.append_assoc, List.singleton_append,
        List.cons_append, List.nil_append]
      norm_num [Nat.div_div_eq_div_mul]
    refine ⟨e, ?_, ?_⟩
    · rw [leValue_leBytes]; norm_num; omega
    · rw [e]; simp [leBytes_length]; omega

/-- Witness for C11, with the NEO opcode values: a 3-byte payload is pushed as
`03 ‖ d`, and payloads of 76 and 256 zero bytes fall in the `PUSHDATA1` and
`PUSHDATA2` classes. -/
theorem EmitPushBytes_spec_witness :
    EmitPushBytes neoOpcodes [1, 2, 3] [] = [3, 1, 2, 3] ∧
    EmitPushBytes neoOpcodes (List.replicate 76 0) []
      = [] ++ 0x4C :: toByte (List.replicate 76 (0 : Byte)).length :: List.replicate 76 0 ∧
    EmitPushBytes neoOpcodes (List.replicate 256 0) []
      = [] ++ 0x4D :: (leBytes 2 (List.replicate 256 (0 : Byte)).length ++ List.replicate 256 0) :=
  ⟨((EmitPushBytes_spec neoOpcodes rfl [1, 2, 3] [] (by decide)).1 (by decide)).1,
   ((EmitPushBytes_spec neoOpcodes rfl (List.replicate 76 0) []
      (by rw [List.length_replicate]; norm_num)).2.1
      (by rw [List.length_replicate]) (by rw [List.length_replicate]; norm_num)).1,
   ((EmitPushBytes_spec neoOpcodes rfl (List.replicate 256 0) []
      (by rw [List.length_replicate]; norm_num)).2.2.1
      (by rw [List.length_replicate]) (by rw [List.length_replicate]; norm_num)).1⟩

theorem EmitPushBytes_append (oc : Opcodes) (d buf : List Byte) :
    EmitPushBytes oc d buf = buf ++ EmitPushBytes oc d [] := by
  obtain ⟨h1, _, e1⟩ := EmitPushBytes_header oc d buf
  obtain ⟨h2, _, e2⟩ := EmitPushBytes_header oc d []
  have : h1 = h2 := by
    have a1 := e1
    have a2 := e2
    unfold EmitPushBytes at a1 a2
    simp only [Emit_nil, WriteUint16, WriteUint32, List.nil_append] at a1 a2
    split_ifs at a1 a2 <;> simp_all
  rw [e1, e2, this]
  simp

theorem EmitPushNumber_append (oc : Opcodes) (n : Int) (buf : List Byte) :
    EmitPushNumber oc n buf = buf ++ EmitPushNumber oc n [] := by
  unfold EmitPushNumber
  split_ifs
  · simp [Emit_nil]
  · simp [Emit_nil]
  · simp [Emit_nil]
  · exact EmitPushBytes_append oc _ buf

theorem EmitPushBool_append (oc : Opcodes) (v : Bool) (buf : List Byte) :
    EmitPushBool oc v buf = buf ++ EmitPushBool oc v [] := by
  unfold EmitPushBool
  split_ifs <;> simp [Emit_nil]

mutual
theorem pushParam_supported (oc : Opcodes) (U : Helpers) :
    ∀ (a : Param), a.supported U = true →
      ∀ buf, pushParam oc U a buf = (.ok (), buf ++ paramCode oc U a)
  | .bool v, _, buf => by
    simp only [pushParam, paramCode]
    rw [EmitPushBool_append]
  | .int v, _, buf => by
    simp only [pushParam, paramCode]
    rw [EmitPushNumber_append]
  | .int64 v, _, buf => by
    simp only [pushParam, paramCode]
    rw [EmitPushNumber_append]
  | .list v, h, buf => by
    have hv : Param.supportedAll U v = true := by simpa [Param.supported] using h
    have h1 := pushParamsDown_supported oc U v hv buf
    have h2 := pushParamsDown_supported oc U v hv []
    simp only [pushParam, paramCode, h1, h2, List.nil_append]
    split
    · rw [EmitPushNumber_append oc _ (buf ++ _), EmitPushNumber_append oc _ (List.flatten _)]
      simp [Emit_nil]
    · rw [EmitPushNumber_append oc _ (buf ++ _), EmitPushNumber_append oc _ (List.flatten _)]
      simp
  | .map v, h, _ => by simp [Param.supported] at h
  | .string v, h, buf => by
    simp only [Param.supported] at h
    simp only [pushParam, paramCode]
    rcases hg : getParamBytes U v [] with ⟨r, data⟩
    rw [hg] at h
    cases r with
    | error e => simp at h
    | ok b =>
      simp only
      rw [EmitPushBytes_append]
  | .other, h, _ => by simp [Param.supported] at h
theorem pushParamsDown_supported (oc : Opcodes) (U : Helpers) :
    ∀ (l : List Param), Param.supportedAll U l = true →
      ∀ buf, pushParamsDown oc U l buf
        = (.ok (), buf ++ (l.reverse.map (paramCode oc U)).flatten)
  | [], _, buf => by simp [pushParamsDown]
  | a :: rest, h, buf => by
    have h2 : a.supported U = true ∧ Param.supportedAll U rest = true := by
      simpa [Param.supportedAll] using h
    have ih := pushParamsDown_supported oc U rest h2.2 buf
    simp only [pushParamsDown, ih, pushParam_supported oc U a h2.1]
    simp
end

theorem supportedAll_iff (U : Helpers) (l : List Param) :
    Param.supportedAll U l = true ↔ ∀ a ∈ l, a.supported U = true := by
  induction l with
  | nil => simp [Param.supportedAll]
  | cons a rest ih => simp [Param.supportedAll, ih]

/-- C12: for every list `[a1, …, an]` of supported parameters, `pushParam`
appends code(an) ‖ … ‖ code(a1) ‖ EmitPushNumber(n) ‖ PACK when `n > 0`, where
code(ai) is what `pushParam` itself appends for `ai`; for the empty list it
appends exactly EmitPushNumber(0) and no PACK. -/
theorem pushParam_list (oc : Opcodes) (U : Helpers) (args : List Param)
    (h : ∀ a ∈ args, a.supported U = true) (buf : List Byte) :
    (∀ a ∈ args, ∀ b, pushParam oc U a b = (.ok (), b ++ paramCode oc U a)) ∧
    (args.length > 0 →
      pushParam oc U (.list args) buf
        = (.ok (), buf ++ (args.reverse.map (paramCode oc U)).flatten
            ++ EmitPushNumber oc args.length [] ++ [oc.PACK])) ∧
    pushParam oc U (.list []) buf = (.ok (), buf ++ EmitPushNumber oc 0 []) := by
  have hall := (supportedAll_iff U args).mpr h
  refine ⟨fun a ha b => pushParam_supported oc U a (h a ha) b, fun hn => ?_, ?_⟩
  · simp only [pushParam, pushParamsDown_supported oc U args hall buf, if_pos hn, Emit_nil]
    rw [EmitPushNumber_append]
  · simp only [pushParam, pushParamsDown, List.length_nil, gt_iff_lt, lt_self_iff_false,
      ↓reduceIte, Nat.cast_zero]
    rw [EmitPushNumber_append]

/-- Witness for C12, with the NEO opcode values: the list
`[1, [true, 5], "(str)ab"]` compiles to the string, then the inner list
(5, true, its count 2, PACK), then 1, then the count 3 and PACK. -/
theorem pushParam_list_witness :
    pushParam neoOpcodes exampleHelpers
      (.list [.int 1, .list [.bool true, .int64 5], .string (goString "(str)ab")]) []
      = (.ok (), [0x02, 0x61, 0x62, 0x55, 0x51, 0x52, 0xC1, 0x51, 0x53, 0xC1]) := by
  have h := (pushParam_list neoOpcodes exampleHelpers
    [.int 1, .list [.bool true, .int64 5], .string (goString "(str)ab")] (by decide) []).2.1
    (by decide)
  rw [h]
  decide

/-- A non-empty string that does not begin with `(`: `getParamBytes` returns
false, `pushParam` drops the flag and pushes the empty byte string. -/
theorem pushParam_untagged (oc : Opcodes) (U : Helpers) (b0 : Byte) (rest buf : List Byte)
    (h : b0 ≠ 0x28) :
    getParamBytes U (b0 :: rest) [] = (.ok false, []) ∧
    pushParam oc U (.string (b0 :: rest)) buf = (.ok (), EmitPushBytes oc [] buf) := by
  have hg : getParamBytes U (b0 :: rest) [] = (.ok false, []) := by
    simp only [getParamBytes, if_pos h]
  exact ⟨hg, by simp only [pushParam, hg]⟩

/-- C13 (code at the failing inputs): for the strings `abc` (no leading `(`),
`(foo)bar` (unknown tag) and `(hex256)0102` (a 2-byte payload),
`getParamBytes` returns false, and `pushParam` does not fail but appends the
byte `00`, the push of an empty byte string; only the empty string aborts, on
`bytes[0]`. -/
theorem pushParam_malformed_string :
    getParamBytes exampleHelpers (goString "abc") [] = (.ok false, []) ∧
    pushParam neoOpcodes exampleHelpers (.string (goString "abc")) [] = (.ok (), [0x00]) ∧
    getParamBytes exampleHelpers (goString "(foo)bar") [] = (.ok false, []) ∧
    pushParam neoOpcodes exampleHelpers (.string (goString "(foo)bar")) [] = (.ok (), [0x00]) ∧
    getParamBytes exampleHelpers (goString "(hex256)0102") [] = (.ok false, []) ∧
    pushParam neoOpcodes exampleHelpers (.string (goString "(hex256)0102")) []
      = (.ok (), [0x00]) ∧
    pushParam neoOpcodes exampleHelpers (.string []) [] = (.error .indexOutOfRange, []) := by
  decide

/-- C14 (code at the failing inputs): `(integer)N` and `(int)N` give the
little-endian bytes of the absolute value of `N`: 128 gives `80`, -1 gives `01`
and 255 gives `FF`, where the minimal little-endian two's-complement encoding
is `80 00`, `FF` and `FF 00`; `pushParam` pushes these bytes. -/
theorem getParamBytes_integer_not_twos_complement :
    getParamBytes exampleHelpers (goString "(integer)128") [] = (.ok true, [0x80]) ∧
    getParamBytes exampleHelpers (goString "(int)128") [] = (.ok true, [0x80]) ∧
    specMinimalTwosLE 128 = [0x80, 0x00] ∧
    getParamBytes exampleHelpers (goString "(integer)-1") [] = (.ok true, [0x01]) ∧
    getParamBytes exampleHelpers (goString "(int)-1") [] = (.ok true, [0x01]) ∧
    specMinimalTwosLE (-1) = [0xFF] ∧
    getParamBytes exampleHelpers (goString "(integer)255") [] = (.ok true, [0xFF]) ∧
    specMinimalTwosLE 255 = [0xFF, 0x00] ∧
    pushParam neoOpcodes exampleHelpers (.string (goString "(integer)128")) []
      = (.ok (), [0x01, 0x80]) ∧
    pushParam neoOpcodes exampleHelpers (.string (goString "(integer)-1")) []
      = (.ok (), [0x01, 0x01]) := by
  decide

theorem EmitAppCall_ok (oc : Opcodes) (hash buf : List Byte) (h : hash.length = 20) :
    EmitAppCall oc hash false buf = (.ok (), buf ++ oc.APPCALL :: hash) := by
  have hne : hash.length ≠ 0 := by omega
  simp [EmitAppCall, h, Emit, hne]

/-- C15: for every contract hash string `h` that `utils.ToBytes` decodes to 20
bytes (a string of 40 hex digits), every operation name and every list of
supported parameters, `InvocationToScript(h, op, args)` returns
pushParam(args) ‖ EmitPushBytes(op) ‖ APPCALL ‖ reverse(ToBytes(h)); and
`EmitAppCall` aborts, leaving the script as it was, whenever the script hash is
not exactly 20 bytes long. -/
theorem InvocationToScript_spec (oc : Opcodes) (U : Helpers) (h op : List Byte)
    (args : List Param) (hh : (U.ToBytes h).length = 20)
    (hargs : ∀ a ∈ args, a.supported U = true) :
    InvocationToScript oc U h op args
      = .ok (paramCode oc U (.list args) ++ EmitPushBytes oc op []
          ++ oc.APPCALL :: (U.ToBytes h).reverse) ∧
    (∀ (hash buf : List Byte) (useTailCall : Bool), hash.length ≠ 20 →
      EmitAppCall oc hash useTailCall buf = (.error .scriptHashLength, buf)) := by
  constructor
  · have hs : (Param.list args).supported U = true := by
      simpa [Param.supported] using (supportedAll_iff U args).mpr hargs
    have h1 := pushParam_supported oc U (.list args) hs []
    have h20 : (U.ToBytes h).reverse.length = 20 := by simp [hh]
    simp only [InvocationToScript, EmitParamJson, h1, List.nil_append, EmitPushString,
      BytesReverse]
    rw [EmitAppCall_ok oc _ _ h20, EmitPushBytes_append]
  · intro hash buf tail hne
    simp only [EmitAppCall, if_pos hne]

/-- Witness for C15, with the NEO opcode values and the stand-in helpers: the
40-digit hash `c88a…b7b8`, the operation `transfer` and the arguments
`[1, true]`. -/
theorem InvocationToScript_spec_witness :
    InvocationToScript neoOpcodes exampleHelpers
        (goString "c88acaae8a0362cdbdedddf0083c452a3a8bb7b8") (goString "transfer")
        [.int 1, .bool true]
      = .ok (paramCode neoOpcodes exampleHelpers (.list [.int 1, .bool true])
          ++ EmitPushBytes neoOpcodes (goString "transfer") []
          ++ neoOpcodes.APPCALL ::
            (exampleHelpers.ToBytes (goString "c88acaae8a0362cdbdedddf0083c452a3a8bb7b8")).reverse)
    ∧ EmitAppCall neoOpcodes [1, 2, 3] false [7] = (.error .scriptHashLength, [7]) :=
  ⟨(InvocationToScript_spec neoOpcodes exampleHelpers
      (goString "c88acaae8a0362cdbdedddf0083c452a3a8bb7b8") (goString "transfer")
      [.int 1, .bool true] (by decide) (by decide)).1,
   (InvocationToScript_spec neoOpcodes exampleHelpers
      (goString "c88acaae8a0362cdbdedddf0083c452a3a8bb7b8") (goString "transfer")
      [.int 1, .bool true] (by decide) (by decide)).2 [1, 2, 3] [7] false (by decide)⟩

/-! ## Transaction builders -/

theorem utxoLoop_eq (U : Helpers) (l : List Utxo) (inputs : List TransactionInput) (sum : U64) :
    (utxoLoop U l inputs sum).1
      = inputs ++ l.map (fun u => ⟨(U.ToBytes u.Hash).reverse, u.N⟩) ∧
    (utxoLoop U l inputs sum).2.val = (sum.val + utxoTotal l) % 18446744073709551616 := by
  induction l generalizing inputs sum with
  | nil =>
    have := sum.isLt
    simp only [utxoLoop, List.map_nil, List.append_nil, utxoTotal, List.sum_nil, Nat.add_zero,
      true_and]
    omega
  | cons u rest ih =>
    obtain ⟨h1, h2⟩ := ih (inputs ++ [⟨BytesReverse (U.ToBytes u.Hash), u.N⟩]) (sum + u.Value)
    have ht : utxoTotal (u :: rest) = u.Value.val + utxoTotal rest := by
      simp [utxoTotal]
    simp only [BytesReverse] at h1 h2
    refine ⟨?_, ?_⟩
    · simp only [utxoLoop, BytesReverse, h1, List.append_assoc, List.singleton_append,
        List.map_cons]
    · simp only [utxoLoop, BytesReverse, h2, ht, Fin.val_add, Nat.mod_add_mod, Nat.add_assoc]

/-- The transaction that `CreateContractTransaction` assembles before it signs,
when the UTXO values sum to `S` with `Value ≤ S < 2^64`. -/
theorem contractTransactionBody_spec (U : Helpers) (params : CreateSignParams)
    (hS : utxoTotal params.Utxos < 18446744073709551616)
    (hV : params.Value.val ≤ utxoTotal params.Utxos) :
    ∃ left : U64, left.val = utxoTotal params.Utxos - params.Value.val ∧
      contractTransactionBody U params = some
        { txtype := ContractTransaction, version := params.Version, attributes := [],
          inputs := params.Utxos.map (fun u => ⟨(U.ToBytes u.Hash).reverse, u.N⟩),
          outputs :=
            ⟨(U.ToBytes params.AssetId).reverse, ⟨params.Value⟩,
              U.getPublicKeyHashFromAddress params.To⟩ ::
            (if left.val ≠ 0 then
              [⟨(U.ToBytes params.AssetId).reverse, ⟨left⟩,
                U.getPublicKeyHashFromAddress params.From⟩]
             else []),
          witnesses := [], extdata := none } := by
  obtain ⟨h1, h2⟩ := utxoLoop_eq U params.Utxos [] 0
  rcases hloop : utxoLoop U params.Utxos [] 0 with ⟨inputs, sum⟩
  rw [hloop] at h1 h2
  simp only [List.nil_append, Fin.val_zero, Nat.zero_add] at h1 h2
  rw [Nat.mod_eq_of_lt hS] at h2
  have hnlt : ¬ sum < params.Value := by
    rw [Fin.lt_def]
    omega
  have hsub : (sum - params.Value).val = utxoTotal params.Utxos - params.Value.val := by
    rw [Fin.sub_def]
    simp only
    have := params.Value.isLt
    omega
  refine ⟨sum - params.Value, hsub, ?_⟩
  have hin : (if params.Utxos.length > 0 then inputs else [])
      = params.Utxos.map (fun u => ⟨(U.ToBytes u.Hash).reverse, u.N⟩) := by
    rw [h1]
    exact ite_length_pos params.Utxos _ (by simp)
  simp only [contractTransactionBody, hloop, if_neg hnlt, Transaction.zero, BytesReverse, hin,
    List.nil_append]
  by_cases hl : sum - params.Value > 0
  · have : (sum - params.Value).val ≠ 0 := by
      rw [gt_iff_lt, Fin.lt_def] at hl
      simp only [Fin.val_zero] at hl
      omega
    simp only [if_pos hl, if_pos this, List.singleton_append]
  · have : ¬ (sum - params.Value).val ≠ 0 := by
      rw [gt_iff_lt, Fin.lt_def] at hl
      simp only [Fin.val_zero] at hl
      omega
    simp only [if_neg hl, if_neg this]

theorem SerializeUnsigned_contract (t : Transaction) (hk : t.txtype = ContractTransaction)
    (ha : t.attributes = []) : ∃ u, t.SerializeUnsigned [] = .ok u := by
  simp only [Transaction.SerializeUnsigned, hk, ↓reduceIte, ha, serializeAttributes]
  exact ⟨_, rfl⟩

/-- The part of `CreateContractTransaction` after the transaction `tx` is
assembled, `u` being its unsigned bytes: a failed `Sign` returns
`"", "", false`; with a signature that `Verify` accepts and a key whose address
is `From`, the witness (push of the signature, script of the key) is attached
and the hex of `u` and of the signed bytes are returned with `true`. -/
theorem CreateContractTransaction_of_body {PK SK : Type} (oc : Opcodes) (U : Helpers)
    (W : Wallet PK SK) (params : CreateSignParams) (tx : Transaction) (u : List Byte)
    (hb : contractTransactionBody U params = some tx) (hw : tx.witnesses = [])
    (hu : tx.SerializeUnsigned [] = .ok u) :
    (W.Sign u (W.PrivateFromWIF params.PriKey) = none →
      CreateContractTransaction oc U W params = .ok ([], [], false)) ∧
    (∀ sig, W.Sign u (W.PrivateFromWIF params.PriKey) = some sig →
      W.Verify u sig (W.PublicKey (W.PrivateFromWIF params.PriKey)) = true →
      W.getAddressFromPublicKey (W.PublicKey (W.PrivateFromWIF params.PriKey)) = params.From →
      ∃ raw,
        ({ tx with witnesses := [⟨EmitPushBytes oc sig [],
            W.getScriptFromPublicKey (W.PublicKey (W.PrivateFromWIF params.PriKey))⟩] } :
          Transaction).Serialize [] = .ok raw ∧
        CreateContractTransaction oc U W params
          = .ok (U.ToHexString u, U.ToHexString raw, true)) := by
  constructor
  · intro hsign
    simp only [CreateContractTransaction, hb, hu, hsign]
  · intro sig hsign hver haddr
    have hu2 : ({ tx with witnesses := [⟨EmitPushBytes oc sig [],
        W.getScriptFromPublicKey (W.PublicKey (W.PrivateFromWIF params.PriKey))⟩] } :
        Transaction).SerializeUnsigned [] = .ok u := by
      rw [SerializeUnsigned_witnesses]
      exact hu
    refine ⟨serializeWitnesses [⟨EmitPushBytes oc sig [],
        W.getScriptFromPublicKey (W.PublicKey (W.PrivateFromWIF params.PriKey))⟩]
        (WriteVarInt u 1), ?_, ?_⟩
    · simp only [Transaction.Serialize, hu2, List.length_singleton]
    · simp only [CreateContractTransaction, hb, hu, hsign, Transaction.AddWitness, hver, haddr,
        Transaction.AddWitnessScript, hw, addressTaken, not_true_eq_false, ne_eq,
        Bool.false_eq_true, ↓reduceIte, List.nil_append, hu2, Transaction.Serialize,
        List.length_singleton]

/-- C16: for every `CreateContractTransaction` call whose UTXO values sum to `S`
with `Value ≤ S < 2^64`, the transaction `tx` that the function builds has one
input per UTXO in the given order (byte-reversed decoded hash, index `N`), the
first output (reversed asset id, `Value`, script hash of `To`), a second output
(same asset id, `S - Value`, script hash of `From`) if and only if
`S - Value ≠ 0`, and no other output; its unsigned bytes `u` are what is
signed; and with a valid key (the signature is produced, `Verify` accepts it,
and the address of the key is `From`) the function returns the hex of `u`, the
hex of the bytes of `tx` with the one witness attached, and `true`. When `Sign`
fails it returns `"", "", false`. -/
theorem CreateContractTransaction_spec {PK SK : Type} (oc : Opcodes) (U : Helpers)
    (W : Wallet PK SK) (params : CreateSignParams)
    (hS : utxoTotal params.Utxos < 18446744073709551616)
    (hV : params.Value.val ≤ utxoTotal params.Utxos) :
    ∃ (left : U64) (tx : Transaction) (u : List Byte),
      left.val = utxoTotal params.Utxos - params.Value.val ∧
      tx = { txtype := ContractTransaction, version := params.Version, attributes := [],
             inputs := params.Utxos.map (fun x => ⟨(U.ToBytes x.Hash).reverse, x.N⟩),
             outputs :=
               ⟨(U.ToBytes params.AssetId).reverse, ⟨params.Value⟩,
                 U.getPublicKeyHashFromAddress params.To⟩ ::
               (if left.val ≠ 0 then
                 [⟨(U.ToBytes params.AssetId).reverse, ⟨left⟩,
                   U.getPublicKeyHashFromAddress params.From⟩]
                else []),
             witnesses := [], extdata := none } ∧
      contractTransactionBody U params = some tx ∧
      tx.SerializeUnsigned [] = .ok u ∧
      (W.Sign u (W.PrivateFromWIF params.PriKey) = none →
        CreateContractTransaction oc U W params = .ok ([], [], false)) ∧
      (∀ sig, W.Sign u (W.PrivateFromWIF params.PriKey) = some sig →
        W.Verify u sig (W.PublicKey (W.PrivateFromWIF params.PriKey)) = true →
        W.getAddressFromPublicKey (W.PublicKey (W.PrivateFromWIF params.PriKey))
          = params.From →
        ∃ raw,
          ({ tx with witnesses := [⟨EmitPushBytes oc sig [],
              W.getScriptFromPublicKey (W.PublicKey (W.PrivateFromWIF params.PriKey))⟩] } :
            Transaction).Serialize [] = .ok raw ∧
          CreateContractTransaction oc U W params
            = .ok (U.ToHexString u, U.ToHexString raw, true)) := by
  obtain ⟨left, hl, hb⟩ := contractTransactionBody_spec U params hS hV
  obtain ⟨u, hu⟩ := SerializeUnsigned_contract
    { txtype := ContractTransaction, version := params.Version, attributes := [],
      inputs := params.Utxos.map (fun x => ⟨(U.ToBytes x.Hash).reverse, x.N⟩),
      outputs :=
        ⟨(U.ToBytes params.AssetId).reverse, ⟨params.Value⟩,
          U.getPublicKeyHashFromAddress params.To⟩ ::
        (if left.val ≠ 0 then
          [⟨(U.ToBytes params.AssetId).reverse, ⟨left⟩,
            U.getPublicKeyHashFromAddress params.From⟩]
         else []),
      witnesses := [], extdata := none } rfl rfl
  obtain ⟨h1, h2⟩ := CreateContractTransaction_of_body oc U W params _ u hb rfl hu
  exact ⟨left, _, u, hl, rfl, hb, hu, h1, h2⟩

/-- Witness for C16: the scenario of one UTXO of 10,000,000,000 spending
100,000,000, with the stand-in helpers and wallet, whose key signs, passes
`Verify` and has the address `From`: the transaction built has exactly the
outputs [To, 100,000,000] and [From, 9,900,000,000], and the call returns the
hex of its 37 unsigned bytes, the hex of its 81 signed bytes, and `true`. -/
theorem CreateContractTransaction_spec_witness :
    utxoTotal exampleSpendParams.Utxos < 18446744073709551616 ∧
    exampleSpendParams.Value.val ≤ utxoTotal exampleSpendParams.Utxos ∧
    (contractTransactionBody exampleHelpers exampleSpendParams).map (fun tx => tx.outputs)
      = some [⟨(exampleHelpers.ToBytes exampleSpendParams.AssetId).reverse, ⟨100000000⟩,
                exampleHelpers.getPublicKeyHashFromAddress exampleSpendParams.To⟩,
              ⟨(exampleHelpers.ToBytes exampleSpendParams.AssetId).reverse, ⟨9900000000⟩,
                exampleHelpers.getPublicKeyHashFromAddress exampleSpendParams.From⟩] ∧
    (∃ tx u raw, contractTransactionBody exampleHelpers exampleSpendParams = some tx ∧
      tx.SerializeUnsigned [] = .ok u ∧
      ({ tx with witnesses := [⟨EmitPushBytes neoOpcodes ([3] ++ u) [], [0x21, 3, 0xAC]⟩] } :
        Transaction).Serialize [] = .ok raw ∧
      CreateContractTransaction neoOpcodes exampleHelpers exampleWallet exampleSpendParams
        = .ok (exampleHelpers.ToHexString u, exampleHelpers.ToHexString raw, true)) ∧
    CreateContractTransaction neoOpcodes exampleHelpers exampleWallet exampleSpendParams
      = .ok (exampleHelpers.ToHexString
          [128, 0, 0, 1, 252, 101, 15, 184, 0, 0, 2, 111, 197, 0, 225, 245, 5, 0, 0, 0, 0, 33, 4,
            172, 111, 197, 0, 3, 22, 78, 2, 0, 0, 0, 33, 3, 172],
        exampleHelpers.ToHexString
          [128, 0, 0, 1, 252, 101, 15, 184, 0, 0, 2, 111, 197, 0, 225, 245, 5, 0, 0, 0, 0, 33, 4,
            172, 111, 197, 0, 3, 22, 78, 2, 0, 0, 0, 33, 3, 172,
            1, 39, 38, 3, 128, 0, 0, 1, 252, 101, 15, 184, 0, 0, 2, 111, 197, 0, 225, 245, 5, 0,
            0, 0, 0, 33, 4, 172, 111, 197, 0, 3, 22, 78, 2, 0, 0, 0, 33, 3, 172, 3, 33, 3, 172],
        true) := by
  obtain ⟨left, tx, u, hl, htx, hb, hu, _, hok⟩ := CreateContractTransaction_spec neoOpcodes
    exampleHelpers exampleWallet exampleSpendParams (by decide) (by decide)
  have hleft : left = 9900000000 := Fin.ext (by rw [hl]; decide)
  subst hleft
  obtain ⟨raw, hraw, hres⟩ := hok ([3] ++ u) rfl
    (by simp [exampleWallet, exampleKeyLib, exampleSpendParams]) (by decide)
  refine ⟨by decide, by decide, ?_, ⟨tx, u, raw, hb, hu, hraw, hres⟩, rfl⟩
  rw [hb, htx]
  rfl

/-- C17: when the sum of the UTXO values is strictly less than the requested
`Value`, `CreateContractTransaction` returns `"", "", false`, whatever the key
and signing functions are: no transaction is assembled and nothing is signed. -/
theorem CreateContractTransaction_insufficient {PK SK : Type} (oc : Opcodes) (U : Helpers)
    (W : Wallet PK SK) (params : CreateSignParams)
    (h : utxoTotal params.Utxos < params.Value.val) :
    contractTransactionBody U params = none ∧
    CreateContractTransaction oc U W params = .ok ([], [], false) := by
  obtain ⟨_, h2⟩ := utxoLoop_eq U params.Utxos [] 0
  rcases hloop : utxoLoop U params.Utxos [] 0 with ⟨inputs, sum⟩
  rw [hloop] at h2
  simp only [Fin.val_zero, Nat.zero_add] at h2
  have hV := params.Value.isLt
  rw [Nat.mod_eq_of_lt (by omega)] at h2
  have hlt : sum < params.Value := by
    rw [Fin.lt_def]
    omega
  have hb : contractTransactionBody U params = none := by
    simp only [contractTransactionBody, hloop, if_pos hlt]
  exact ⟨hb, by simp only [CreateContractTransaction, hb]⟩

/-- Witness for C17: the scenario UTXO of 10,000,000,000 against a requested
value of 20,000,000,000. -/
theorem CreateContractTransaction_insufficient_witness :
    CreateContractTransaction neoOpcodes exampleHelpers exampleWallet exampleShortParams
      = .ok ([], [], false) :=
  (CreateContractTransaction_insufficient neoOpcodes exampleHelpers exampleWallet
    exampleShortParams (by decide)).2

/-- C18 (the code diverges): for the scenario UTXO of 10,000,000,000 against a
requested value of 20,000,000,000, more than the sum of the UTXO values,
`CreateTx` does not fail: it assembles a transaction whose one output returns
the whole 10,000,000,000 to `From`, signs it and returns non-empty hex strings
with no error; on the same parameters `CreateContractTransaction` stops and
returns `"", "", false`. -/
theorem CreateTx_insufficient_not_reported :
    utxoTotal exampleShortParams.Utxos < exampleShortParams.Value.val ∧
    (createTxBody exampleHelpers ContractTransaction exampleShortParams).outputs
      = [⟨(exampleHelpers.ToBytes exampleShortParams.AssetId).reverse, ⟨10000000000⟩,
          exampleHelpers.getPublicKeyHashFromAddress exampleShortParams.From⟩] ∧
    (∃ txBody raw, CreateTx neoOpcodes exampleHelpers exampleWallet ContractTransaction
        exampleShortParams = .ok (some (txBody, raw)) ∧ txBody ≠ [] ∧ raw ≠ []) ∧
    CreateContractTransaction neoOpcodes exampleHelpers exampleWallet exampleShortParams
      = .ok ([], [], false) := by
  refine ⟨by decide, by decide, ?_, by decide⟩
  have h : (match CreateTx neoOpcodes exampleHelpers exampleWallet ContractTransaction
      exampleShortParams with
    | .ok (some r) => decide (r.1 ≠ [] ∧ r.2 ≠ [])
    | _ => false) = true := by decide
  split at h
  · rename_i r hr
    exact ⟨r.1, r.2, hr, by simpa using h⟩
  · cases h

/-- The transaction that `CreateTx` assembles before it signs, when the sum `S`
of the UTXO values is strictly less than the requested `Value`: the given kind,
version and attributes, one input per UTXO in the given order, no output to
`To`, a single output of the whole sum `S` to `From` if and only if `S ≠ 0`,
and the extension made from `Data` when `Data` is not empty. -/
theorem createTxBody_insufficient (U : Helpers) (txType : Byte) (params : CreateSignParams)
    (h : utxoTotal params.Utxos < params.Value.val) :
    ∃ sum : U64, sum.val = utxoTotal params.Utxos ∧
      createTxBody U txType params =
        { txtype := txType, version := params.Version, attributes := params.Attrs,
          inputs := params.Utxos.map (fun u => ⟨(U.ToBytes u.Hash).reverse, u.N⟩),
          outputs :=
            if sum.val ≠ 0 then
              [⟨(U.ToBytes params.AssetId).reverse, ⟨sum⟩,
                U.getPublicKeyHashFromAddress params.From⟩]
            else [],
          witnesses := [],
          extdata := if params.Data.length > 0 then some ⟨params.Data, ⟨0⟩⟩ else none } := by
  obtain ⟨h1, h2⟩ := utxoLoop_eq U params.Utxos [] 0
  rcases hloop : utxoLoop U params.Utxos [] 0 with ⟨inputs, sum⟩
  rw [hloop] at h1 h2
  simp only [List.nil_append, Fin.val_zero, Nat.zero_add] at h1 h2
  have hV := params.Value.isLt
  rw [Nat.mod_eq_of_lt (by omega)] at h2
  subst h1
  have hguard : ¬ (params.Value > 0 ∧ sum ≥ params.Value) := by
    rintro ⟨_, hge⟩
    rw [ge_iff_le, Fin.le_def] at hge
    omega
  refine ⟨sum, h2, ?_⟩
  have hpos : sum > 0 ↔ sum.val ≠ 0 := by
    rw [gt_iff_lt, Fin.lt_def]
    simp only [Fin.val_zero]
    omega
  simp only [createTxBody, Transaction.zero, hloop, if_neg hguard, BytesReverse,
    List.nil_append]
  by_cases hs : sum > 0
  · simp only [if_pos hs, if_pos (hpos.mp hs)]
    split <;> rfl
  · have hs2 : ¬ sum.val ≠ 0 := fun hc => hs (hpos.mpr hc)
    simp only [if_neg hs, if_neg hs2]
    split <;> rfl

/-! ## The attribute table -/

theorem definedUsage_iff (u : Byte) :
    definedUsage u ↔
      ((u = ContractHash ∨ u = Vote ∨ (u ≥ Hash1 ∧ u ≤ Hash15)) ∨ (u = ECDH02 ∨ u = ECDH03) ∨
        u = Script ∨ u = DescriptionUrl ∨ (u = Description ∨ u ≥ Remark)) := by
  have hu := u.isLt
  simp only [definedUsage, ContractHash, Vote, Hash1, Hash15, ECDH02, ECDH03, Script,
    DescriptionUrl, Description, Remark, Fin.ext_iff, Fin.le_def, ge_iff_le]
  norm_num
  omega

theorem ReadVarInt_error (buf : List Byte) (max : Nat) (e : TxError)
    (h : ReadVarInt buf max = .error e) : e = .varInt := by
  unfold ReadVarInt readLE at h
  cases buf with
  | nil =>
    simp only [Except.error.injEq] at h
    exact h.symm
  | cons fb tl =>
    simp only at h
    split_ifs at h <;> first
      | (cases h; rfl)
      | (simp only at h; split_ifs at h; cases h; rfl)

theorem serializeAttribute_attributeType (u : Byte) (d buf : List Byte) :
    serializeAttribute ⟨u, d⟩ buf = .error .attributeType ↔ ¬ definedUsage u := by
  rw [definedUsage_iff]
  unfold serializeAttribute goSlice
  simp only
  by_cases c1 : u = ContractHash ∨ u = Vote ∨ (u ≥ Hash1 ∧ u ≤ Hash15)
  · rw [if_pos c1]
    refine ⟨fun h => ?_, fun h => absurd (Or.inl c1) h⟩
    exfalso
    revert h
    split_ifs <;> simp
  · rw [if_neg c1]
    by_cases c2 : u = ECDH02 ∨ u = ECDH03
    · rw [if_pos c2]
      refine ⟨fun h => ?_, fun h => absurd (Or.inr (Or.inl c2)) h⟩
      exfalso
      revert h
      split_ifs <;> simp
    · rw [if_neg c2]
      by_cases c3 : u = Script
      · rw [if_pos c3]
        refine ⟨fun h => ?_, fun h => absurd (Or.inr (Or.inr (Or.inl c3))) h⟩
        exfalso
        revert h
        split_ifs <;> simp
      · rw [if_neg c3]
        by_cases c4 : u = DescriptionUrl
        · rw [if_pos c4]
          exact ⟨fun h => (by cases h), fun h => absurd (Or.inr (Or.inr (Or.inr (Or.inl c4)))) h⟩
        · rw [if_neg c4]
          by_cases c5 : u = Description ∨ u ≥ Remark
          · rw [if_pos c5]
            exact ⟨fun h => (by cases h),
              fun h => absurd (Or.inr (Or.inr (Or.inr (Or.inr c5)))) h⟩
          · rw [if_neg c5]
            refine ⟨fun _ => ?_, fun _ => rfl⟩
            tauto

theorem deserializeAttribute_attributeType (u : Byte) (rest : List Byte) :
    deserializeAttribute (u :: rest) = .error .attributeType ↔ ¬ definedUsage u := by
  rw [definedUsage_iff]
  unfold deserializeAttribute
  simp only [bufReadByte]
  by_cases c1 : u = ContractHash ∨ u = Vote ∨ (u ≥ Hash1 ∧ u ≤ Hash15)
  · rw [if_pos c1]
    exact ⟨fun h => (by cases h), fun h => absurd (Or.inl c1) h⟩
  · rw [if_neg c1]
    by_cases c2 : u = ECDH02 ∨ u = ECDH03
    · rw [if_pos c2]
      exact ⟨fun h => (by cases h), fun h => absurd (Or.inr (Or.inl c2)) h⟩
    · rw [if_neg c2]
      by_cases c3 : u = Script
      · rw [if_pos c3]
        exact ⟨fun h => (by cases h), fun h => absurd (Or.inr (Or.inr (Or.inl c3))) h⟩
      · rw [if_neg c3]
        by_cases c4 : u = DescriptionUrl
        · rw [if_pos c4]
          exact ⟨fun h => (by cases h), fun h => absurd (Or.inr (Or.inr (Or.inr (Or.inl c4)))) h⟩
        · rw [if_neg c4]
          by_cases c5 : u = Description ∨ u ≥ Remark
          · rw [if_pos c5]
            refine ⟨fun h => ?_, fun h => absurd (Or.inr (Or.inr (Or.inr (Or.inr c5)))) h⟩
            exfalso
            cases hr : ReadVarInt rest 65535 with
            | error e =>
              rw [hr] at h
              have := ReadVarInt_error rest 65535 e hr
              subst this
              cases h
            | ok r =>
              rw [hr] at h
              cases h
          · rw [if_neg c5]
            refine ⟨fun _ => ?_, fun _ => rfl⟩
            tauto

/-- C19 (the claim as stated fails): in a valid transaction, the ECDH03
attribute with the 33-byte data `07 01 … 01` comes back from
`Deserialize(Serialize(t))` with data `03 01 … 01`. -/
theorem attribute_roundtrip_counterexample :
    exampleEcdh03Tx.valid ∧
    exampleEcdh03Tx.attributes[1]? = some ⟨ECDH03, 7 :: List.replicate 32 1⟩ ∧
    ∃ bytes t, exampleEcdh03Tx.Serialize [] = .ok bytes ∧
      Transaction.zero.Deserialize bytes = .ok t ∧
      t.attributes[1]? = some ⟨ECDH03, 3 :: List.replicate 32 1⟩ ∧
      t.attributes[1]? ≠ exampleEcdh03Tx.attributes[1]? := by
  refine ⟨by decide, by decide, ?_⟩
  obtain ⟨bytes, hs, _, hd⟩ := transaction_codec exampleEcdh03Tx (by decide)
  exact ⟨bytes, _, hs, hd, by decide, by decide⟩

/-- C19 (amended): for every defined usage tag `u` and data `d` of the width
valid for `u`, in a valid transaction carrying `Attribute{u, d}` at position
`i`, `Deserialize(Serialize(t))` has at position `i` the attribute with usage
`u` and, for ECDH02/ECDH03, the data `u ‖ d[1:]`, otherwise the data `d`; so
the data is exactly `d` whenever `u` is not ECDH02/ECDH03 or `d` begins with
`u`. -/
theorem attribute_roundtrip (t : Transaction) (hv : t.valid) (i : Nat) (u : Byte)
    (d : List Byte) (hi : t.attributes[i]? = some ⟨u, d⟩) :
    definedUsage u ∧ (Attribute.mk u d).valid ∧
    ∃ bytes t2, t.Serialize [] = .ok bytes ∧ Transaction.zero.Deserialize bytes = .ok t2 ∧
      t2.attributes[i]?
        = some ⟨u, if u = ECDH02 ∨ u = ECDH03 then u :: d.drop 1 else d⟩ ∧
      ((u = ECDH02 ∨ u = ECDH03 → d.head? = some u) → t2.attributes[i]? = some ⟨u, d⟩) := by
  have hmem : (⟨u, d⟩ : Attribute) ∈ t.attributes := List.getElem?_mem hi
  have hav : (Attribute.mk u d).valid := hv.2.2.1 _ hmem
  have hdef : definedUsage u := by
    by_contra hnd
    have := (serializeAttribute_attributeType u d []).mpr hnd
    obtain ⟨b, hs, _⟩ := attribute_codec ⟨u, d⟩ hav
    rw [hs] at this
    cases this
  obtain ⟨bytes, hs, _, hd⟩ := transaction_codec t hv
  have hget : t.normalize.attributes[i]? = some (Attribute.normalize ⟨u, d⟩) := by
    simp only [Transaction.normalize, List.getElem?_map, hi, Option.map_some']
  have hnorm : Attribute.normalize ⟨u, d⟩
      = ⟨u, if u = ECDH02 ∨ u = ECDH03 then u :: d.drop 1 else d⟩ := by
    unfold Attribute.normalize
    split <;> simp_all
  refine ⟨hdef, hav, bytes, t.normalize, hs, hd, ?_, fun hh => ?_⟩
  · rw [hget, hnorm]
  · rw [hget, attribute_normalize_eq ⟨u, d⟩ hav hh]

/-- Witness for C19 (amended): the ECDH02 attribute of the example Contract
transaction, whose data begins with `02`, comes back unchanged. -/
theorem attribute_roundtrip_witness :
    exampleContractTx.valid ∧
    ∃ bytes t2, exampleContractTx.Serialize [] = .ok bytes ∧
      Transaction.zero.Deserialize bytes = .ok t2 ∧
      t2.attributes[1]? = some ⟨ECDH02, 2 :: List.replicate 32 9⟩ := by
  obtain ⟨_, _, bytes, t2, hs, hd, _, h⟩ := attribute_roundtrip exampleContractTx (by decide) 1
    ECDH02 (2 :: List.replicate 32 9) (by decide)
  exact ⟨by decide, bytes, t2, hs, hd, h (by decide)⟩

/-- C20: for every usage byte `u`, the attribute step of `SerializeUnsigned`
aborts with the attribute type error exactly when `u` is not a defined usage
tag, and so does the attribute step of `Deserialize`; for every defined `u` and
data of the valid width, the bytes that the one writes are exactly the bytes
that the other consumes. -/
theorem usage_table_spec (u : Byte) :
    (∀ d buf, serializeAttribute ⟨u, d⟩ buf = .error .attributeType ↔ ¬ definedUsage u) ∧
    (∀ rest, deserializeAttribute (u :: rest) = .error .attributeType ↔ ¬ definedUsage u) ∧
    (∀ d buf rest, (serializeAttribute ⟨u, d⟩ buf = .error .attributeType ↔
      deserializeAttribute (u :: rest) = .error .attributeType)) ∧
    (∀ d, (Attribute.mk u d).valid →
      ∃ bytes, (∀ buf, serializeAttribute ⟨u, d⟩ buf = .ok (buf ++ bytes)) ∧
        ∀ rest, ∃ a, deserializeAttribute (bytes ++ rest) = .ok (a, rest) ∧ a.Usage = u) := by
  refine ⟨fun d buf => serializeAttribute_attributeType u d buf,
    fun rest => deserializeAttribute_attributeType u rest, fun d buf rest => ?_, fun d hv => ?_⟩
  · rw [serializeAttribute_attributeType, deserializeAttribute_attributeType]
  · obtain ⟨bytes, hs, hd⟩ := attribute_codec ⟨u, d⟩ hv
    refine ⟨bytes, hs, fun rest => ⟨_, hd rest, ?_⟩⟩
    unfold Attribute.normalize
    split <;> rfl

/-- Witness for C20: the usage `0x90` (Description) with 3 bytes of data is
written and read back with the same width; the usage `0x05` is not defined and
stops both sides. -/
theorem usage_table_spec_witness :
    (∃ bytes, (∀ buf, serializeAttribute ⟨0x90, [1, 2, 3]⟩ buf = .ok (buf ++ bytes)) ∧
      ∀ rest, ∃ a, deserializeAttribute (bytes ++ rest) = .ok (a, rest) ∧ a.Usage = 0x90) ∧
    serializeAttribute ⟨0x05, [1, 2, 3]⟩ [] = .error .attributeType ∧
    deserializeAttribute [0x05, 1, 2, 3] = .error .attributeType :=
  ⟨(usage_table_spec 0x90).2.2.2 [1, 2, 3] (by decide),
   ((usage_table_spec 0x05).1 [1, 2, 3] []).mpr (by decide),
   ((usage_table_spec 0x05).2.1 [1, 2, 3]).mpr (by decide)⟩

/-! ## Deserialize on malformed input -/

theorem Deserialize_eq_parts (self : Transaction) (buf : List Byte) :
    self.Deserialize buf =
      (if (bufReadByte buf).1 = ContractTransaction then
        ({ self with txtype := (bufReadByte buf).1,
                     version := (bufReadByte (bufReadByte buf).2).1,
                     extdata := none } : Transaction).desExtPart
          (bufReadByte (bufReadByte buf).2).2
      else if (bufReadByte buf).1 = InvocationTransaction then
        ({ self with txtype := (bufReadByte buf).1,
                     version := (bufReadByte (bufReadByte buf).2).1,
                     extdata := some ⟨[], ⟨0⟩⟩ } : Transaction).desExtPart
          (bufReadByte (bufReadByte buf).2).2
      else .error .txType) := by
  unfold Transaction.Deserialize
  split_ifs <;> simp_all <;> rfl

theorem deserializeWitnesses_flatten (ws : List Witness)
    (h : ∀ w ∈ ws, w.InvocationScript.length ≤ 65535 ∧ w.VerificationScript.length ≤ 65535)
    (rest : List Byte) :
    deserializeWitnesses ws.length ((ws.map witnessBytes).flatten ++ rest) = .ok (ws, rest) := by
  obtain ⟨wb, hs, hd⟩ := witnesses_codec ws h
  have := hs []
  rw [serializeWitnesses_eq, List.nil_append, List.nil_append] at this
  rw [this]
  exact hd rest

/-- The witness part, given the whole witness section followed by `x`. -/
theorem desWitnessPart_append (self : Transaction) (ws : List Witness)
    (hwl : ws.length ≤ 65535)
    (h : ∀ w ∈ ws, w.InvocationScript.length ≤ 65535 ∧ w.VerificationScript.length ≤ 65535)
    (x : List Byte) :
    self.desWitnessPart (varIntBytes ws.length ++ ((ws.map witnessBytes).flatten ++ x))
      = if x.length > 0 then .error .lenError
        else .ok { self with witnesses := self.witnesses ++ ws } := by
  simp only [Transaction.desWitnessPart, ReadVarInt_varIntBytes _ _ hwl,
    deserializeWitnesses_flatten ws h x]

theorem desOutputPart_append (self : Transaction) (outs : List TransactionOutput)
    (ob R : List Byte) (hol : outs.length ≤ 65535)
    (hd : ∀ rest, deserializeOutputs outs.length (ob ++ rest) = (outs, rest)) :
    self.desOutputPart (varIntBytes outs.length ++ (ob ++ R))
      = ({ self with outputs := if outs.length > 0 then outs else self.outputs } :
          Transaction).desWitnessPart R := by
  simp only [Transaction.desOutputPart, ReadVarInt_varIntBytes _ _ hol, hd]

theorem desInputPart_append (self : Transaction) (ins : List TransactionInput)
    (ib R : List Byte) (hil : ins.length ≤ 65535)
    (hd : ∀ rest, deserializeInputs ins.length (ib ++ rest) = (ins, rest)) :
    self.desInputPart (varIntBytes ins.length ++ (ib ++ R))
      = ({ self with inputs := if ins.length > 0 then ins else self.inputs } :
          Transaction).desOutputPart R := by
  simp only [Transaction.desInputPart, ReadVarInt_varIntBytes _ _ hil, hd]

theorem desAttributePart_append (self : Transaction) (as : List Attribute)
    (ab R : List Byte) (hal : as.length ≤ 65535)
    (hd : ∀ rest, deserializeAttributes as.length (ab ++ rest)
      = .ok (as.map Attribute.normalize, rest)) :
    self.desAttributePart (varIntBytes as.length ++ (ab ++ R))
      = ({ self with attributes :=
            if as.length > 0 then as.map Attribute.normalize else self.attributes } :
          Transaction).desInputPart R := by
  simp only [Transaction.desAttributePart, ReadVarInt_varIntBytes _ _ hal, hd]

theorem prefix_append_cases {α : Type} (q X Y : List α) (h : q <+: X ++ Y) :
    (q <+: X ∧ q.length < X.length) ∨ ∃ q2, q = X ++ q2 ∧ q2 <+: Y := by
  by_cases hl : q.length < X.length
  · left
    refine ⟨?_, hl⟩
    exact List.prefix_of_prefix_length_le h (List.prefix_append X Y) (by omega)
  · right
    have hX : X <+: q :=
      List.prefix_of_prefix_length_le (List.prefix_append X Y) h (by omega)
    obtain ⟨q2, rfl⟩ := hX
    exact ⟨q2, rfl, (List.prefix_append_right_inj X).mp h⟩

theorem prefix_cons_cases {α : Type} (q : List α) (a : α) (Y : List α) (h : q <+: a :: Y) :
    q = [] ∨ ∃ q2, q = a :: q2 ∧ q2 <+: Y := by
  cases q with
  | nil => exact Or.inl rfl
  | cons b q2 =>
    right
    rw [List.cons_prefix_cons] at h
    exact ⟨q2, by rw [h.1], h.2⟩

theorem ReadVarInt_nil (max : Nat) : ReadVarInt [] max = .error .varInt := rfl

/-- A cut varint is refused by the varint reader. -/
theorem ReadVarInt_short (v : Nat) (hv : v ≤ 65535) (q : List Byte)
    (hq : q <+: varIntBytes v) (hl : q.length < (varIntBytes v).length) :
    ReadVarInt q 65535 = .error .varInt := by
  unfold varIntBytes WriteVarInt at hq hl
  split_ifs at hq hl with h1 h2 h3
  · simp only [List.nil_append, List.length_singleton, Nat.lt_one_iff,
      List.length_eq_zero] at hl
    subst hl
    rfl
  · simp only [List.nil_append] at hq hl
    rcases prefix_cons_cases q _ _ hq with rfl | ⟨q2, rfl, hq2⟩
    · rfl
    · have hlen : q2.length < 2 := by
        simp only [List.length_cons, leBytes_length] at hl
        omega
      simp only [ReadVarInt, ↓reduceIte, readLE, if_pos hlen]
  · omega
  · omega

theorem deserializeInputs_snd (n : Nat) (q : List Byte) :
    (deserializeInputs n q).2 = q.drop (34 * n) := by
  induction n generalizing q with
  | zero => simp [deserializeInputs]
  | succ k ih =>
    simp only [deserializeInputs, bufRead, ih, List.drop_drop]
    congr 1
    omega

theorem deserializeOutputs_snd (n : Nat) (q : List Byte) :
    (deserializeOutputs n q).2 = q.drop (60 * n) := by
  induction n generalizing q with
  | zero => simp [deserializeOutputs]
  | succ k ih =>
    simp only [deserializeOutputs, bufRead, ih, List.drop_drop]
    congr 1
    omega

theorem serializeInputs_length (ins : List TransactionInput)
    (h : ∀ i ∈ ins, i.hash.length = 32) (buf : List Byte) :
    (serializeInputs ins buf).length = buf.length + 34 * ins.length := by
  induction ins generalizing buf with
  | nil => simp [serializeInputs]
  | cons i tl ih =>
    have hh : i.hash.length = 32 := h i (by simp)
    simp only [serializeInputs, ih (fun x hx => h x (by simp [hx])), List.length_append, hh,
      PutUint16, leBytes_length, List.length_cons]
    omega

theorem serializeOutputs_length (outs : List TransactionOutput)
    (h : ∀ o ∈ outs, o.assetId.length = 32 ∧ o.toAddress.length = 20) (buf : List Byte) :
    (serializeOutputs outs buf).length = buf.length + 60 * outs.length := by
  induction outs generalizing buf with
  | nil => simp [serializeOutputs]
  | cons o tl ih =>
    obtain ⟨ha, ht⟩ := h o (by simp)
    simp only [serializeOutputs, ih (fun x hx => h x (by simp [hx])), List.length_append, ha, ht,
      PutUint64, leBytes_length, List.length_cons]
    omega

theorem deserializeAttribute_nil :
    deserializeAttribute [] = .ok (⟨0, List.replicate 32 0⟩, []) := by decide

theorem deserializeAttributes_nil (n : Nat) : NoRest (deserializeAttributes n []) := by
  induction n with
  | zero =>
    intro x rest h
    simp only [deserializeAttributes, Except.ok.injEq, Prod.mk.injEq] at h
    exact h.2.symm
  | succ k ih =>
    intro x rest h
    simp only [deserializeAttributes, deserializeAttribute_nil] at h
    cases hk : deserializeAttributes k [] with
    | error e => simp [hk] at h
    | ok r =>
      obtain ⟨y, r2⟩ := r
      have := ih y r2 hk
      subst this
      simp only [hk, Except.ok.injEq, Prod.mk.injEq] at h
      exact h.2.symm

/-- One attribute on a cut input: the step aborts or uses up the input. -/
theorem attribute_short (a : Attribute) (hv : a.valid) (bytes : List Byte)
    (hs : serializeAttribute a [] = .ok bytes) (q : List Byte) (hq : q <+: bytes)
    (hl : q.length < bytes.length) : NoRest (deserializeAttribute q) := by
  obtain ⟨u, d⟩ := a
  unfold Attribute.valid at hv
  unfold serializeAttribute goSlice at hs
  simp only [List.nil_append] at hv hs
  have hnil : NoRest (deserializeAttribute []) := by
    intro x rest h
    rw [deserializeAttribute_nil] at h
    simp only [Except.ok.injEq, Prod.mk.injEq] at h
    exact h.2.symm
  by_cases c1 : u = ContractHash ∨ u = Vote ∨ (u ≥ Hash1 ∧ u ≤ Hash15)
  · rw [if_pos c1] at hv hs
    rw [if_pos (by omega)] at hs
    simp only [List.singleton_append, List.drop_zero, Except.ok.injEq] at hs
    subst hs
    rcases prefix_cons_cases q _ _ hq with rfl | ⟨q2, rfl, _⟩
    · exact hnil
    · have hlen : q2.length ≤ 32 := by
        simp only [List.length_cons, List.length_take] at hl
        omega
      intro x rest h
      simp only [deserializeAttribute, bufReadByte, if_pos c1, bufRead, Except.ok.injEq,
        Prod.mk.injEq] at h
      rw [← h.2]
      exact List.drop_of_length_le hlen
  · rw [if_neg c1] at hv hs
    by_cases c2 : u = ECDH02 ∨ u = ECDH03
    · rw [if_pos c2] at hv hs
      rw [if_pos (by omega)] at hs
      simp only [List.singleton_append, Except.ok.injEq] at hs
      subst hs
      rcases prefix_cons_cases q _ _ hq with rfl | ⟨q2, rfl, _⟩
      · exact hnil
      · have hlen : q2.length ≤ 32 := by
          simp only [List.length_cons, List.length_drop, List.length_take] at hl
          omega
        intro x rest h
        simp only [deserializeAttribute, bufReadByte, if_neg c1, if_pos c2, bufRead,
          Except.ok.injEq, Prod.mk.injEq] at h
        rw [← h.2]
        exact List.drop_of_length_le hlen
    · rw [if_neg c2] at hv hs
      by_cases c3 : u = Script
      · rw [if_pos c3] at hv hs
        rw [if_pos (by omega)] at hs
        simp only [List.singleton_append, List.drop_zero, Except.ok.injEq] at hs
        subst hs
        rcases prefix_cons_cases q _ _ hq with rfl | ⟨q2, rfl, _⟩
        · exact hnil
        · have hlen : q2.length ≤ 20 := by
            simp only [List.length_cons, List.length_take] at hl
            omega
          intro x rest h
          simp only [deserializeAttribute, bufReadByte, if_neg c1, if_neg c2, if_pos c3,
            bufRead, Except.ok.injEq, Prod.mk.injEq] at h
          rw [← h.2]
          exact List.drop_of_length_le hlen
      · rw [if_neg c3] at hv hs
        by_cases c4 : u = DescriptionUrl
        · rw [if_pos c4] at hv hs
          simp only [List.singleton_append, List.cons_append, List.nil_append,
            Except.ok.injEq] at hs
          subst hs
          have hb : (toByte d.length).val = d.length := by
            simp only [toByte]
            omega
          rcases prefix_cons_cases q _ _ hq with rfl | ⟨q2, rfl, hq2⟩
          · exact hnil
          · rcases prefix_cons_cases q2 _ _ hq2 with rfl | ⟨q3, rfl, _⟩
            · intro x rest h
              simp only [deserializeAttribute, bufReadByte, if_neg c1, if_neg c2, if_neg c3,
                if_pos c4, bufRead, List.drop_nil, Except.ok.injEq, Prod.mk.injEq] at h
              exact h.2.symm
            · have hlen : q3.length ≤ (toByte d.length).val := by
                simp only [List.length_cons] at hl
                omega
              intro x rest h
              simp only [deserializeAttribute, bufReadByte, if_neg c1, if_neg c2, if_neg c3,
                if_pos c4, bufRead, Except.ok.injEq, Prod.mk.injEq] at h
              rw [← h.2]
              exact List.drop_of_length_le hlen
        · rw [if_neg c4] at hv hs
          by_cases c5 : u = Description ∨ u ≥ Remark
          · rw [if_pos c5] at hv hs
            rw [WriteVarInt_append] at hs
            simp only [List.singleton_append, List.cons_append, List.nil_append,
              Except.ok.injEq] at hs
            subst hs
            rcases prefix_cons_cases q _ _ hq with rfl | ⟨q2, rfl, hq2⟩
            · exact hnil
            · rcases prefix_append_cases q2 _ _ hq2 with ⟨hp, hpl⟩ | ⟨q3, rfl, hq3⟩
              · intro x rest h
                simp only [deserializeAttribute, bufReadByte, if_neg c1, if_neg c2, if_neg c3,
                  if_neg c4, if_pos c5, ReadVarInt_short _ hv q2 hp hpl] at h
                cases h
              · have hlen : q3.length ≤ d.length := by
                  simp only [List.length_cons, List.length_append] at hl
                  omega
                intro x rest h
                simp only [deserializeAttribute, bufReadByte, if_neg c1, if_neg c2, if_neg c3,
                  if_neg c4, if_pos c5, ReadVarInt_varIntBytes _ _ hv, bufRead, Except.ok.injEq,
                  Prod.mk.injEq] at h
                rw [← h.2]
                exact List.drop_of_length_le hlen
          · rw [if_neg c5] at hv
            exact absurd hv id

theorem attributes_short (as : List Attribute) (hv : ∀ a ∈ as, a.valid) (ab : List Byte)
    (hs : serializeAttributes as [] = .ok ab) (q : List Byte) (hq : q <+: ab)
    (hl : q.length < ab.length) : NoRest (deserializeAttributes as.length q) := by
  induction as generalizing ab q with
  | nil =>
    simp only [serializeAttributes, Except.ok.injEq] at hs
    subst hs
    simp at hl
  | cons a tl ih =>
    obtain ⟨b1, hs1, hd1⟩ := attribute_codec a (hv a (by simp))
    obtain ⟨b2, hs2, hd2⟩ := attributes_codec tl (fun x hx => hv x (by simp [hx]))
    simp only [serializeAttributes, hs1, hs2, List.nil_append, Except.ok.injEq] at hs
    subst hs
    rcases prefix_append_cases q b1 b2 hq with ⟨hp, hpl⟩ | ⟨q2, rfl, hq2⟩
    · have h1 := attribute_short a (hv a (by simp)) b1 (by simpa using hs1 []) q hp hpl
      intro x rest h
      simp only [List.length_cons, deserializeAttributes] at h
      cases ha : deserializeAttribute q with
      | error e => simp [ha] at h
      | ok r =>
        obtain ⟨y, r2⟩ := r
        have := h1 y r2 ha
        subst this
        simp only [ha] at h
        cases hk : deserializeAttributes tl.length [] with
        | error e => simp [hk] at h
        | ok r3 =>
          obtain ⟨z, r4⟩ := r3
          have := deserializeAttributes_nil tl.length z r4 hk
          subst this
          simp only [hk, Except.ok.injEq, Prod.mk.injEq] at h
          exact h.2.symm
    · have hl2 : q2.length < b2.length := by
        simp only [List.length_append] at hl
        omega
      have h2 := ih (fun x hx => hv x (by simp [hx])) b2 (by simpa using hs2 []) q2 hq2 hl2
      intro x rest h
      simp only [List.length_cons, deserializeAttributes, hd1] at h
      cases hk : deserializeAttributes tl.length q2 with
      | error e => simp [hk] at h
      | ok r3 =>
        obtain ⟨z, r4⟩ := r3
        have := h2 z r4 hk
        subst this
        simp only [hk, Except.ok.injEq, Prod.mk.injEq] at h
        exact h.2.symm

theorem extdata_short (e : InvokeTransData) (tx tx2 : Transaction) (h : e.script.length ≤ 65535)
    (hver : tx2.version = tx.version) (q : List Byte) (hq : q <+: e.Serialize tx [])
    (hl : q.length < (e.Serialize tx []).length) :
    NoRest (InvokeTransData.Deserialize ⟨[], ⟨0⟩⟩ tx2 q) := by
  intro x rest hr
  unfold InvokeTransData.Serialize at hq hl
  simp only [WriteVarInt_append, List.nil_append] at hq hl
  unfold InvokeTransData.Deserialize at hr
  by_cases hv : tx.version ≥ 1
  · rw [if_pos hv, List.append_assoc] at hq hl
    rcases prefix_append_cases q _ _ hq with ⟨hp, hpl⟩ | ⟨q2, rfl, hq2⟩
    · rw [ReadVarInt_short _ h q hp hpl] at hr
      cases hr
    · simp only [ReadVarInt_varIntBytes _ _ h, hver, if_pos hv, bufRead, Except.ok.injEq,
        Prod.mk.injEq] at hr
      rw [← hr.2, List.drop_drop]
      apply List.drop_of_length_le
      simp only [List.length_append, PutUint64, leBytes_length] at hl
      omega
  · rw [if_neg hv] at hq hl
    rcases prefix_append_cases q _ _ hq with ⟨hp, hpl⟩ | ⟨q2, rfl, hq2⟩
    · rw [ReadVarInt_short _ h q hp hpl] at hr
      cases hr
    · simp only [ReadVarInt_varIntBytes _ _ h, hver, if_neg hv, bufRead, Except.ok.injEq,
        Prod.mk.injEq] at hr
      rw [← hr.2]
      apply List.drop_of_length_le
      simp only [List.length_append] at hl
      omega

theorem lastScriptLength_cons (w : Witness) (tl : List Witness) (h : tl ≠ []) :
    lastScriptLength (w :: tl) = lastScriptLength tl := by
  cases tl with
  | nil => exact absurd rfl h
  | cons a rest => rfl

/-- The witness loop on a cut witness section: unless the cut falls in the
verification script of the last witness, the loop aborts. -/
theorem witnesses_short (ws : List Witness)
    (h : ∀ w ∈ ws, w.InvocationScript.length ≤ 65535 ∧ w.VerificationScript.length ≤ 65535)
    (q : List Byte) (hq : q <+: (ws.map witnessBytes).flatten)
    (hl : q.length + lastScriptLength ws < ((ws.map witnessBytes).flatten).length) :
    Fails (deserializeWitnesses ws.length q) := by
  induction ws generalizing q with
  | nil => simp at hl
  | cons w tl ih =>
    obtain ⟨hi, hv⟩ := h w (by simp)
    simp only [List.map_cons, List.flatten_cons, witnessBytes, List.append_assoc] at hq hl
    simp only [List.length_cons, deserializeWitnesses]
    rcases prefix_append_cases q _ _ hq with ⟨hp, hpl⟩ | ⟨q1, rfl, hq1⟩
    · rw [ReadVarInt_short _ hi q hp hpl]
      exact ⟨_, rfl⟩
    · rw [ReadVarInt_varIntBytes _ _ hi]
      simp only
      rcases prefix_append_cases q1 _ _ hq1 with ⟨hp, hpl⟩ | ⟨q2, rfl, hq2⟩
      · have hpos : w.InvocationScript.length > 0 := by omega
        rw [if_pos hpos]
        simp only [bufRead, List.drop_of_length_le (Nat.le_of_lt hpl), ReadVarInt_nil]
        exact ⟨_, rfl⟩
      · rw [readScript]
        simp only
        rcases prefix_append_cases q2 _ _ hq2 with ⟨hp, hpl⟩ | ⟨q3, rfl, hq3⟩
        · rw [ReadVarInt_short _ hv q2 hp hpl]
          exact ⟨_, rfl⟩
        · rw [ReadVarInt_varIntBytes _ _ hv]
          simp only
          rcases prefix_append_cases q3 _ _ hq3 with ⟨hp, hpl⟩ | ⟨q4, rfl, hq4⟩
          · have hpos : w.VerificationScript.length > 0 := by omega
            rw [if_pos hpos]
            simp only [bufRead, List.drop_of_length_le (Nat.le_of_lt hpl)]
            cases tl with
            | nil =>
              simp only [lastScriptLength, List.map_nil, List.flatten_nil, List.length_append,
                List.length_nil] at hl
              omega
            | cons a rest =>
              simp only [List.length_cons, deserializeWitnesses, ReadVarInt_nil]
              exact ⟨_, rfl⟩
          · rw [readScript]
            simp only
            have htl : tl ≠ [] := by
              rintro rfl
              simp only [List.map_nil, List.flatten_nil, List.prefix_nil] at hq4
              subst hq4
              simp only [List.map_nil, List.flatten_nil, List.length_append, List.length_nil,
                lastScriptLength] at hl
              omega
            rw [lastScriptLength_cons w tl htl] at hl
            have hl4 : q4.length + lastScriptLength tl
                < ((tl.map witnessBytes).flatten).length := by
              simp only [List.length_append] at hl
              omega
            obtain ⟨e, he⟩ := ih (fun x hx => h x (by simp [hx])) q4 hq4 hl4
            rw [he]
            exact ⟨_, rfl⟩

theorem desWitnessPart_nil (self : Transaction) : Fails (self.desWitnessPart []) :=
  ⟨.varInt, rfl⟩

theorem desOutputPart_nil (self : Transaction) : Fails (self.desOutputPart []) :=
  ⟨.varInt, rfl⟩

theorem desInputPart_nil (self : Transaction) : Fails (self.desInputPart []) :=
  ⟨.varInt, rfl⟩

theorem desAttributePart_nil (self : Transaction) : Fails (self.desAttributePart []) :=
  ⟨.varInt, rfl⟩

theorem desWitnessPart_short (self : Transaction) (ws : List Witness) (hwl : ws.length ≤ 65535)
    (h : ∀ w ∈ ws, w.InvocationScript.length ≤ 65535 ∧ w.VerificationScript.length ≤ 65535)
    (q : List Byte) (hq : q <+: varIntBytes ws.length ++ (ws.map witnessBytes).flatten)
    (hl : q.length + lastScriptLength ws
      < (varIntBytes ws.length ++ (ws.map witnessBytes).flatten).length) :
    Fails (self.desWitnessPart q) := by
  unfold Transaction.desWitnessPart
  rcases prefix_append_cases q _ _ hq with ⟨hp, hpl⟩ | ⟨q1, rfl, hq1⟩
  · rw [ReadVarInt_short _ hwl q hp hpl]
    exact ⟨_, rfl⟩
  · rw [ReadVarInt_varIntBytes _ _ hwl]
    simp only
    have hl1 : q1.length + lastScriptLength ws < ((ws.map witnessBytes).flatten).length := by
      simp only [List.length_append] at hl
      omega
    obtain ⟨e, he⟩ := witnesses_short ws h q1 hq1 hl1
    rw [he]
    exact ⟨_, rfl⟩

theorem desOutputPart_short (self : Transaction) (outs : List TransactionOutput)
    (ob T : List Byte) (L : Nat) (hol : outs.length ≤ 65535)
    (hd : ∀ rest, deserializeOutputs outs.length (ob ++ rest) = (outs, rest))
    (hob : ob.length = 60 * outs.length)
    (hT : ∀ (s : Transaction) q, q <+: T → q.length + L < T.length →
      Fails (s.desWitnessPart q))
    (q : List Byte) (hq : q <+: varIntBytes outs.length ++ (ob ++ T))
    (hl : q.length + L < (varIntBytes outs.length ++ (ob ++ T)).length) :
    Fails (self.desOutputPart q) := by
  rcases prefix_append_cases q _ _ hq with ⟨hp, hpl⟩ | ⟨q1, rfl, hq1⟩
  · unfold Transaction.desOutputPart
    rw [ReadVarInt_short _ hol q hp hpl]
    exact ⟨_, rfl⟩
  · rcases prefix_append_cases q1 _ _ hq1 with ⟨hp, hpl⟩ | ⟨q2, rfl, hq2⟩
    · unfold Transaction.desOutputPart
      rw [ReadVarInt_varIntBytes _ _ hol]
      simp only
      have hsnd := deserializeOutputs_snd outs.length q1
      rcases hr : deserializeOutputs outs.length q1 with ⟨x, r⟩
      rw [hr] at hsnd
      simp only at hsnd
      rw [List.drop_of_length_le (by omega)] at hsnd
      subst hsnd
      exact desWitnessPart_nil _
    · rw [desOutputPart_append self outs ob q2 hol hd]
      apply hT _ q2 hq2
      simp only [List.length_append] at hl ⊢
      omega

theorem desInputPart_short (self : Transaction) (ins : List TransactionInput)
    (ib T : List Byte) (L : Nat) (hil : ins.length ≤ 65535)
    (hd : ∀ rest, deserializeInputs ins.length (ib ++ rest) = (ins, rest))
    (hib : ib.length = 34 * ins.length)
    (hT : ∀ (s : Transaction) q, q <+: T → q.length + L < T.length →
      Fails (s.desOutputPart q))
    (q : List Byte) (hq : q <+: varIntBytes ins.length ++ (ib ++ T))
    (hl : q.length + L < (varIntBytes ins.length ++ (ib ++ T)).length) :
    Fails (self.desInputPart q) := by
  rcases prefix_append_cases q _ _ hq with ⟨hp, hpl⟩ | ⟨q1, rfl, hq1⟩
  · unfold Transaction.desInputPart
    rw [ReadVarInt_short _ hil q hp hpl]
    exact ⟨_, rfl⟩
  · rcases prefix_append_cases q1 _ _ hq1 with ⟨hp, hpl⟩ | ⟨q2, rfl, hq2⟩
    · unfold Transaction.desInputPart
      rw [ReadVarInt_varIntBytes _ _ hil]
      simp only
      have hsnd := deserializeInputs_snd ins.length q1
      rcases hr : deserializeInputs ins.length q1 with ⟨x, r⟩
      rw [hr] at hsnd
      simp only at hsnd
      rw [List.drop_of_length_le (by omega)] at hsnd
      subst hsnd
      exact desOutputPart_nil _
    · rw [desInputPart_append self ins ib q2 hil hd]
      apply hT _ q2 hq2
      simp only [List.length_append] at hl ⊢
      omega

theorem desAttributePart_short (self : Transaction) (as : List Attribute)
    (ab T : List Byte) (L : Nat) (hal : as.length ≤ 65535)
    (hd : ∀ rest, deserializeAttributes as.length (ab ++ rest)
      = .ok (as.map Attribute.normalize, rest))
    (hshort : ∀ q, q <+: ab → q.length < ab.length → NoRest (deserializeAttributes as.length q))
    (hT : ∀ (s : Transaction) q, q <+: T → q.length + L < T.length →
      Fails (s.desInputPart q))
    (q : List Byte) (hq : q <+: varIntBytes as.length ++ (ab ++ T))
    (hl : q.length + L < (varIntBytes as.length ++ (ab ++ T)).length) :
    Fails (self.desAttributePart q) := by
  rcases prefix_append_cases q _ _ hq with ⟨hp, hpl⟩ | ⟨q1, rfl, hq1⟩
  · unfold Transaction.desAttributePart
    rw [ReadVarInt_short _ hal q hp hpl]
    exact ⟨_, rfl⟩
  · rcases prefix_append_cases q1 _ _ hq1 with ⟨hp, hpl⟩ | ⟨q2, rfl, hq2⟩
    · unfold Transaction.desAttributePart
      rw [ReadVarInt_varIntBytes _ _ hal]
      simp only
      cases hr : deserializeAttributes as.length q1 with
      | error e => exact ⟨_, rfl⟩
      | ok r =>
        obtain ⟨x, r2⟩ := r
        have := hshort q1 hp hpl x r2 hr
        subst this
        exact desInputPart_nil _
    · rw [desAttributePart_append self as ab q2 hal hd]
      apply hT _ q2 hq2
      simp only [List.length_append] at hl ⊢
      omega

theorem desExtPart_none (self : Transaction) (buf : List Byte) (h : self.extdata = none) :
    self.desExtPart buf = self.desAttributePart buf := by
  simp only [Transaction.desExtPart, h]

/-- A valid transaction serializes to bytes on which `Deserialize`, whatever its
receiver, aborts after a cut that falls before the verification script of the
last witness, and aborts with the length error when bytes follow. -/
theorem Deserialize_malformed (t : Transaction) (hv : t.valid) :
    ∃ bytes, t.Serialize [] = .ok bytes ∧
      (∀ (self : Transaction) (p : List Byte), p <+: bytes →
        p.length + lastScriptLength t.witnesses < bytes.length → Fails (self.Deserialize p)) ∧
      (∀ (self : Transaction) (x : List Byte), x ≠ [] →
        self.Deserialize (bytes ++ x) = .error .lenError) := by
  obtain ⟨hk, hal, hav, hil, hiv, hol, hov, hwl, hwv⟩ := hv
  obtain ⟨ab, hsA, hdA⟩ := attributes_codec t.attributes hav
  obtain ⟨ib, hsI, hdI⟩ := inputs_codec t.inputs hiv
  obtain ⟨ob, hsO, hdO⟩ := outputs_codec t.outputs hov
  have hshortA := attributes_short t.attributes hav ab (by simpa using hsA [])
  have hib : ib.length = 34 * t.inputs.length := by
    have := serializeInputs_length t.inputs hiv []
    rw [hsI] at this
    simpa using this
  have hob : ob.length = 60 * t.outputs.length := by
    have := serializeOutputs_length t.outputs hov []
    rw [hsO] at this
    simpa using this
  have hne : InvocationTransaction ≠ ContractTransaction := by decide
  have hz1 : (0 : Byte) ≠ ContractTransaction := by decide
  have hz2 : (0 : Byte) ≠ InvocationTransaction := by decide
  obtain ⟨k, v, as, ins, outs, ws, ext⟩ := t
  simp only at hk hal hav hil hiv hol hov hwl hwv hsA hdA hsI hdI hsO hdO hshortA hib hob
  -- the parts after the extension, on a cut input
  have hW : ∀ (s : Transaction) q,
      q <+: varIntBytes ws.length ++ (ws.map witnessBytes).flatten →
      q.length + lastScriptLength ws
        < (varIntBytes ws.length ++ (ws.map witnessBytes).flatten).length →
      Fails (s.desWitnessPart q) := fun s q => desWitnessPart_short s ws hwl hwv q
  have hO := fun (s : Transaction) q =>
    desOutputPart_short s outs ob _ (lastScriptLength ws) hol hdO hob hW q
  have hI := fun (s : Transaction) q =>
    desInputPart_short s ins ib _ (lastScriptLength ws) hil hdI hib hO q
  have hA := fun (s : Transaction) q =>
    desAttributePart_short s as ab _ (lastScriptLength ws) hal hdA hshortA hI q
  -- the parts after the extension, on the whole input followed by `x`
  have hfull : ∀ (s : Transaction) (x : List Byte), x ≠ [] →
      s.desAttributePart (varIntBytes as.length ++ (ab ++ (varIntBytes ins.length ++ (ib ++
        (varIntBytes outs.length ++ (ob ++ (varIntBytes ws.length ++
          ((ws.map witnessBytes).flatten ++ x))))))))
        = .error .lenError := by
    intro s x hx
    have hxl : x.length > 0 := List.length_pos.mpr hx
    rw [desAttributePart_append s as ab _ hal hdA, desInputPart_append _ ins ib _ hil hdI,
      desOutputPart_append _ outs ob _ hol hdO, desWitnessPart_append _ ws hwl hwv x,
      if_pos hxl]
  rcases hk with ⟨hty, hext⟩ | ⟨hty, hsome, hscript⟩
  · subst hty hext
    refine ⟨ContractTransaction :: v :: (varIntBytes as.length ++ (ab ++ (varIntBytes ins.length
      ++ (ib ++ (varIntBytes outs.length ++ (ob ++ (varIntBytes ws.length
      ++ (ws.map witnessBytes).flatten))))))), ?_, ?_, ?_⟩
    · simp only [Transaction.Serialize, Transaction.SerializeUnsigned, ↓reduceIte,
        WriteVarInt_append, hsA, hsI, hsO, serializeWitnesses_eq, List.nil_append,
        List.append_assoc, List.cons_append, List.singleton_append]
    · intro self p hp hl
      rw [Deserialize_eq_parts]
      rcases prefix_cons_cases p _ _ hp with rfl | ⟨p1, rfl, hp1⟩
      · simp only [bufReadByte, if_neg hz1, if_neg hz2]
        exact ⟨_, rfl⟩
      · simp only [bufReadByte, ↓reduceIte]
        rw [desExtPart_none _ _ rfl]
        rcases prefix_cons_cases p1 _ _ hp1 with rfl | ⟨p2, rfl, hp2⟩
        · exact desAttributePart_nil _
        · apply hA _ p2 hp2
          simp only [List.length_cons, List.length_append] at hl ⊢
          omega
    · intro self x hx
      rw [Deserialize_eq_parts]
      simp only [List.cons_append, bufReadByte, ↓reduceIte, List.append_assoc]
      rw [desExtPart_none _ _ rfl]
      exact hfull _ x hx
  · subst hty
    obtain ⟨e, rfl⟩ := Option.isSome_iff_exists.mp hsome
    have hs : e.script.length ≤ 65535 := hscript e rfl
    obtain ⟨eb, hsE, _, hdE⟩ := extdata_codec e
      ⟨InvocationTransaction, v, as, ins, outs, ws, some e⟩ hs
    have heb : e.Serialize ⟨InvocationTransaction, v, as, ins, outs, ws, some e⟩ [] = eb := by
      simpa using hsE []
    have hshortE := fun (tx2 : Transaction) (h2 : tx2.version = v) q =>
      extdata_short e ⟨InvocationTransaction, v, as, ins, outs, ws, some e⟩ tx2 hs h2 q
    rw [heb] at hshortE
    simp only at hsE hdE
    refine ⟨InvocationTransaction :: v :: (eb ++ (varIntBytes as.length ++ (ab
      ++ (varIntBytes ins.length ++ (ib ++ (varIntBytes outs.length ++ (ob
      ++ (varIntBytes ws.length ++ (ws.map witnessBytes).flatten)))))))), ?_, ?_, ?_⟩
    · simp only [Transaction.Serialize, Transaction.SerializeUnsigned, if_neg hne, ↓reduceIte,
        WriteVarInt_append, hsE, hsA, hsI, hsO, serializeWitnesses_eq, List.nil_append,
        List.append_assoc, List.cons_append, List.singleton_append]
    · intro self p hp hl
      rw [Deserialize_eq_parts]
      rcases prefix_cons_cases p _ _ hp with rfl | ⟨p1, rfl, hp1⟩
      · simp only [bufReadByte, if_neg hz1, if_neg hz2]
        exact ⟨_, rfl⟩
      · simp only [bufReadByte, if_neg hne, ↓reduceIte]
        rcases prefix_cons_cases p1 _ _ hp1 with rfl | ⟨p2, rfl, hp2⟩
        · exact ⟨.varInt, rfl⟩
        · simp only [Transaction.desExtPart]
          rcases prefix_append_cases p2 _ _ hp2 with ⟨hpe, hpl⟩ | ⟨p3, rfl, hp3⟩
          · cases hr : InvokeTransData.Deserialize ⟨[], ⟨0⟩⟩
              ({ self with txtype := InvocationTransaction, version := v,
                           extdata := some ⟨[], ⟨0⟩⟩ } : Transaction) p2 with
            | error e2 => exact ⟨_, rfl⟩
            | ok r =>
              obtain ⟨x, r2⟩ := r
              have := hshortE _ rfl p2 hpe hpl x r2 hr
              subst this
              exact desAttributePart_nil _
          · rw [hdE _ rfl]
            apply hA _ p3 hp3
            simp only [List.length_cons, List.length_append] at hl ⊢
            omega
    · intro self x hx
      rw [Deserialize_eq_parts]
      simp only [List.cons_append, bufReadByte, if_neg hne, ↓reduceIte, List.append_assoc,
        Transaction.desExtPart]
      rw [hdE _ rfl]
      exact hfull _ x hx

theorem zeroLastScript_cons (missing : Nat) (w : Witness) (tl : List Witness) (h : tl ≠ []) :
    zeroLastScript missing (w :: tl) = w :: zeroLastScript missing tl := by
  cases tl with
  | nil => exact absurd rfl h
  | cons a rest => rfl

theorem lastScriptLength_le (ws : List Witness) :
    lastScriptLength ws ≤ ((ws.map witnessBytes).flatten).length := by
  induction ws with
  | nil => simp [lastScriptLength]
  | cons w tl ih =>
    cases tl with
    | nil =>
      simp only [lastScriptLength, witnessBytes, List.map_cons, List.map_nil, List.flatten_cons,
        List.flatten_nil, List.length_append, List.append_nil]
      omega
    | cons a rest =>
      rw [lastScriptLength_cons w (a :: rest) (by simp)]
      simp only [List.map_cons, List.flatten_cons, List.length_append] at ih ⊢
      omega

theorem prefix_of_long {α : Type} (q X Y : List α) (h : q <+: X ++ Y)
    (hl : X.length ≤ q.length) : ∃ q2, q = X ++ q2 ∧ q2 <+: Y := by
  rcases prefix_append_cases q X Y h with ⟨_, hlt⟩ | h2
  · omega
  · exact h2

/-- The witness loop on a witness section cut inside the verification script of
the last witness: the loop ends, and the missing bytes of that script are zero. -/
theorem witnesses_cut (ws : List Witness)
    (h : ∀ w ∈ ws, w.InvocationScript.length ≤ 65535 ∧ w.VerificationScript.length ≤ 65535)
    (q : List Byte) (hq : q <+: (ws.map witnessBytes).flatten)
    (hl : ((ws.map witnessBytes).flatten).length ≤ q.length + lastScriptLength ws) :
    deserializeWitnesses ws.length q
      = .ok (zeroLastScript (((ws.map witnessBytes).flatten).length - q.length) ws, []) := by
  induction ws generalizing q with
  | nil =>
    simp only [List.map_nil, List.flatten_nil, List.prefix_nil] at hq
    subst hq
    rfl
  | cons w tl ih =>
    obtain ⟨hi, hv⟩ := h w (by simp)
    have hlast : lastScriptLength (w :: tl)
        ≤ (w.VerificationScript ++ (tl.map witnessBytes).flatten).length := by
      cases tl with
      | nil => simp [lastScriptLength]
      | cons a rest =>
        rw [lastScriptLength_cons w (a :: rest) (by simp)]
        have := lastScriptLength_le (a :: rest)
        simp only [List.length_append]
        omega
    simp only [List.map_cons, List.flatten_cons, witnessBytes, List.append_assoc] at hq hl ⊢
    simp only [List.length_cons, deserializeWitnesses]
    simp only [List.length_append] at hl hlast
    obtain ⟨q1, rfl, hq1⟩ := prefix_of_long q _ _ hq (by omega)
    simp only [List.length_append] at hl
    obtain ⟨q2, rfl, hq2⟩ := prefix_of_long q1 _ _ hq1 (by omega)
    simp only [List.length_append] at hl
    obtain ⟨q3, rfl, hq3⟩ := prefix_of_long q2 _ _ hq2 (by omega)
    simp only [List.length_append] at hl
    rw [ReadVarInt_varIntBytes _ _ hi]
    simp only
    rw [readScript]
    simp only
    rw [ReadVarInt_varIntBytes _ _ hv]
    simp only
    rcases prefix_append_cases q3 _ _ hq3 with ⟨hp, hpl⟩ | ⟨q4, rfl, hq4⟩
    · have htl : tl = [] := by
        cases tl with
        | nil => rfl
        | cons a rest =>
          rw [lastScriptLength_cons w (a :: rest) (by simp)] at hl
          have := lastScriptLength_le (a :: rest)
          omega
      subst htl
      have hpos : w.VerificationScript.length > 0 := by omega
      have htake : w.VerificationScript.take q3.length = q3 :=
        (List.prefix_iff_eq_take.mp hp).symm
      rw [if_pos hpos]
      simp only [bufRead, List.drop_of_length_le (Nat.le_of_lt hpl),
        List.take_of_length_le (Nat.le_of_lt hpl), deserializeWitnesses, List.map_nil,
        List.flatten_nil, List.append_nil, List.length_append, zeroLastScript]
      have e1 : (varIntBytes w.InvocationScript.length).length + (w.InvocationScript.length
          + ((varIntBytes w.VerificationScript.length).length + w.VerificationScript.length))
          - ((varIntBytes w.InvocationScript.length).length + (w.InvocationScript.length
          + ((varIntBytes w.VerificationScript.length).length + q3.length)))
          = w.VerificationScript.length - q3.length := by omega
      rw [e1]
      have e2 : w.VerificationScript.length - (w.VerificationScript.length - q3.length)
          = q3.length := by omega
      have e3 : min (w.VerificationScript.length - q3.length) w.VerificationScript.length
          = w.VerificationScript.length - q3.length := by omega
      rw [e2, e3, htake]
    · rw [readScript]
      simp only
      cases tl with
      | nil =>
        simp only [List.map_nil, List.flatten_nil, List.prefix_nil] at hq4
        subst hq4
        simp [deserializeWitnesses, zeroLastScript]
      | cons a rest =>
        rw [lastScriptLength_cons w (a :: rest) (by simp)] at hl
        simp only [List.length_append] at hl
        have hl4 : (((a :: rest).map witnessBytes).flatten).length
            ≤ q4.length + lastScriptLength (a :: rest) := by
          omega
        rw [ih (fun x hx => h x (by simp [hx])) q4 hq4 hl4,
          zeroLastScript_cons _ w (a :: rest) (by simp)]
        simp only [List.length_append]
        have e1 : (varIntBytes w.InvocationScript.length).length + (w.InvocationScript.length
            + ((varIntBytes w.VerificationScript.length).length + (w.VerificationScript.length
            + (((a :: rest).map witnessBytes).flatten).length)))
            - ((varIntBytes w.InvocationScript.length).length + (w.InvocationScript.length
            + ((varIntBytes w.VerificationScript.length).length + (w.VerificationScript.length
            + q4.length))))
            = (((a :: rest).map witnessBytes).flatten).length - q4.length := by omega
        rw [e1]

theorem desWitnessPart_cut (self : Transaction) (ws : List Witness)
    (hwl : ws.length ≤ 65535)
    (h : ∀ w ∈ ws, w.InvocationScript.length ≤ 65535 ∧ w.VerificationScript.length ≤ 65535)
    (q : List Byte) (hq : q <+: (ws.map witnessBytes).flatten)
    (hl : ((ws.map witnessBytes).flatten).length ≤ q.length + lastScriptLength ws) :
    self.desWitnessPart (varIntBytes ws.length ++ q)
      = .ok { self with witnesses := self.witnesses
          ++ zeroLastScript (((ws.map witnessBytes).flatten).length - q.length) ws } := by
  simp only [Transaction.desWitnessPart, ReadVarInt_varIntBytes _ _ hwl,
    witnesses_cut ws h q hq hl, List.length_nil, gt_iff_lt, Nat.lt_irrefl, ↓reduceIte]

/-- On a prefix of the bytes of a valid transaction that lacks only bytes of the
verification script of the last witness, `Deserialize` on a fresh
`Transaction{}` returns the normal form of the transaction with the missing
bytes of that script zero. -/
theorem Deserialize_cut (t : Transaction) (hv : t.valid) :
    ∃ bytes, t.Serialize [] = .ok bytes ∧
      ∀ p : List Byte, p <+: bytes →
        bytes.length ≤ p.length + lastScriptLength t.witnesses →
        Transaction.zero.Deserialize p
          = .ok { t.normalize with
              witnesses := zeroLastScript (bytes.length - p.length) t.witnesses } := by
  obtain ⟨hk, hal, hav, hil, hiv, hol, hov, hwl, hwv⟩ := hv
  obtain ⟨ab, hsA, hdA⟩ := attributes_codec t.attributes hav
  obtain ⟨ib, hsI, hdI⟩ := inputs_codec t.inputs hiv
  obtain ⟨ob, hsO, hdO⟩ := outputs_codec t.outputs hov
  have hne : InvocationTransaction ≠ ContractTransaction := by decide
  obtain ⟨k, v, as, ins, outs, ws, ext⟩ := t
  simp only at hk hal hav hil hiv hol hov hwl hwv hsA hdA hsI hdI hsO hdO
  have hWB := lastScriptLength_le ws
  rcases hk with ⟨hty, hext⟩ | ⟨hty, hsome, hscript⟩
  · subst hty hext
    refine ⟨ContractTransaction :: v :: (varIntBytes as.length ++ (ab ++ (varIntBytes ins.length
      ++ (ib ++ (varIntBytes outs.length ++ (ob ++ (varIntBytes ws.length
      ++ (ws.map witnessBytes).flatten))))))), ?_, ?_⟩
    · simp only [Transaction.Serialize, Transaction.SerializeUnsigned, ↓reduceIte,
        WriteVarInt_append, hsA, hsI, hsO, serializeWitnesses_eq, List.nil_append,
        List.append_assoc, List.cons_append, List.singleton_append]
    · intro p hp hl
      have hp2 : p <+: (ContractTransaction :: v :: (varIntBytes as.length ++ (ab
          ++ (varIntBytes ins.length ++ (ib ++ (varIntBytes outs.length ++ (ob
          ++ varIntBytes ws.length))))))) ++ (ws.map witnessBytes).flatten := by
        simpa only [List.cons_append, List.append_assoc] using hp
      simp only [List.length_cons, List.length_append] at hl
      obtain ⟨q, rfl, hq⟩ := prefix_of_long p _ _ hp2 (by
        simp only [List.length_cons, List.length_append]
        omega)
      simp only [List.length_cons, List.length_append] at hl
      have hm : (ContractTransaction :: v :: (varIntBytes as.length ++ (ab
          ++ (varIntBytes ins.length ++ (ib ++ (varIntBytes outs.length ++ (ob
          ++ (varIntBytes ws.length ++ (ws.map witnessBytes).flatten))))))) : List Byte).length
          - ((ContractTransaction :: v :: (varIntBytes as.length ++ (ab
          ++ (varIntBytes ins.length ++ (ib ++ (varIntBytes outs.length ++ (ob
          ++ varIntBytes ws.length))))))) ++ q : List Byte).length
          = ((ws.map witnessBytes).flatten).length - q.length := by
        simp only [List.length_cons, List.length_append]
        omega
      rw [hm, Deserialize_eq_parts]
      simp only [List.cons_append, bufReadByte, ↓reduceIte, List.append_assoc]
      rw [desExtPart_none _ _ rfl, desAttributePart_append _ as ab _ hal hdA,
        desInputPart_append _ ins ib _ hil hdI, desOutputPart_append _ outs ob _ hol hdO,
        desWitnessPart_cut _ ws hwl hwv q hq (by omega)]
      simp only [Transaction.zero]
      rw [ite_length_pos as _ (by simp), ite_length_pos ins ins rfl,
        ite_length_pos outs outs rfl]
      simp [Transaction.normalize, Transaction.zero]
  · subst hty
    obtain ⟨e, rfl⟩ := Option.isSome_iff_exists.mp hsome
    have hs : e.script.length ≤ 65535 := hscript e rfl
    obtain ⟨eb, hsE, _, hdE⟩ := extdata_codec e
      ⟨InvocationTransaction, v, as, ins, outs, ws, some e⟩ hs
    simp only at hsE hdE
    refine ⟨InvocationTransaction :: v :: (eb ++ (varIntBytes as.length ++ (ab
      ++ (varIntBytes ins.length ++ (ib ++ (varIntBytes outs.length ++ (ob
      ++ (varIntBytes ws.length ++ (ws.map witnessBytes).flatten)))))))), ?_, ?_⟩
    · simp only [Transaction.Serialize, Transaction.SerializeUnsigned, if_neg hne, ↓reduceIte,
        WriteVarInt_append, hsE, hsA, hsI, hsO, serializeWitnesses_eq, List.nil_append,
        List.append_assoc, List.cons_append, List.singleton_append]
    · intro p hp hl
      have hp2 : p <+: (InvocationTransaction :: v :: (eb ++ (varIntBytes as.length ++ (ab
          ++ (varIntBytes ins.length ++ (ib ++ (varIntBytes outs.length ++ (ob
          ++ varIntBytes ws.length)))))))) ++ (ws.map witnessBytes).flatten := by
        simpa only [List.cons_append, List.append_assoc] using hp
      simp only [List.length_cons, List.length_append] at hl
      obtain ⟨q, rfl, hq⟩ := prefix_of_long p _ _ hp2 (by
        simp only [List.length_cons, List.length_append]
        omega)
      simp only [List.length_cons, List.length_append] at hl
      have hm : (InvocationTransaction :: v :: (eb ++ (varIntBytes as.length ++ (ab
          ++ (varIntBytes ins.length ++ (ib ++ (varIntBytes outs.length ++ (ob
          ++ (varIntBytes ws.length ++ (ws.map witnessBytes).flatten)))))))) : List Byte).length
          - ((InvocationTransaction :: v :: (eb ++ (varIntBytes as.length ++ (ab
          ++ (varIntBytes ins.length ++ (ib ++ (varIntBytes outs.length ++ (ob
          ++ varIntBytes ws.length)))))))) ++ q : List Byte).length
          = ((ws.map witnessBytes).flatten).length - q.length := by
        simp only [List.length_cons, List.length_append]
        omega
      rw [hm, Deserialize_eq_parts]
      simp only [List.cons_append, bufReadByte, if_neg hne, ↓reduceIte, List.append_assoc,
        Transaction.desExtPart]
      rw [hdE _ rfl]
      simp only
      rw [desAttributePart_append _ as ab _ hal hdA,
        desInputPart_append _ ins ib _ hil hdI, desOutputPart_append _ outs ob _ hol hdO,
        desWitnessPart_cut _ ws hwl hwv q hq (by omega)]
      simp only [Transaction.zero]
      rw [ite_length_pos as _ (by simp), ite_length_pos ins ins rfl,
        ite_length_pos outs outs rfl]
      simp [Transaction.normalize, Transaction.zero]

/-- C21 (the claim as stated fails): the valid Contract transaction with one
witness, invocation script `01` and verification script `02 03`, serializes to
eleven bytes, and `Deserialize` of the first ten of them, a strict prefix,
returns a transaction, whose verification script is `02 00`: the bytes missing
from the last read are taken as zero and no error is raised. -/
theorem Deserialize_truncated_counterexample :
    exampleWitnessTx.valid ∧
    exampleWitnessTx.Serialize [] = .ok [0x80, 0, 0, 0, 0, 1, 1, 1, 2, 2, 3] ∧
    [0x80, 0, 0, 0, 0, 1, 1, 1, 2, 2] <+: ([0x80, 0, 0, 0, 0, 1, 1, 1, 2, 2, 3] : List Byte) ∧
    ([0x80, 0, 0, 0, 0, 1, 1, 1, 2, 2] : List Byte) ≠ [0x80, 0, 0, 0, 0, 1, 1, 1, 2, 2, 3] ∧
    Transaction.zero.Deserialize [0x80, 0, 0, 0, 0, 1, 1, 1, 2, 2]
      = .ok { exampleWitnessTx with witnesses := [⟨[1], [2, 0]⟩] } := by
  refine ⟨by decide, by decide, ⟨[3], rfl⟩, by decide, by decide⟩

/-- C21 (amended): for every valid transaction `t`, `Serialize` succeeds, and
for every prefix `p` of its bytes: when `p` lacks at least one byte that comes
before the verification script of the last witness (so for every strict prefix,
the empty input included, when `t` has no witness or that script is empty),
`Deserialize(p)` fails with an error, whatever its receiver; when `p` lacks
only bytes, some or all, of that script, `Deserialize(p)` on a fresh
`Transaction{}` does not fail: it returns the transaction as the wire keeps it,
with the missing bytes of that script zero. -/
theorem Deserialize_truncated (t : Transaction) (hv : t.valid) :
    ∃ bytes, t.Serialize [] = .ok bytes ∧
      ∀ p : List Byte, p <+: bytes →
        (p.length + lastScriptLength t.witnesses < bytes.length →
          ∀ self : Transaction, ∃ e, self.Deserialize p = .error e) ∧
        (bytes.length ≤ p.length + lastScriptLength t.witnesses →
          Transaction.zero.Deserialize p
            = .ok { t.normalize with
                witnesses := zeroLastScript (bytes.length - p.length) t.witnesses }) := by
  obtain ⟨bytes, hs, hshort, _⟩ := Deserialize_malformed t hv
  obtain ⟨bytes2, hs2, hcut⟩ := Deserialize_cut t hv
  rw [hs] at hs2
  cases hs2
  exact ⟨bytes, hs, fun p hp => ⟨fun hl self => hshort self p hp hl, hcut p hp⟩⟩

/-- Witness for C21 (amended): the example Contract transaction with one witness
is valid; `Deserialize` fails on the empty input and on the first eight of its
eleven bytes, which stop inside the length of the verification script, and on
the first nine, which stop where that script begins, it returns the
transaction with verification script `00 00`. -/
theorem Deserialize_truncated_witness :
    exampleWitnessTx.valid ∧
    (∃ e, Transaction.zero.Deserialize [] = .error e) ∧
    (∃ e, Transaction.zero.Deserialize [0x80, 0, 0, 0, 0, 1, 1, 1] = .error e) ∧
    Transaction.zero.Deserialize [0x80, 0, 0, 0, 0, 1, 1, 1, 2]
      = .ok { exampleWitnessTx with witnesses := [⟨[1], [0, 0]⟩] } := by
  obtain ⟨bytes, hs, h⟩ := Deserialize_truncated exampleWitnessTx (by decide)
  have hb : exampleWitnessTx.Serialize [] = .ok [0x80, 0, 0, 0, 0, 1, 1, 1, 2, 2, 3] := by decide
  rw [hb] at hs
  cases hs
  exact ⟨by decide, (h [] ⟨_, rfl⟩).1 (by decide) _,
    (h [0x80, 0, 0, 0, 0, 1, 1, 1] ⟨[2, 2, 3], rfl⟩).1 (by decide) _,
    ((h [0x80, 0, 0, 0, 0, 1, 1, 1, 2] ⟨[2, 3], rfl⟩).2 (by decide)).trans (by decide)⟩

/-- C22: for every valid transaction `t` and every non-empty byte sequence `x`,
`Serialize` succeeds and `Deserialize` of its bytes followed by `x` fails, with
the length error; and on every input whose first byte `b` is neither `80`
(Contract) nor `d1` (Invocation), `Deserialize` fails, with the kind error.
Both hold whatever the receiver. -/
theorem Deserialize_trailing_or_unknown_kind (t : Transaction) (hv : t.valid)
    (x : List Byte) (hx : x ≠ []) (b : Byte) (rest : List Byte)
    (hb1 : b ≠ 0x80) (hb2 : b ≠ 0xd1) (self : Transaction) :
    (∃ bytes, t.Serialize [] = .ok bytes ∧
      self.Deserialize (bytes ++ x) = .error .lenError) ∧
    self.Deserialize (b :: rest) = .error .txType := by
  constructor
  · obtain ⟨bytes, hs, _, htrail⟩ := Deserialize_malformed t hv
    exact ⟨bytes, hs, htrail self x hx⟩
  · rw [Deserialize_eq_parts]
    simp only [bufReadByte]
    rw [if_neg (by simpa [ContractTransaction] using hb1),
      if_neg (by simpa [InvocationTransaction] using hb2)]

/-- Witness for C22: the example Invocation transaction followed by the byte `00`,
and the input `00 01` of unknown kind. -/
theorem Deserialize_trailing_or_unknown_kind_witness :
    exampleInvocationTx.valid ∧ ([0] : List Byte) ≠ [] ∧ (0 : Byte) ≠ 0x80 ∧ (0 : Byte) ≠ 0xd1 ∧
    (∃ bytes, exampleInvocationTx.Serialize [] = .ok bytes ∧
      Transaction.zero.Deserialize (bytes ++ [0]) = .error .lenError) ∧
    Transaction.zero.Deserialize (0 :: [1]) = .error .txType :=
  ⟨by decide, by decide, by decide, by decide,
    Deserialize_trailing_or_unknown_kind exampleInvocationTx (by decide) [0] (by decide) 0 [1]
      (by decide) (by decide) Transaction.zero⟩

/-! ## The raw Base-58 codec on its own -/

theorem b58char_mem : ∀ d : Fin 58, b58char d.val ∈ BitcoinBase58Table := by decide

theorem b58encode_mem (b : List Byte) : ∀ c ∈ b58encode b, c ∈ BitcoinBase58Table := by
  intro c hc
  rw [b58encode_eq] at hc
  simp only [List.mem_map, List.mem_reverse] at hc
  obtain ⟨d, hd, rfl⟩ := hc
  exact b58char_mem ⟨d, Nat.digits_lt_base (by decide) hd⟩

/-- Raw decoding of a raw encoding drops the leading zero bytes. -/
theorem b58decode_b58encode_dropWhile (data : List Byte) :
    b58decode (b58encode data) = .ok (data.dropWhile (· = 0)) := by
  have h := b58decode_ones_b58encode 0 data
  simp only [List.replicate_zero, List.nil_append] at h
  rw [h]
  have hval : bigSetBytes data = bigSetBytes (data.dropWhile (· = 0)) := by
    conv_lhs => rw [leadingZeros_split data]
    exact bigSetBytes_replicate_zero _ _
  rw [hval, bigBytes_bigSetBytes _ (dropWhile_zero_head data)]

theorem dropWhile_zero_eq_iff (data : List Byte) :
    data.dropWhile (· = 0) = data ↔ ∀ d ∈ data.head?, d ≠ 0 := by
  cases data with
  | nil => simp
  | cons a as =>
    by_cases ha : a = 0
    · subst ha
      simp only [decide_True, List.dropWhile_cons_of_pos, List.head?_cons, Option.mem_def,
        Option.some.injEq, ne_eq, forall_eq', not_true_eq_false, iff_false]
      intro h
      have h1 := congrArg List.length h
      have h2 : (as.dropWhile (· = 0)).length ≤ as.length := (List.dropWhile_sublist _).length_le
      simp only [List.length_cons] at h1
      omega
    · simp [ha]

/-- C23 (the claim as stated fails): the slice `00 01` encodes to the string
"2", which decodes to the slice `01`; the leading zero byte is lost. -/
theorem b58decode_b58encode_counterexample :
    b58encode [0, 1] = [0x32] ∧ b58decode (b58encode [0, 1]) = .ok [1] ∧
    b58decode (b58encode [0, 1]) ≠ .ok [0, 1] := by
  refine ⟨by decide, by decide, by decide⟩

/-- C23 (amended): for every byte slice `data` that is empty or starts with a
non-zero byte, as "1" and "hello world" of the test do,
`b58decode(b58encode(data))` succeeds and returns exactly `data`. -/
theorem b58decode_b58encode (data : List Byte) (h : ∀ d ∈ data.head?, d ≠ 0) :
    b58decode (b58encode data) = .ok data := by
  rw [b58decode_b58encode_dropWhile, (dropWhile_zero_eq_iff data).mpr h]

/-- Witness for C23 (amended): the two slices of the test, "1" and
"hello world". -/
theorem b58decode_b58encode_witness :
    (∀ d ∈ ([0x31] : List Byte).head?, d ≠ 0) ∧
    b58decode (b58encode [0x31]) = .ok [0x31] ∧
    (∀ d ∈ ([0x68, 0x65, 0x6c, 0x6c, 0x6f, 0x20, 0x77, 0x6f, 0x72, 0x6c, 0x64] : List Byte).head?,
      d ≠ 0) ∧
    b58decode (b58encode [0x68, 0x65, 0x6c, 0x6c, 0x6f, 0x20, 0x77, 0x6f, 0x72, 0x6c, 0x64])
      = .ok [0x68, 0x65, 0x6c, 0x6c, 0x6f, 0x20, 0x77, 0x6f, 0x72, 0x6c, 0x64] :=
  ⟨by simp, b58decode_b58encode [0x31] (by simp), by simp,
    b58decode_b58encode _ (by simp)⟩

/-- C26: for every byte slice `data`, `b58encode(data)` has only characters of
the Base-58 alphabet and does not start with the character 1, and
`b58decode(b58encode(data))` succeeds and returns `data` without its leading
`00` bytes; so the round trip returns `data` itself exactly when `data` is
empty or starts with a non-zero byte. -/
theorem b58encode_b58decode_raw (data : List Byte) :
    (∀ c ∈ b58encode data, c ∈ BitcoinBase58Table) ∧
    (∀ c ∈ (b58encode data).head?, c ≠ 0x31) ∧
    b58decode (b58encode data) = .ok (data.dropWhile (· = 0)) ∧
    (b58decode (b58encode data) = .ok data ↔
      (data = [] ∨ ∃ d rest, data = d :: rest ∧ d ≠ 0)) := by
  refine ⟨b58encode_mem data, b58encode_head data, b58decode_b58encode_dropWhile data, ?_⟩
  rw [b58decode_b58encode_dropWhile, Except.ok.injEq, dropWhile_zero_eq_iff]
  cases data with
  | nil => simp
  | cons a as => simp

/-! ## Base58Check strings are canonical -/

theorem bigSetBytes_bigBytes (x : Nat) : bigSetBytes (bigBytes x) = x := by
  rw [bigBytes_eq, bigSetBytes_eq_ofDigits, ← List.map_reverse, List.reverse_reverse,
    List.map_map]
  have : (Nat.digits 256 x).map (Fin.val ∘ toByte) = Nat.digits 256 x := by
    conv_rhs => rw [← List.map_id (Nat.digits 256 x)]
    apply List.map_congr_left
    intro d hd
    have : d < 256 := Nat.digits_lt_base (by decide) hd
    simp [toByte, Nat.mod_eq_of_lt this]
  rw [this, Nat.ofDigits_digits]

theorem bigBytes_head (x : Nat) : ∀ d ∈ (bigBytes x).head?, d ≠ 0 := by
  intro d hd
  rw [bigBytes_eq] at hd
  by_cases h0 : Nat.digits 256 x = []
  · simp [h0] at hd
  · have hlast := Nat.getLast_digit_ne_zero 256 (m := x) (by
      intro hx0; subst hx0; simp at h0)
    have hlt : (Nat.digits 256 x).getLast h0 < 256 :=
      Nat.digits_lt_base (by decide) (List.getLast_mem h0)
    have hhead : ((Nat.digits 256 x).reverse.map toByte).head?
        = some (toByte ((Nat.digits 256 x).getLast h0)) := by
      rw [List.head?_map, List.head?_reverse, List.getLast?_eq_getLast _ h0]
      rfl
    rw [hhead] at hd
    cases hd
    intro hz
    have := congrArg Fin.val hz
    simp only [toByte, Nat.mod_eq_of_lt hlt] at this
    exact hlast this

theorem leadingZeros_replicate_append (k : Nat) (l : List Byte) (h : ∀ d ∈ l.head?, d ≠ 0) :
    leadingZeros (List.replicate k 0 ++ l) = k := by
  induction k with
  | zero =>
    cases l with
    | nil => simp [leadingZeros]
    | cons a as =>
      have : a ≠ 0 := h a (by simp)
      simp [leadingZeros, this]
  | succ n ih =>
    simp only [leadingZeros, List.replicate_succ, List.cons_append, decide_True,
      List.takeWhile_cons_of_pos, List.length_cons] at ih ⊢
    rw [ih]

theorem specLeadingOnes_split (s : List Byte) :
    s = List.replicate (specLeadingOnes s) 0x31 ++ s.dropWhile (· = 0x31) := by
  induction s with
  | nil => simp [specLeadingOnes]
  | cons a as ih =>
    by_cases ha : a = 0x31
    · subst ha
      simp only [specLeadingOnes, decide_True, List.takeWhile_cons_of_pos, List.length_cons,
        List.replicate_succ, List.dropWhile_cons_of_pos, List.cons_append, List.cons.injEq,
        true_and]
      exact ih
    · simp [specLeadingOnes, ha]

theorem specB58Value_dropWhile (s : List Byte) (hs : ∀ c ∈ s, c ∈ BitcoinBase58Table) :
    specB58Value s = specB58Value (s.dropWhile (· = 0x31)) := by
  have hs2 : ∀ c ∈ s.dropWhile (· = 0x31), c ∈ BitcoinBase58Table :=
    fun c hc => hs c ((List.dropWhile_sublist _).subset hc)
  have h1 := b58decodeLoop_ok s hs 0 0
  have h2 := b58decodeLoop_ok _ hs2 (0 + specLeadingOnes s) 0
  rw [foldl_b58value] at h1 h2
  have h3 := b58decodeLoop_ones (specLeadingOnes s) (s.dropWhile (· = 0x31)) 0
  rw [← specLeadingOnes_split s, h1, h2] at h3
  exact Except.ok.inj h3

theorem b58char_IndexByte (c : Byte) (hc : c ∈ BitcoinBase58Table) :
    b58char ((IndexByte BitcoinBase58Table c).getD 0) = c := by
  cases hi : IndexByte BitcoinBase58Table c with
  | none => exact absurd hc ((IndexByte_none _ _).mp hi)
  | some j => exact (IndexByte_lt _ _ _ hi).2

/-- A string over the alphabet is its leading ones followed by the base-58
digits of its value. -/
theorem string_eq_ones_digits (s : List Byte) (hs : ∀ c ∈ s, c ∈ BitcoinBase58Table) :
    s = List.replicate (specLeadingOnes s) 0x31
          ++ (Nat.digits 58 (specB58Value s)).reverse.map b58char := by
  have hs2 : ∀ c ∈ s.dropWhile (· = 0x31), c ∈ BitcoinBase58Table :=
    fun c hc => hs c ((List.dropWhile_sublist _).subset hc)
  conv_lhs => rw [specLeadingOnes_split s]
  congr 1
  rw [specB58Value_dropWhile s hs]
  have hr : ∀ c ∈ (s.dropWhile (· = 0x31)).head?, c ≠ 0x31 := by
    intro c hc
    have := List.head?_dropWhile_not (fun x : Byte => decide (x = 0x31)) s
    rw [Option.mem_def] at hc
    rw [hc] at this
    simpa using this
  generalize s.dropWhile (· = 0x31) = r at hs2 hr ⊢
  unfold specB58Value
  rw [Nat.digits_ofDigits 58 (by decide)]
  · rw [← List.map_reverse, List.reverse_reverse, List.map_map]
    conv_lhs => rw [← List.map_id r]
    apply List.map_congr_left
    intro c hc
    exact (b58char_IndexByte c (hs2 c hc)).symm
  · intro d hd
    simp only [List.mem_map, List.mem_reverse] at hd
    obtain ⟨c, hc, rfl⟩ := hd
    cases hi : IndexByte BitcoinBase58Table c with
    | none => exact absurd (hs2 c hc) ((IndexByte_none _ _).mp hi)
    | some j => exact (IndexByte_lt _ _ _ hi).1
  · intro hne
    cases r with
    | nil => simp at hne
    | cons c cs =>
      have hc1 : c ≠ 0x31 := hr c (by simp)
      simp only [List.reverse_cons, List.map_append, List.map_cons, List.map_nil]
      rw [List.getLast_append_singleton]
      intro h0
      apply hc1
      have := b58char_IndexByte c (hs2 c (by simp))
      rw [h0] at this
      exact this.symm

/-- The encoding that `Base58CheckEncode` builds from the decoded buffer of a
string over the alphabet is the string itself. -/
theorem encode_buffer_of_decode (s : List Byte) (hs : ∀ c ∈ s, c ∈ BitcoinBase58Table) :
    prependOnes (specDecodedBuffer s) (b58encode (specDecodedBuffer s)) = s := by
  have hbuf : specDecodedBuffer s
      = List.replicate (specLeadingOnes s) 0 ++ bigBytes (specB58Value s) := by
    rw [bigBytes_eq]
    rfl
  rw [prependOnes_eq, b58encode_eq, hbuf,
    leadingZeros_replicate_append _ _ (bigBytes_head _), bigSetBytes_replicate_zero,
    bigSetBytes_bigBytes]
  exact (string_eq_ones_digits s hs).symm

/-- Encoding what `Base58CheckDecode` returns gives back the decoded string. -/
theorem Base58CheckEncode_of_Decode (sha256 : List Byte → List Byte) (s : List Byte)
    (v : Byte) (b : List Byte) (h : Base58CheckDecode sha256 s = .ok (v, b)) :
    Base58CheckEncode sha256 v b = s := by
  by_cases hs : ∃ c ∈ s, c ∉ BitcoinBase58Table
  · obtain ⟨e, he⟩ := b58decodeLoop_error s hs 0 0
    simp only [Base58CheckDecode, b58decode, he] at h
    cases h
  · have hs2 : ∀ c ∈ s, c ∈ BitcoinBase58Table := by
      intro c hc
      by_contra hcn
      exact hs ⟨c, hc, hcn⟩
    obtain ⟨raw, hraw, hbuf⟩ := decode_buffer_eq_spec s hs2
    have henc := encode_buffer_of_decode s hs2
    generalize specDecodedBuffer s = buf at hbuf henc
    simp only [Base58CheckDecode, hraw, hbuf] at h
    split at h
    · cases h
    · rename_i h5
      split at h
      · cases h
      · rename_i hck
        simp only [ne_eq, not_not] at hck
        simp only [Except.ok.injEq, Prod.mk.injEq] at h
        obtain ⟨hv, hb⟩ := h
        have hpre : v :: b = buf.take (buf.length - 4) := by
          cases hp : buf.take (buf.length - 4) with
          | nil =>
            have := congrArg List.length hp
            simp only [List.length_take, List.length_nil] at this
            omega
          | cons a as =>
            rw [hp] at hv hb
            simp only [List.headD_cons, List.tail_cons] at hv hb
            rw [hv, hb]
        unfold Base58CheckEncode
        simp only
        rw [hpre, hck, List.take_append_drop]
        exact henc

/-- C25: for every string `s` on which `Base58CheckDecode` succeeds with result
`(v, b)`, `Base58CheckEncode(v, b)` is `s`; hence every string that decodes
successfully to the same `(v, b)` is `s`. This holds for any digest function. -/
theorem Base58Check_canonical (sha256 : List Byte → List Byte) (s : List Byte)
    (v : Byte) (b : List Byte) (h : Base58CheckDecode sha256 s = .ok (v, b)) :
    Base58CheckEncode sha256 v b = s ∧
    ∀ s2, Base58CheckDecode sha256 s2 = .ok (v, b) → s2 = s := by
  have h1 := Base58CheckEncode_of_Decode sha256 s v b h
  refine ⟨h1, fun s2 h2 => ?_⟩
  rw [← Base58CheckEncode_of_Decode sha256 s2 v b h2, h1]

/-- Witness for C25, with the digest function that returns 32 bytes `07`: the
string "116XpTwsU" decodes to version 0 and payload `00 31`, which encode back
to it, and no other string decodes to them. -/
theorem Base58Check_canonical_witness :
    Base58CheckDecode (fun _ => List.replicate 32 7)
        [0x31, 0x31, 0x36, 0x58, 0x70, 0x54, 0x77, 0x73, 0x55] = .ok (0, [0, 0x31]) ∧
    Base58CheckEncode (fun _ => List.replicate 32 7) 0 [0, 0x31]
      = [0x31, 0x31, 0x36, 0x58, 0x70, 0x54, 0x77, 0x73, 0x55] ∧
    ∀ s2, Base58CheckDecode (fun _ => List.replicate 32 7) s2 = .ok (0, [0, 0x31]) →
      s2 = [0x31, 0x31, 0x36, 0x58, 0x70, 0x54, 0x77, 0x73, 0x55] :=
  ⟨by decide, Base58Check_canonical _ _ 0 [0, 0x31] (by decide)⟩

/-! ## Sequences of `AddWitnessScript` calls -/

theorem AddWitnessScripts_witnesses {PK : Type} (lib : KeyLib PK) (t : Transaction)
    (calls : List Witness) :
    (t.AddWitnessScripts lib calls).witnesses
      = t.witnesses ++ (specFirstInserted lib calls).filter
          (fun x => decide (x.GetAddress lib ∉ t.witnesses.map (Witness.GetAddress lib))) := by
  induction calls generalizing t with
  | nil => simp [Transaction.AddWitnessScripts, specFirstInserted]
  | cons c rest ih =>
    unfold Transaction.AddWitnessScripts
    rw [ih]
    have hiff := addressTaken_iff lib c t.witnesses
    by_cases hb : addressTaken lib c t.witnesses = true
    · have hmem : c.GetAddress lib ∈ t.witnesses.map (Witness.GetAddress lib) := by
        obtain ⟨w, hw, hwa⟩ := hiff.mp hb
        exact List.mem_map.mpr ⟨w, hw, hwa⟩
      simp only [Transaction.AddWitnessScript, hb, ↓reduceIte, specFirstInserted,
        List.filter_cons, hmem, not_true_eq_false, decide_False, Bool.false_eq_true,
        List.filter_filter, List.append_cancel_left_eq]
      apply List.filter_congr
      intro x _
      by_cases hx : x.GetAddress lib ∈ t.witnesses.map (Witness.GetAddress lib)
      · simp [hx]
      · have : x.GetAddress lib ≠ c.GetAddress lib := fun h => hx (h ▸ hmem)
        simp [hx, this]
    · have hmem : c.GetAddress lib ∉ t.witnesses.map (Witness.GetAddress lib) := by
        intro hm
        obtain ⟨w, hw, hwa⟩ := List.mem_map.mp hm
        exact hb (hiff.mpr ⟨w, hw, hwa⟩)
      simp only [Transaction.AddWitnessScript, hb, Bool.false_eq_true, ↓reduceIte,
        specFirstInserted, List.filter_cons, hmem, not_false_eq_true, decide_True,
        List.filter_filter, List.append_assoc, List.singleton_append, List.append_cancel_left_eq,
        List.cons.injEq, true_and]
      apply List.filter_congr
      intro x _
      simp only [List.map_append, List.map_cons, List.map_nil, List.mem_append,
        List.mem_singleton, not_or, Bool.decide_and, ne_eq]

theorem AddWitnessScripts_append {PK : Type} (lib : KeyLib PK) (t : Transaction)
    (a b : List Witness) :
    t.AddWitnessScripts lib (a ++ b) = (t.AddWitnessScripts lib a).AddWitnessScripts lib b := by
  induction a generalizing t with
  | nil => rfl
  | cons c rest ih =>
    simp only [List.cons_append, Transaction.AddWitnessScripts]
    exact ih _

theorem specFirstInserted_sublist {PK : Type} (lib : KeyLib PK) (calls : List Witness) :
    (specFirstInserted lib calls).Sublist calls := by
  induction calls with
  | nil => exact List.Sublist.refl _
  | cons c rest ih => exact List.Sublist.cons₂ c ((List.filter_sublist _).trans ih)

theorem specFirstInserted_nodup {PK : Type} (lib : KeyLib PK) (calls : List Witness) :
    ((specFirstInserted lib calls).map (Witness.GetAddress lib)).Nodup := by
  induction calls with
  | nil => simp [specFirstInserted]
  | cons c rest ih =>
    simp only [specFirstInserted, List.map_cons]
    refine List.nodup_cons.mpr ⟨?_, ih.sublist ((List.filter_sublist _).map _)⟩
    intro h
    obtain ⟨x, hx, hxa⟩ := List.mem_map.mp h
    have := (List.mem_filter.mp hx).2
    simp only [ne_eq, decide_not, Bool.not_eq_eq_eq_not, Bool.not_true,
      decide_eq_false_iff_not] at this
    exact this hxa

theorem specFirstInserted_covers {PK : Type} (lib : KeyLib PK) (calls : List Witness) :
    ∀ c ∈ calls, ∃ w ∈ specFirstInserted lib calls, w.GetAddress lib = c.GetAddress lib := by
  induction calls with
  | nil => simp
  | cons a rest ih =>
    intro c hc
    rcases List.mem_cons.mp hc with rfl | hc
    · exact ⟨c, by simp [specFirstInserted], rfl⟩
    · obtain ⟨x, hx, hxa⟩ := ih c hc
      by_cases hxa2 : x.GetAddress lib = a.GetAddress lib
      · exact ⟨a, by simp [specFirstInserted], by rw [← hxa2, hxa]⟩
      · refine ⟨x, ?_, hxa⟩
        simp only [specFirstInserted, List.mem_cons]
        exact Or.inr (List.mem_filter.mpr ⟨hx, by simpa using hxa2⟩)

theorem specFirstInserted_first {PK : Type} (lib : KeyLib PK) (calls : List Witness) :
    ∀ w ∈ specFirstInserted lib calls,
      calls.find? (fun c => decide (c.GetAddress lib = w.GetAddress lib)) = some w := by
  induction calls with
  | nil => simp [specFirstInserted]
  | cons a rest ih =>
    intro w hw
    simp only [specFirstInserted, List.mem_cons] at hw
    rcases hw with rfl | hw
    · simp
    · obtain ⟨hw1, hw2⟩ := List.mem_filter.mp hw
      have hne : ¬ a.GetAddress lib = w.GetAddress lib := by
        intro h
        simp [h] at hw2
      rw [List.find?_cons_of_neg _ (by simpa using hne)]
      exact ih w hw1

/-- C24: starting from a transaction without witnesses, after the sequence
`calls` of `AddWitnessScript` calls the derived addresses of the witness list
are pairwise distinct; the list is the specification's list of first
insertions: a sublist of the inserted witnesses in call order, in which every
element is the first call with its address and every address of a call occurs;
and after any further calls `later` the list begins with the list as it was, so
that no later call reorders, replaces or removes an element. -/
theorem AddWitnessScripts_spec {PK : Type} (lib : KeyLib PK) (t : Transaction)
    (h0 : t.witnesses = []) (calls later : List Witness) :
    ((t.AddWitnessScripts lib calls).witnesses.map (Witness.GetAddress lib)).Nodup ∧
    (t.AddWitnessScripts lib calls).witnesses = specFirstInserted lib calls ∧
    (t.AddWitnessScripts lib calls).witnesses.Sublist calls ∧
    (∀ w ∈ (t.AddWitnessScripts lib calls).witnesses,
      calls.find? (fun c => decide (c.GetAddress lib = w.GetAddress lib)) = some w) ∧
    (∀ c ∈ calls, ∃ w ∈ (t.AddWitnessScripts lib calls).witnesses,
      w.GetAddress lib = c.GetAddress lib) ∧
    (t.AddWitnessScripts lib calls).witnesses
      <+: (t.AddWitnessScripts lib (calls ++ later)).witnesses := by
  have heq : (t.AddWitnessScripts lib calls).witnesses = specFirstInserted lib calls := by
    rw [AddWitnessScripts_witnesses, h0]
    simp
  refine ⟨?_, heq, ?_, ?_, ?_, ?_⟩
  · rw [heq]
    exact specFirstInserted_nodup lib calls
  · rw [heq]
    exact specFirstInserted_sublist lib calls
  · rw [heq]
    exact specFirstInserted_first lib calls
  · rw [heq]
    exact specFirstInserted_covers lib calls
  · rw [AddWitnessScripts_append, AddWitnessScripts_witnesses lib _ later]
    exact List.prefix_append _ _

/-- Witness for C24: on the empty transaction, three calls of which the third
has the address of the first leave the first two witnesses, and a fourth call
with a new address appends its witness. -/
theorem AddWitnessScripts_spec_witness :
    Transaction.zero.witnesses = [] ∧
    (Transaction.zero.AddWitnessScripts exampleKeyLib
      [⟨[1], [0x21, 3, 0xAC]⟩, ⟨[2], [0x21, 4, 0xAC]⟩, ⟨[3], [0x21, 3, 0xAC]⟩]).witnesses
      = [⟨[1], [0x21, 3, 0xAC]⟩, ⟨[2], [0x21, 4, 0xAC]⟩] ∧
    (Transaction.zero.AddWitnessScripts exampleKeyLib
      [⟨[1], [0x21, 3, 0xAC]⟩, ⟨[2], [0x21, 4, 0xAC]⟩, ⟨[3], [0x21, 3, 0xAC]⟩]).witnesses
      <+: (Transaction.zero.AddWitnessScripts exampleKeyLib
        ([⟨[1], [0x21, 3, 0xAC]⟩, ⟨[2], [0x21, 4, 0xAC]⟩, ⟨[3], [0x21, 3, 0xAC]⟩]
          ++ [⟨[4], [0x21, 5, 0xAC]⟩])).witnesses :=
  ⟨rfl, by decide,
    (AddWitnessScripts_spec exampleKeyLib Transaction.zero rfl
      [⟨[1], [0x21, 3, 0xAC]⟩, ⟨[2], [0x21, 4, 0xAC]⟩, ⟨[3], [0x21, 3, 0xAC]⟩]
      [⟨[4], [0x21, 5, 0xAC]⟩]).2.2.2.2.2⟩

/-! ## Value conservation in `CreateContractTransaction` -/

/-- The outputs of the transaction that `CreateContractTransaction` assembles
sum to the `uint64` sum of the UTXO values: their sum as natural numbers,
reduced modulo 2^64. -/
theorem contractTransactionBody_outputTotal (U : Helpers) (params : CreateSignParams)
    (tx : Transaction) (h : contractTransactionBody U params = some tx) :
    outputTotal tx = utxoTotal params.Utxos % 18446744073709551616 := by
  obtain ⟨_, h2⟩ := utxoLoop_eq U params.Utxos [] 0
  rcases hloop : utxoLoop U params.Utxos [] 0 with ⟨inputs, sum⟩
  rw [hloop] at h2
  simp only [Fin.val_zero, Nat.zero_add] at h2
  simp only [contractTransactionBody, hloop] at h
  split at h
  · cases h
  · rename_i hlt
    rw [Fin.lt_def] at hlt
    have hsub : (sum - params.Value).val = sum.val - params.Value.val := by
      rw [Fin.sub_def]
      simp only
      have := params.Value.isLt
      have := sum.isLt
      omega
    split at h
    · cases h
      simp only [outputTotal, Transaction.zero, List.nil_append, List.cons_append, List.map_cons,
        List.map_nil, List.sum_cons, List.sum_nil, hsub]
      omega
    · rename_i hpos
      have hz : (sum - params.Value).val = 0 := by
        by_contra hne
        apply hpos
        rw [gt_iff_lt, Fin.lt_def]
        exact Nat.pos_of_ne_zero hne
      cases h
      simp only [outputTotal, Transaction.zero, List.nil_append, List.map_cons,
        List.map_nil, List.sum_cons, List.sum_nil]
      omega

/-- C27 (the code diverges): with two UTXOs of values 2^64 - 1 and 2, whose sum
as natural numbers is 2^64 + 1, and a requested value of 1,
`CreateContractTransaction` does not report insufficient funds and returns its
hex strings with `true`; the transaction it assembles has the single output of
value 1, so its outputs sum to 1 and not to 2^64 + 1: the `uint64` variable
`sum` has wrapped around. -/
theorem contractTransactionBody_not_conserving :
    utxoTotal exampleOverflowParams.Utxos = 18446744073709551617 ∧
    (∃ tx, contractTransactionBody exampleHelpers exampleOverflowParams = some tx ∧
      tx.outputs = [⟨(exampleHelpers.ToBytes exampleOverflowParams.AssetId).reverse, ⟨1⟩,
        exampleHelpers.getPublicKeyHashFromAddress exampleOverflowParams.To⟩] ∧
      outputTotal tx = 1 ∧ outputTotal tx ≠ utxoTotal exampleOverflowParams.Utxos) ∧
    (∃ body raw, CreateContractTransaction neoOpcodes exampleHelpers exampleWallet
        exampleOverflowParams = .ok (body, raw, true)) := by
  refine ⟨by decide, ?_, ?_⟩
  · have h : (match contractTransactionBody exampleHelpers exampleOverflowParams with
      | some tx => decide (tx.outputs
          = [⟨(exampleHelpers.ToBytes exampleOverflowParams.AssetId).reverse, ⟨1⟩,
              exampleHelpers.getPublicKeyHashFromAddress exampleOverflowParams.To⟩] ∧
          outputTotal tx = 1 ∧ outputTotal tx ≠ utxoTotal exampleOverflowParams.Utxos)
      | none => false) = true := by decide
    split at h
    · rename_i tx htx
      exact ⟨tx, htx, by simpa using h⟩
    · cases h
  · have h : (match CreateContractTransaction neoOpcodes exampleHelpers exampleWallet
        exampleOverflowParams with
      | .ok r => r.2.2
      | _ => false) = true := by decide
    split at h
    · rename_i r hr
      exact ⟨r.1, r.2.1, by rw [hr, ← h]⟩
    · cases h

end Neo
